import Mathlib

/-!
Verification of the `home` append-only verifiable log store.

This file shallowly embeds the Rust sources of the repository
(`covering.rs`, `jumpheader.rs`, `neopack/encoder.rs`, `neopack/decoder.rs`,
`core.rs`, `isocore.rs`, `neodisk.rs`) as executable Lean definitions and
proves or refutes the specification's claims about them.

Machine integers are modelled as `Nat` with explicit bounds or `% 2^w`
where wrap-around matters.  Byte buffers are `List Nat` whose elements are
intended to be `< 256`.  Fallible operations return `Except`; operations
that mutate state through `&mut self` in Rust return the updated state even
in the error case, so that "state on error" is observable.
-/

set_option maxHeartbeats 1000000

namespace Home

/-! ## Covering index (`covering.rs`)

Stateless post-order tree indexing for a perfect `w`-ary tree.  All
functions take the width `w` explicitly; the Rust code asserts
`width > 1 && width.is_power_of_two()` at every entry point, so theorems
carry that hypothesis (`w = 2 ^ b`, `1 ≤ b`). -/

/-- `u64::trailing_zeros` of `n` (64 for `n = 0`, matching Rust's result on
the 64-bit integers the source uses). -/
def tz2 (n : ℕ) : ℕ :=
  if n = 0 then 64
  else if n % 2 = 1 then 0
  else tz2 (n / 2) + 1
decreasing_by exact Nat.div_lt_self (Nat.pos_of_ne_zero (by assumption)) one_lt_two

/-- The `while div <= n` loop of `map_item_to_covering`, accumulating
`offset`.  `div` is multiplied by `w` each round; the loop breaks early once
`n / div < w` (at that point all later terms are zero).  The guard
`2 ≤ w ∧ 1 ≤ div` mirrors the source's width assertion and makes the
recursion well-founded. -/
def mapLoop (n w div : ℕ) : ℕ :=
  if h : 2 ≤ w ∧ 1 ≤ div ∧ div ≤ n then
    if n / div < w then n / div
    else n / div + mapLoop n w (div * w)
  else 0
termination_by n + 1 - div
decreasing_by
  have h1 : 1 ≤ div := h.2.1
  have h2 : div ≤ n := h.2.2
  have : div + 1 ≤ div * w := by nlinarith [h.1]
  omega

/-- `map_item_to_covering`: post-order index of the leaf for item `n`;
`n` plus the geometric sum `⌊n/w⌋ + ⌊n/w²⌋ + ⋯`. -/
def map_item_to_covering (n w : ℕ) : ℕ :=
  n + mapLoop n w w

/-- `count_trailing_zeros_base_w`: trailing zero digits of `n` in base `w`. -/
def count_trailing_zeros_base_w (n w : ℕ) : ℕ :=
  if n = 0 then 0 else tz2 n / tz2 w

/-- The search loop of `decode_covering`: starting from an estimate `n`,
step `n` down while `y < start` and up while `y > start + h_max`.  The Rust
loop is unbounded; here it carries fuel, and `decodeLoop_converges` below
shows the fuel chosen by `decode_covering` always suffices. -/
def decodeLoop (y w : ℕ) : ℕ → ℕ → Option (ℕ × ℕ)
  | _, 0 => none
  | n, fuel + 1 =>
    let start := map_item_to_covering n w
    let hmax := count_trailing_zeros_base_w (n + 1) w
    if y < start then decodeLoop y w (n - 1) fuel
    else if y > start + hmax then decodeLoop y w (n + 1) fuel
    else some (n, y - start)

/-- `decode_covering`: invert `map_item_to_covering`, returning the item `n`
and height `h` of node `y`.  Initial estimate `n ≈ y·(w−1)/w`. -/
def decode_covering (y w : ℕ) : Option (ℕ × ℕ) :=
  decodeLoop y w (y * (w - 1) / w) (y + 2)

/-- `covering_range`: the half-open item range `[end − wʰ, end)` covered by
node `y`.  The Rust function is total (its search always terminates); the
`none` branch of the embedded search is mapped to the junk range `(0, 0)`
and `decode_covering_map` below proves it is never taken for a power-of-two
width. -/
def covering_range (y w : ℕ) : ℕ × ℕ :=
  match decode_covering y w with
  | some (n, h) => (n + 1 - w ^ h, n + 1)
  | none => (0, 0)

/-- `coverings_for_item`: half-open range of node ids completed when item
`n` is appended: `[start, start + 1 + height)`. -/
def coverings_for_item (n w : ℕ) : ℕ × ℕ :=
  let start := map_item_to_covering n w
  let height := count_trailing_zeros_base_w (n + 1) w
  (start, start + 1 + height)

/-- `children_for_covering`: node ids of the `w` children of node `y`
(empty for a leaf).  `(0..width).rev().map(...)` becomes a map over the
reversed range; the `none` branch again cannot occur for valid widths. -/
def children_for_covering (y w : ℕ) : List ℕ :=
  match decode_covering y w with
  | some (_, 0) => []
  | some (n, h) =>
    let stride := w ^ (h - 1)
    ((List.range w).reverse).map
      (fun k => map_item_to_covering (n - k * stride) w + (h - 1))
  | none => []

/-- Clean form of the geometric sum `∑_{k ≥ 1} ⌊n / wᵏ⌋` (proof-side
companion of `mapLoop`). -/
def sumDiv (n w : ℕ) : ℕ :=
  if 2 ≤ w then
    if n = 0 then 0 else n / w + sumDiv (n / w) w
  else 0
decreasing_by exact Nat.div_lt_self (Nat.pos_of_ne_zero (by assumption)) (by omega)

/-- Node id `y` lies in the block of nodes completed by item `n`
(proof-side predicate). -/
def inIntervalOf (w y n : ℕ) : Prop :=
  map_item_to_covering n w ≤ y ∧
    y ≤ map_item_to_covering n w + count_trailing_zeros_base_w (n + 1) w

/-- Largest `h` with `w ^ h ≤ rem` (0 when `rem < w` or `w ≤ 1`). -/
def maxPow (w rem : ℕ) : ℕ :=
  if h : 2 ≤ w ∧ w ≤ rem then maxPow w (rem / w) + 1 else 0
decreasing_by
  exact Nat.div_lt_self (by omega) (by omega)

/-- Modelled from the spec: `get_peaks` is used by `isocore.rs` but absent
from the `covering.rs` in the sources.  Per the spec it returns "the set of
current 'peak' root NodeIds when the store holds `len` leaves", ordered
from the highest subtree down: repeatedly strip the largest perfect
`w`-ary subtree (of `w ^ h` leaves, `h` maximal) from the remaining leaves;
the root of the subtree covering leaves `[c, c + w^h)` is the post-order
node `map_item_to_covering (c + w^h - 1) + h`. -/
def peaksGo (w c rem : ℕ) : List ℕ :=
  if h : 2 ≤ w ∧ 0 < rem then
    let hh := maxPow w rem
    (map_item_to_covering (c + w ^ hh - 1) w + hh) :: peaksGo w (c + w ^ hh) (rem - w ^ hh)
  else []
termination_by rem
decreasing_by
  have : 0 < w ^ maxPow w rem := Nat.pos_pow_of_pos _ (by omega)
  omega

/-- Modelled from the spec: peak node ids for a store of `len` leaves. -/
def get_peaks (len w : ℕ) : List ℕ :=
  peaksGo w 0 len

/-! ## JumpHeader (`jumpheader.rs`) -/

/-- The `for bit_pos in (0..64).rev()` loop of `compute_jump_indices`:
for each set bit of `m` (high to low) push the running cumulative sum.
`ps` is the list of remaining bit positions, `acc` the accumulator. -/
def jumpsAux (m : ℕ) : List ℕ → ℕ → List ℕ
  | [], _ => []
  | p :: ps, acc =>
    if m &&& (1 <<< p) ≠ 0 then (acc + (1 <<< p)) :: jumpsAux m ps (acc + (1 <<< p))
    else jumpsAux m ps acc

/-- `compute_jump_indices`: skip-list targets for frame `frame_index`. -/
def compute_jump_indices (frame_index : ℕ) : List ℕ :=
  if frame_index = 0 then []
  else jumpsAux (frame_index - 1) (List.range 64).reverse 0

/-- Population count (the spec's `popcount`, proof-side). -/
def popcount (m : ℕ) : ℕ :=
  if m = 0 then 0 else m % 2 + popcount (m / 2)
decreasing_by exact Nat.div_lt_self (Nat.pos_of_ne_zero (by assumption)) one_lt_two

/-! ## NeoPack codec (`neopack/encoder.rs`, `neopack/decoder.rs`)

The tag set is from the spec's §4.1 (the sources' `types.rs` with the
concrete `Tag` discriminant values is not among the files; the byte values
are modelled as 0..16 in the spec's listed order — no claim depends on the
particular values, only on the map being injective).  Signed integers and
floats are carried as their little-endian bit patterns (`Nat`), which is
exactly what the wire stores.  `u16Max = 65535`: the encoder in the
sources uses `u16` lengths, counts and strides throughout. -/

inductive Tag where
  | bool | u8 | s8 | u16 | s16 | u32 | s32 | u64 | s64 | f32 | f64
  | string | bytes | strukt | list | map | array
deriving DecidableEq, Repr

/-- Modelled from the spec: the one-byte discriminant of each tag
(`Tag as u8`; concrete values live in the missing `types.rs`). -/
def tagToByte : Tag → ℕ
  | .bool => 0 | .u8 => 1 | .s8 => 2 | .u16 => 3 | .s16 => 4
  | .u32 => 5 | .s32 => 6 | .u64 => 7 | .s64 => 8 | .f32 => 9 | .f64 => 10
  | .string => 11 | .bytes => 12 | .strukt => 13 | .list => 14 | .map => 15
  | .array => 16

/-- `Tag::from_u8`. -/
def tagFromByte (b : ℕ) : Option Tag :=
  match b with
  | 0 => some .bool | 1 => some .u8 | 2 => some .s8 | 3 => some .u16
  | 4 => some .s16 | 5 => some .u32 | 6 => some .s32 | 7 => some .u64
  | 8 => some .s64 | 9 => some .f32 | 10 => some .f64 | 11 => some .string
  | 12 => some .bytes | 13 => some .strukt | 14 => some .list | 15 => some .map
  | 16 => some .array | _ => none

/-- `neopack::types::Error`. -/
inductive NpError where
  | Pending (short : ℕ)
  | InvalidTag (b : ℕ)
  | TypeMismatch
  | InvalidUtf8
  | Malformed
  | BlobTooLarge (len : ℕ)
  | InvalidStride (n : ℕ)
  | ContainerFull
deriving DecidableEq, Repr

def u16Max : ℕ := 65535

/-- `u16::to_le_bytes` (value taken mod 2¹⁶ like the cast in the source). -/
def le16 (v : ℕ) : List ℕ := [v % 256, v / 256 % 256]

def le32 (v : ℕ) : List ℕ :=
  [v % 256, v / 256 % 256, v / 65536 % 256, v / 16777216 % 256]

def le64 (v : ℕ) : List ℕ :=
  [v % 256, v / 2 ^ 8 % 256, v / 2 ^ 16 % 256, v / 2 ^ 24 % 256,
   v / 2 ^ 32 % 256, v / 2 ^ 40 % 256, v / 2 ^ 48 % 256, v / 2 ^ 56 % 256]

/-- `neopack::Encoder` (a growable byte buffer). -/
structure Encoder where
  buf : List ℕ
deriving DecidableEq, Repr

def Encoder.new : Encoder := ⟨[]⟩

def Encoder.write_tag (e : Encoder) (t : Tag) : Encoder :=
  ⟨e.buf ++ [tagToByte t]⟩

def Encoder.write_u16 (e : Encoder) (v : ℕ) : Encoder :=
  ⟨e.buf ++ le16 v⟩

/-- `Encoder::write_blob`: `[tag][len: u16 LE][payload]`, failing with
`BlobTooLarge` when the payload exceeds `u16::MAX` bytes. -/
def Encoder.write_blob (e : Encoder) (t : Tag) (data : List ℕ) :
    Except NpError Encoder :=
  if data.length > u16Max then .error (.BlobTooLarge data.length)
  else .ok ⟨((e.write_tag t).write_u16 data.length).buf ++ data⟩

def Encoder.npbool (e : Encoder) (v : Bool) : Encoder :=
  ⟨(e.write_tag .bool).buf ++ [if v then 1 else 0]⟩

def Encoder.npu8 (e : Encoder) (v : ℕ) : Encoder :=
  ⟨(e.write_tag .u8).buf ++ [v]⟩

def Encoder.npu16 (e : Encoder) (v : ℕ) : Encoder :=
  (e.write_tag .u16).write_u16 v

def Encoder.npu32 (e : Encoder) (v : ℕ) : Encoder :=
  ⟨(e.write_tag .u32).buf ++ le32 v⟩

def Encoder.npu64 (e : Encoder) (v : ℕ) : Encoder :=
  ⟨(e.write_tag .u64).buf ++ le64 v⟩

def Encoder.npstr (e : Encoder) (s : List ℕ) : Except NpError Encoder :=
  e.write_blob .string s

def Encoder.npbytes (e : Encoder) (v : List ℕ) : Except NpError Encoder :=
  e.write_blob .bytes v

def Encoder.struct_blob (e : Encoder) (v : List ℕ) : Except NpError Encoder :=
  e.write_blob .strukt v

/-- `Encoder::array`: scope opener; validates the stride and writes
`[Array tag][item_tag][stride: u16][count placeholder]`. -/
def Encoder.npArrayStart (e : Encoder) (item_tag : Tag) (stride : ℕ) :
    Except NpError Encoder :=
  if stride = 0 then .error (.InvalidStride 0)
  else if stride > u16Max then .error (.InvalidStride stride)
  else .ok ⟨(((e.write_tag .array).buf ++ [tagToByte item_tag])) ++ le16 stride ++ le16 0⟩

/-! ### NeoPack values and whole-value encoding

`Value` is the AST of wire values (one constructor per tag).  `encodeValue`
is the net effect of the scoped builder API on the encoder buffer: the
builders write a placeholder count and back-patch it on `finish`/drop, so
a completed container is `[tag][count: u16 LE][body]` exactly. -/

inductive Value where
  | vbool (b : Bool)
  | vu8 (v : ℕ) | vs8 (v : ℕ) | vu16 (v : ℕ) | vs16 (v : ℕ)
  | vu32 (v : ℕ) | vs32 (v : ℕ) | vu64 (v : ℕ) | vs64 (v : ℕ)
  | vf32 (bits : ℕ) | vf64 (bits : ℕ)
  | vstr (s : List ℕ) | vbytes (d : List ℕ) | vstruct (d : List ℕ)
  | vlist (vs : List Value)
  | vmap (entries : List (List ℕ × Value))
  | varray (itemTag : Tag) (stride : ℕ) (items : List (List ℕ))

/-- One UTF-8 codepoint step (RFC 3629 ranges): given a lead byte and the
bytes after it, return the remainder after the codepoint's continuation
bytes, or `none` if the sequence is invalid. -/
def utf8Step (b : ℕ) (rest : List ℕ) : Option (List ℕ) :=
  if b < 0x80 then some rest
  else if 0xC2 ≤ b ∧ b ≤ 0xDF then
    match rest with
    | c1 :: rest' => if 0x80 ≤ c1 ∧ c1 ≤ 0xBF then some rest' else none
    | _ => none
  else if b = 0xE0 then
    match rest with
    | c1 :: c2 :: rest' =>
      if 0xA0 ≤ c1 ∧ c1 ≤ 0xBF ∧ 0x80 ≤ c2 ∧ c2 ≤ 0xBF then some rest' else none
    | _ => none
  else if 0xE1 ≤ b ∧ b ≤ 0xEC then
    match rest with
    | c1 :: c2 :: rest' =>
      if 0x80 ≤ c1 ∧ c1 ≤ 0xBF ∧ 0x80 ≤ c2 ∧ c2 ≤ 0xBF then some rest' else none
    | _ => none
  else if b = 0xED then
    match rest with
    | c1 :: c2 :: rest' =>
      if 0x80 ≤ c1 ∧ c1 ≤ 0x9F ∧ 0x80 ≤ c2 ∧ c2 ≤ 0xBF then some rest' else none
    | _ => none
  else if 0xEE ≤ b ∧ b ≤ 0xEF then
    match rest with
    | c1 :: c2 :: rest' =>
      if 0x80 ≤ c1 ∧ c1 ≤ 0xBF ∧ 0x80 ≤ c2 ∧ c2 ≤ 0xBF then some rest' else none
    | _ => none
  else if b = 0xF0 then
    match rest with
    | c1 :: c2 :: c3 :: rest' =>
      if 0x90 ≤ c1 ∧ c1 ≤ 0xBF ∧ 0x80 ≤ c2 ∧ c2 ≤ 0xBF ∧ 0x80 ≤ c3 ∧ c3 ≤ 0xBF then
        some rest'
      else none
    | _ => none
  else if 0xF1 ≤ b ∧ b ≤ 0xF3 then
    match rest with
    | c1 :: c2 :: c3 :: rest' =>
      if 0x80 ≤ c1 ∧ c1 ≤ 0xBF ∧ 0x80 ≤ c2 ∧ c2 ≤ 0xBF ∧ 0x80 ≤ c3 ∧ c3 ≤ 0xBF then
        some rest'
      else none
    | _ => none
  else if b = 0xF4 then
    match rest with
    | c1 :: c2 :: c3 :: rest' =>
      if 0x80 ≤ c1 ∧ c1 ≤ 0x8F ∧ 0x80 ≤ c2 ∧ c2 ≤ 0xBF ∧ 0x80 ≤ c3 ∧ c3 ≤ 0xBF then
        some rest'
      else none
    | _ => none
  else none

/-- Codepoint-stepping loop; each step consumes at least the lead byte, so
the input length bounds the number of steps. -/
def utf8ValidGo : ℕ → List ℕ → Bool
  | _, [] => true
  | 0, _ :: _ => false
  | fuel + 1, b :: rest =>
    match utf8Step b rest with
    | some rest' => utf8ValidGo fuel rest'
    | none => false

/-- UTF-8 validity of a byte list, mirroring `std::str::from_utf8`'s
acceptance condition. -/
def utf8Valid (l : List ℕ) : Bool := utf8ValidGo l.length l

/-- Little-endian byte-list decoding (`uN::from_le_bytes` bit pattern). -/
def fromLE (bs : List ℕ) : ℕ := bs.foldr (fun b acc => b + 256 * acc) 0

/-- `neopack::decoder::Reader`: an in-memory byte slice plus cursor.
`&mut self` methods return the updated reader also on error, so the cursor
position after a failed read is observable (claim C5 is about it). -/
structure Reader where
  buf : List ℕ
  pos : ℕ
deriving DecidableEq, Repr

def Reader.new (buf : List ℕ) : Reader := ⟨buf, 0⟩

def Reader.remaining (r : Reader) : ℕ := r.buf.length - r.pos

/-- `Reader::need`: `Pending(n - remaining)` when fewer than `n` bytes
remain (does not touch the cursor — it takes `&self`). -/
def Reader.need (r : Reader) (n : ℕ) : Except NpError Unit :=
  if r.remaining < n then .error (.Pending (n - r.remaining)) else .ok ()

def Reader.read_u8 (r : Reader) : Except NpError ℕ × Reader :=
  match r.need 1 with
  | .error e => (.error e, r)
  | .ok _ => (.ok (r.buf.getD r.pos 0), { r with pos := r.pos + 1 })

def Reader.read_u16 (r : Reader) : Except NpError ℕ × Reader :=
  match r.need 2 with
  | .error e => (.error e, r)
  | .ok _ =>
    (.ok (r.buf.getD r.pos 0 + 256 * r.buf.getD (r.pos + 1) 0),
      { r with pos := r.pos + 2 })

def Reader.read_bytes (r : Reader) (len : ℕ) : Except NpError (List ℕ) × Reader :=
  match r.need len with
  | .error e => (.error e, r)
  | .ok _ => (.ok ((r.buf.drop r.pos).take len), { r with pos := r.pos + len })

/-- `Reader::read_tag` (on an unknown byte the cursor stays advanced past
it, exactly as in the source where `read_u8` has already run). -/
def Reader.read_tag (r : Reader) : Except NpError Tag × Reader :=
  match r.read_u8 with
  | (.error e, r') => (.error e, r')
  | (.ok b, r') =>
    match tagFromByte b with
    | some t => (.ok t, r')
    | none => (.error (.InvalidTag b), r')

/-- `Reader::str`: `[String tag][len: u16][payload]`, validating UTF-8. -/
def Reader.npstr (r : Reader) : Except NpError (List ℕ) × Reader :=
  match r.read_tag with
  | (.error e, r') => (.error e, r')
  | (.ok t, r') =>
    if t ≠ Tag.string then (.error .TypeMismatch, r')
    else
      match r'.read_u16 with
      | (.error e, r'') => (.error e, r'')
      | (.ok len, r'') =>
        match r''.read_bytes len with
        | (.error e, r3) => (.error e, r3)
        | (.ok bs, r3) =>
          if utf8Valid bs then (.ok bs, r3) else (.error .InvalidUtf8, r3)

/-- `Reader::bytes`: `[Bytes tag][len: u16][payload]`. -/
def Reader.npbytes (r : Reader) : Except NpError (List ℕ) × Reader :=
  match r.read_tag with
  | (.error e, r') => (.error e, r')
  | (.ok t, r') =>
    if t ≠ Tag.bytes then (.error .TypeMismatch, r')
    else
      match r'.read_u16 with
      | (.error e, r'') => (.error e, r'')
      | (.ok len, r'') => r''.read_bytes len

/-- Drain an `ArrayIter`: read `count` chunks of `stride` bytes. -/
def decodeChunks (stride : ℕ) : ℕ → Reader → Except NpError (List (List ℕ)) × Reader
  | 0, r => (.ok [], r)
  | count + 1, r =>
    match r.read_bytes stride with
    | (.error e, r') => (.error e, r')
    | (.ok c, r') =>
      match decodeChunks stride count r' with
      | (.error e, r'') => (.error e, r'')
      | (.ok cs, r'') => (.ok (c :: cs), r'')

mutual

/-- `ValueReader::read` with the container iterators fully drained
(`ListIter::next` / `MapIter::next` / `ArrayIter::next` loops), so a whole
tree decodes to a `Value`.  The Rust loop structure carries no fuel; here
each nesting level consumes one unit and `decode_fuel_sufficient` below
shows `sizeOf` of the encoded value bounds the need. -/
def decodeValue : ℕ → Reader → Except NpError Value × Reader
  | 0, r => (.error .Malformed, r)
  | fuel + 1, r =>
    match r.read_tag with
    | (.error e, r') => (.error e, r')
    | (.ok t, r') =>
      match t with
      | .bool =>
        match r'.read_u8 with
        | (.error e, r'') => (.error e, r'')
        | (.ok b, r'') => (.ok (.vbool (b != 0)), r'')
      | .u8 =>
        match r'.read_u8 with
        | (.error e, r'') => (.error e, r'')
        | (.ok v, r'') => (.ok (.vu8 v), r'')
      | .s8 =>
        match r'.read_u8 with
        | (.error e, r'') => (.error e, r'')
        | (.ok v, r'') => (.ok (.vs8 v), r'')
      | .u16 =>
        match r'.read_u16 with
        | (.error e, r'') => (.error e, r'')
        | (.ok v, r'') => (.ok (.vu16 v), r'')
      | .s16 =>
        match r'.read_u16 with
        | (.error e, r'') => (.error e, r'')
        | (.ok v, r'') => (.ok (.vs16 v), r'')
      | .u32 =>
        match r'.read_bytes 4 with
        | (.error e, r'') => (.error e, r'')
        | (.ok bs, r'') => (.ok (.vu32 (fromLE bs)), r'')
      | .s32 =>
        match r'.read_bytes 4 with
        | (.error e, r'') => (.error e, r'')
        | (.ok bs, r'') => (.ok (.vs32 (fromLE bs)), r'')
      | .u64 =>
        match r'.read_bytes 8 with
        | (.error e, r'') => (.error e, r'')
        | (.ok bs, r'') => (.ok (.vu64 (fromLE bs)), r'')
      | .s64 =>
        match r'.read_bytes 8 with
        | (.error e, r'') => (.error e, r'')
        | (.ok bs, r'') => (.ok (.vs64 (fromLE bs)), r'')
      | .f32 =>
        match r'.read_bytes 4 with
        | (.error e, r'') => (.error e, r'')
        | (.ok bs, r'') => (.ok (.vf32 (fromLE bs)), r'')
      | .f64 =>
        match r'.read_bytes 8 with
        | (.error e, r'') => (.error e, r'')
        | (.ok bs, r'') => (.ok (.vf64 (fromLE bs)), r'')
      | .string =>
        match r'.read_u16 with
        | (.error e, r'') => (.error e, r'')
        | (.ok len, r'') =>
          match r''.read_bytes len with
          | (.error e, r3) => (.error e, r3)
          | (.ok bs, r3) =>
            if utf8Valid bs then (.ok (.vstr bs), r3) else (.error .InvalidUtf8, r3)
      | .bytes =>
        match r'.read_u16 with
        | (.error e, r'') => (.error e, r'')
        | (.ok len, r'') =>
          match r''.read_bytes len with
          | (.error e, r3) => (.error e, r3)
          | (.ok bs, r3) => (.ok (.vbytes bs), r3)
      | .strukt =>
        match r'.read_u16 with
        | (.error e, r'') => (.error e, r'')
        | (.ok len, r'') =>
          match r''.read_bytes len with
          | (.error e, r3) => (.error e, r3)
          | (.ok bs, r3) => (.ok (.vstruct bs), r3)
      | .list =>
        match r'.read_u16 with
        | (.error e, r'') => (.error e, r'')
        | (.ok count, r'') =>
          match decodeValues fuel count r'' with
          | (.error e, r3) => (.error e, r3)
          | (.ok vs, r3) => (.ok (.vlist vs), r3)
      | .map =>
        match r'.read_u16 with
        | (.error e, r'') => (.error e, r'')
        | (.ok count, r'') =>
          match decodeEntries fuel count r'' with
          | (.error e, r3) => (.error e, r3)
          | (.ok es, r3) => (.ok (.vmap es), r3)
      | .array =>
        match r'.read_u8 with
        | (.error e, r'') => (.error e, r'')
        | (.ok itb, r'') =>
          match tagFromByte itb with
          | none => (.error (.InvalidTag itb), r'')
          | some itemTag =>
            match r''.read_u16 with
            | (.error e, r3) => (.error e, r3)
            | (.ok stride, r3) =>
              match r3.read_u16 with
              | (.error e, r4) => (.error e, r4)
              | (.ok count, r4) =>
                if stride * count > u16Max then (.error .Malformed, r4)
                else
                  match decodeChunks stride count r4 with
                  | (.error e, r5) => (.error e, r5)
                  | (.ok items, r5) => (.ok (.varray itemTag stride items), r5)

/-- Drain a `ListIter`: read `count` values. -/
def decodeValues : ℕ → ℕ → Reader → Except NpError (List Value) × Reader
  | _, 0, r => (.ok [], r)
  | fuel, count + 1, r =>
    match decodeValue fuel r with
    | (.error e, r') => (.error e, r')
    | (.ok v, r') =>
      match decodeValues fuel count r' with
      | (.error e, r'') => (.error e, r'')
      | (.ok vs, r'') => (.ok (v :: vs), r'')

/-- Drain a `MapIter`: read `count` (string key, value) entries. -/
def decodeEntries : ℕ → ℕ → Reader → Except NpError (List (List ℕ × Value)) × Reader
  | _, 0, r => (.ok [], r)
  | fuel, count + 1, r =>
    match r.npstr with
    | (.error e, r') => (.error e, r')
    | (.ok k, r') =>
      match decodeValue fuel r' with
      | (.error e, r'') => (.error e, r'')
      | (.ok v, r'') =>
        match decodeEntries fuel count r'' with
        | (.error e, r3) => (.error e, r3)
        | (.ok es, r3) => (.ok ((k, v) :: es), r3)

end

/-! ### Whole-value encoding (net effect of the builder API) -/

mutual

/-- Net encoder effect for one value: scalars via the typed methods, blobs
via `write_blob`, containers as `[tag][count: u16][body]` (what the scope
builders produce after back-patching the count), arrays additionally with
`[item_tag][stride: u16]` and the `InvalidStride` / stride-mismatch
(`Malformed`) / count-overflow (`ContainerFull`) checks of the source. -/
def encodeValue : Value → Except NpError (List ℕ)
  | .vbool b => .ok [tagToByte .bool, if b then 1 else 0]
  | .vu8 v => .ok [tagToByte .u8, v]
  | .vs8 v => .ok [tagToByte .s8, v]
  | .vu16 v => .ok (tagToByte .u16 :: le16 v)
  | .vs16 v => .ok (tagToByte .s16 :: le16 v)
  | .vu32 v => .ok (tagToByte .u32 :: le32 v)
  | .vs32 v => .ok (tagToByte .s32 :: le32 v)
  | .vu64 v => .ok (tagToByte .u64 :: le64 v)
  | .vs64 v => .ok (tagToByte .s64 :: le64 v)
  | .vf32 bits => .ok (tagToByte .f32 :: le32 bits)
  | .vf64 bits => .ok (tagToByte .f64 :: le64 bits)
  | .vstr s =>
    if s.length > u16Max then .error (.BlobTooLarge s.length)
    else .ok (tagToByte .string :: le16 s.length ++ s)
  | .vbytes d =>
    if d.length > u16Max then .error (.BlobTooLarge d.length)
    else .ok (tagToByte .bytes :: le16 d.length ++ d)
  | .vstruct d =>
    if d.length > u16Max then .error (.BlobTooLarge d.length)
    else .ok (tagToByte .strukt :: le16 d.length ++ d)
  | .vlist vs =>
    if vs.length > u16Max then .error .ContainerFull
    else
      match encodeList vs with
      | .error e => .error e
      | .ok body => .ok (tagToByte .list :: le16 vs.length ++ body)
  | .vmap es =>
    if es.length > u16Max then .error .ContainerFull
    else
      match encodeEntryList es with
      | .error e => .error e
      | .ok body => .ok (tagToByte .map :: le16 es.length ++ body)
  | .varray itemTag stride items =>
    if stride = 0 then .error (.InvalidStride 0)
    else if stride > u16Max then .error (.InvalidStride stride)
    else if items.length > u16Max then .error .ContainerFull
    else if items.any (fun c => c.length != stride) then .error .Malformed
    else
      .ok (tagToByte .array :: tagToByte itemTag :: le16 stride ++
        le16 items.length ++ items.flatten)

def encodeList : List Value → Except NpError (List ℕ)
  | [] => .ok []
  | v :: vs =>
    match encodeValue v with
    | .error e => .error e
    | .ok bs =>
      match encodeList vs with
      | .error e => .error e
      | .ok rest => .ok (bs ++ rest)

def encodeEntryList : List (List ℕ × Value) → Except NpError (List ℕ)
  | [] => .ok []
  | (k, v) :: es =>
    if k.length > u16Max then .error (.BlobTooLarge k.length)
    else
      match encodeValue v with
      | .error e => .error e
      | .ok bs =>
        match encodeEntryList es with
        | .error e => .error e
        | .ok rest => .ok ((tagToByte .string :: le16 k.length ++ k) ++ bs ++ rest)

end

/-- Well-formedness of a value as the Rust types guarantee it: scalar
payloads fit their width, blob/container sizes fit the encoder's `u16`
limits, strings are UTF-8, array items match the stride and the array's
total byte size fits `u16` (the decoder's check). -/
def ValueWF : Value → Prop
  | .vbool _ => True
  | .vu8 v => v < 2 ^ 8
  | .vs8 v => v < 2 ^ 8
  | .vu16 v => v < 2 ^ 16
  | .vs16 v => v < 2 ^ 16
  | .vu32 v => v < 2 ^ 32
  | .vs32 v => v < 2 ^ 32
  | .vu64 v => v < 2 ^ 64
  | .vs64 v => v < 2 ^ 64
  | .vf32 bits => bits < 2 ^ 32
  | .vf64 bits => bits < 2 ^ 64
  | .vstr s => s.length ≤ u16Max ∧ utf8Valid s = true ∧ ∀ c ∈ s, c < 256
  | .vbytes d => d.length ≤ u16Max ∧ ∀ c ∈ d, c < 256
  | .vstruct d => d.length ≤ u16Max ∧ ∀ c ∈ d, c < 256
  | .vlist vs => vs.length ≤ u16Max ∧ ∀ v ∈ vs, ValueWF v
  | .vmap es => es.length ≤ u16Max ∧
      ∀ kv ∈ es, (kv.1.length ≤ u16Max ∧ utf8Valid kv.1 = true ∧ ∀ c ∈ kv.1, c < 256) ∧
        ValueWF kv.2
  | .varray _ stride items => stride ≠ 0 ∧ stride ≤ u16Max ∧ items.length ≤ u16Max ∧
      stride * items.length ≤ u16Max ∧ ∀ c ∈ items, c.length = stride
decreasing_by
  all_goals simp_wf
  · have h1 := List.sizeOf_lt_of_mem (by assumption : v ∈ vs)
    omega
  · have h1 := List.sizeOf_lt_of_mem (by assumption : kv ∈ es)
    have h2 : sizeOf kv.2 < sizeOf kv := by
      obtain ⟨k, v⟩ := kv
      simp
    omega

/-! ## Core (`core.rs`)

An append-only log of byte messages with an in-memory cache.  `MessageId`
is `u16` in the source (`FULL = 0xFFFF`); ids are plain `Nat` here with
the `0xFFFF` bound written out.  This embeds the in-memory instantiation
(`path = None`): `flush` and the disk half of `load_message` are no-ops
there, and all claims about `Core`/`IsoCore` concern that configuration
(it is also what the repository's own tests exercise). -/

inductive CoreError where
  | AlreadyCached
  | NotCached
  | CoreFull
  | FutureMessage
  | Io
  | Neopack (e : NpError)
  | BadInfoVersion (v : ℕ)
  | BadInfoSchema
deriving DecidableEq, Repr

/-- `Core`: `messages` is the `BTreeMap<MessageId, Message>` as an
association list mapping an id to its `Range<usize>` into `cache`. -/
structure Core where
  begin_flush : ℕ
  cache : List ℕ
  messages : List (ℕ × (ℕ × ℕ))
  next_id : ℕ
deriving DecidableEq, Repr

def Core.create_mem : Core := ⟨0, [], [], 0⟩

def Core.len (c : Core) : ℕ := c.next_id

def Core.check_future_message (c : Core) (id : ℕ) : Except CoreError Unit :=
  if id ≥ c.next_id then .error .FutureMessage else .ok ()

def Core.cache_message (c : Core) (id : ℕ) (contents : List ℕ) :
    Except CoreError Core :=
  match c.check_future_message id with
  | .error e => .error e
  | .ok _ =>
    if (c.messages.lookup id).isSome then .error .AlreadyCached
    else
      let cache' := c.cache ++ contents
      .ok { c with
        cache := cache',
        messages := (id, (cache'.length - contents.length, cache'.length)) :: c.messages }

/-- `Core::load_message` for the in-memory store: bounds check, then a
no-op (`let Some(ref path) = self.path else return Ok(())`). -/
def Core.load_message (c : Core) (id : ℕ) : Except CoreError Core :=
  match c.check_future_message id with
  | .error e => .error e
  | .ok _ =>
    if (c.messages.lookup id).isSome then .ok c
    else .ok c

/-- `Core::add_message`: `CoreFull` guard, id assignment with saturating
increment, then caching.  Returns the updated state also on error (the
Rust `&mut self` has already bumped `next_id` when `cache_message`
fails). -/
def Core.add_message (c : Core) (contents : List ℕ) :
    Except CoreError ℕ × Core :=
  if c.next_id = 0xFFFF then (.error .CoreFull, c)
  else
    let id := c.next_id
    let c1 := { c with next_id := min (id + 1) 0xFFFF }
    match c1.cache_message id contents with
    | .error e => (.error e, c1)
    | .ok c2 => (.ok id, c2)

/-- `Core::get_contents` (in-memory: `load_message` adds nothing). -/
def Core.get_contents (c : Core) (id : ℕ) : Except CoreError (List ℕ) :=
  match c.check_future_message id with
  | .error e => .error e
  | .ok _ =>
    match c.messages.lookup id with
    | some (s, e) => .ok ((c.cache.drop s).take (e - s))
    | none => .error .NotCached

/-! ## IsoCore (`isocore.rs`, with `key.rs`)

Blake3 and Ed25519 are external crates; the spec scopes the crypto adapter
to a bytes-level interface, so the model is parametric in
`hashFn : List ℕ → List ℕ` (32-byte digests) and
`signFn : List ℕ → List ℕ` (64-byte signatures).  Hex encoding
(`Hash::to_hex` / `Hash::from_hex`) is called by `isocore.rs` but not
defined in the sources; it is modelled from the spec's inner-node text
format (`<64 hex chars>`, lowercase). -/

/-- Lowercase hex digit of a nibble (`{:02x}` / `{:04x}` formatting). -/
def hexDigit (n : ℕ) : ℕ := if n < 10 then 48 + n else 87 + n

/-- Modelled from the spec: `Hash::to_hex`, two lowercase hex chars per
byte. -/
def toHex (bs : List ℕ) : List ℕ :=
  (bs.map (fun b => [hexDigit (b / 16 % 16), hexDigit (b % 16)])).flatten

def hexVal (c : ℕ) : Option ℕ :=
  if 48 ≤ c ∧ c ≤ 57 then some (c - 48)
  else if 97 ≤ c ∧ c ≤ 102 then some (c - 87)
  else if 65 ≤ c ∧ c ≤ 70 then some (c - 55)
  else none

/-- Modelled from the spec: `Hash::from_hex` (infallible in the call
sites' signature; undecodable chars contribute 0). -/
def fromHexPairs : List ℕ → List ℕ
  | c1 :: c2 :: rest => ((hexVal c1).getD 0 * 16 + (hexVal c2).getD 0) :: fromHexPairs rest
  | _ => []

/-- `u16::from_str_radix(s, 16)` over char codes: `none` on empty input,
invalid digit, or overflow past `u16::MAX`. -/
def parseHexLoop : List ℕ → ℕ → Option ℕ
  | [], acc => some acc
  | c :: cs, acc =>
    match hexVal c with
    | none => none
    | some d =>
      let acc' := acc * 16 + d
      if acc' > 0xFFFF then none else parseHexLoop cs acc'

def u16_from_str_radix_hex (s : List ℕ) : Option ℕ :=
  if s.isEmpty then none else parseHexLoop s 0

/-- `MessageId::to_file_name`: `"{:04x}.bin"` (ids are `u16`, so exactly
four lowercase hex digits). -/
def to_file_name (v : ℕ) : List ℕ :=
  [hexDigit (v / 4096 % 16), hexDigit (v / 256 % 16),
   hexDigit (v / 16 % 16), hexDigit (v % 16)] ++ [46, 98, 105, 110]

inductive IsoCoreError where
  | Core (e : CoreError)
  | Utf8
  | NodeFormat
  | NodeType
  | HexEncoding
  | MessageIdParse
  | IntegrityError
  | SignerMismatch
  | Io
deriving DecidableEq, Repr

inductive NodeType where
  | leaf
  | branch
deriving DecidableEq, Repr

structure NodeChild where
  node_type : NodeType
  hash : List ℕ
  index : ℕ
deriving DecidableEq, Repr

structure VerkleNode where
  children : List NodeChild
deriving DecidableEq, Repr

/-- `VerkleNode::compute_hash`: Blake3 of the concatenated child hashes. -/
def VerkleNode.compute_hash (hashFn : List ℕ → List ℕ) (node : VerkleNode) : List ℕ :=
  hashFn (node.children.map (·.hash)).flatten

/-- ASCII byte strings `"leaf"` and `"branch"`. -/
def leafBytes : List ℕ := [108, 101, 97, 102]
def branchBytes : List ℕ := [98, 114, 97, 110, 99, 104]

/-- `VerkleNode::to_bytes`: advisory hash line, then one
`<kind> <hex(hash)> <file name>` line per child (10 = `\n`, 32 = space). -/
def VerkleNode.to_bytes (hashFn : List ℕ → List ℕ) (node : VerkleNode) : List ℕ :=
  toHex (node.compute_hash hashFn) ++ [10] ++
    (node.children.map (fun child =>
      (match child.node_type with
       | .leaf => leafBytes
       | .branch => branchBytes) ++ [32] ++ toHex child.hash ++ [32] ++
        to_file_name child.index ++ [10])).flatten

/-- ASCII whitespace (the fragment of `char::is_whitespace` that can occur
in node serializations, which are pure ASCII). -/
def isWsByte (c : ℕ) : Bool := c == 32 || c == 9 || c == 10 || c == 13

/-- `str::trim_end_matches(".bin")`: repeatedly strip the suffix. -/
def trimEndBin (s : List ℕ) : List ℕ :=
  if h : 4 ≤ s.length ∧ s.drop (s.length - 4) = [46, 98, 105, 110] then
    trimEndBin (s.take (s.length - 4))
  else s
termination_by s.length
decreasing_by
  rw [List.length_take]
  omega

/-- `parse_child_line`: `<kind> <hex hash> <hex id>.bin` split on
whitespace. -/
def parse_child_line (line : List ℕ) : Except IsoCoreError NodeChild :=
  let parts := (line.splitOnP isWsByte).filter (fun t => !t.isEmpty)
  match parts with
  | [p0, p1, p2] =>
    match
      (if p0 = leafBytes then some NodeType.leaf
       else if p0 = branchBytes then some NodeType.branch
       else none) with
    | none => .error .NodeType
    | some node_type =>
      let hash := fromHexPairs p1
      match u16_from_str_radix_hex (trimEndBin p2) with
      | none => .error .MessageIdParse
      | some index => .ok ⟨node_type, hash, index⟩
  | _ => .error .NodeFormat

def parseChildren : List (List ℕ) → Except IsoCoreError (List NodeChild)
  | [] => .ok []
  | l :: ls =>
    match parse_child_line l with
    | .error e => .error e
    | .ok c =>
      match parseChildren ls with
      | .error e => .error e
      | .ok cs => .ok (c :: cs)

/-- `VerkleNode::from_bytes`: UTF-8 gate, skip the first (hash) line, drop
blank lines, parse the rest.  (`str::lines` splits on `\n`; serialized
nodes contain no `\r`.) -/
def VerkleNode.from_bytes (bytes : List ℕ) : Except IsoCoreError VerkleNode :=
  if !utf8Valid bytes then .error .Utf8
  else
    match parseChildren
      (((bytes.splitOn 10).drop 1).filter (fun l => !(l.all isWsByte))) with
    | .error e => .error e
    | .ok children => .ok ⟨children⟩

/-- `SignatureBlock::to_bytes`: `<hex root>\n<64 raw signature bytes>`. -/
def SignatureBlock.to_bytes (global_root signature : List ℕ) : List ℕ :=
  toHex global_root ++ [10] ++ signature

/-- Modelled from the spec: `CoveringId::to_verkle_id` (absent from the
sources' `covering.rs`): the storage slot in the inner log equals the
post-order `NodeId`, as a `u16` `MessageId`. -/
def to_verkle_id (y : ℕ) : ℕ := y % 0x10000

/-- The covering width used by `IsoCore` (`WIDTH: u64 = 8`). -/
def WIDTH : ℕ := 8

/-- `IsoCore` over three in-memory `Core`s (`path = None`). -/
structure IsoCore where
  signer : List ℕ
  data_core : Core
  verkle_core : Core
  sig_core : Core
deriving DecidableEq, Repr

def IsoCore.create_mem (signerPub : List ℕ) : IsoCore :=
  ⟨signerPub, Core.create_mem, Core.create_mem, Core.create_mem⟩

def IsoCore.len (iso : IsoCore) : ℕ := iso.data_core.len

/-- `IsoCore::get_node` (via `load_node`, a cache no-op for in-memory
stores, then `get_contents` + `from_bytes`). -/
def IsoCore.get_node (iso : IsoCore) (covering_id : ℕ) :
    Except IsoCoreError VerkleNode :=
  match iso.verkle_core.load_message (to_verkle_id covering_id) with
  | .error e => .error (.Core e)
  | .ok _ =>
    match iso.verkle_core.get_contents (to_verkle_id covering_id) with
    | .error e => .error (.Core e)
    | .ok bytes => VerkleNode.from_bytes bytes

/-- The `for child_id in children_ids` loop of `build_node`. -/
def IsoCore.buildChildren (iso : IsoCore) (hashFn : List ℕ → List ℕ) :
    List ℕ → Except IsoCoreError (List NodeChild)
  | [] => .ok []
  | cid :: rest =>
    match iso.get_node cid with
    | .error e => .error e
    | .ok child_node =>
      match iso.buildChildren hashFn rest with
      | .error e => .error e
      | .ok cs =>
        .ok (⟨.branch, child_node.compute_hash hashFn, to_verkle_id cid⟩ :: cs)

/-- `IsoCore::build_node`. -/
def IsoCore.build_node (iso : IsoCore) (hashFn : List ℕ → List ℕ)
    (covering_id : ℕ) (leaf_hash : List ℕ) (leaf_index : ℕ) :
    Except IsoCoreError VerkleNode :=
  let children_ids := children_for_covering covering_id WIDTH
  if children_ids.isEmpty then
    .ok ⟨[⟨.leaf, leaf_hash, leaf_index⟩]⟩
  else
    match iso.buildChildren hashFn children_ids with
    | .error e => .error e
    | .ok children => .ok ⟨children⟩

/-- The covering loop of `add_message`: build and append one node per
completed covering id. -/
def IsoCore.addNodesLoop (hashFn : List ℕ → List ℕ) :
    IsoCore → List ℕ → List ℕ → ℕ → Except IsoCoreError Unit × IsoCore
  | iso, [], _, _ => (.ok (), iso)
  | iso, cid :: rest, msg_hash, data_index =>
    match iso.build_node hashFn cid msg_hash data_index with
    | .error e => (.error e, iso)
    | .ok node =>
      match iso.verkle_core.add_message (node.to_bytes hashFn) with
      | (.error e, vc') => (.error (.Core e), { iso with verkle_core := vc' })
      | (.ok _, vc') =>
        addNodesLoop hashFn { iso with verkle_core := vc' } rest msg_hash data_index

/-- The peak loop of `add_message`: load each peak node and recompute its
hash. -/
def IsoCore.peakHashes (iso : IsoCore) (hashFn : List ℕ → List ℕ) :
    List ℕ → Except IsoCoreError (List (List ℕ))
  | [] => .ok []
  | p :: ps =>
    match iso.get_node p with
    | .error e => .error e
    | .ok peak_node =>
      match iso.peakHashes hashFn ps with
      | .error e => .error e
      | .ok hs => .ok (peak_node.compute_hash hashFn :: hs)

/-- `IsoCore::add_message`: signer check, data append, covering-node
appends, peak bagging, signature append.  Returns the state also on error
(`&mut self`). -/
def IsoCore.add_message (iso : IsoCore) (hashFn signFn : List ℕ → List ℕ)
    (message : List ℕ) (signerPub : List ℕ) :
    Except IsoCoreError (List ℕ) × IsoCore :=
  if signerPub ≠ iso.signer then (.error .SignerMismatch, iso)
  else
    match iso.data_core.add_message message with
    | (.error e, dc') => (.error (.Core e), { iso with data_core := dc' })
    | (.ok data_index, dc') =>
      let iso1 := { iso with data_core := dc' }
      let msg_hash := hashFn message
      let item_id := iso1.len - 1
      let covs := coverings_for_item item_id WIDTH
      match IsoCore.addNodesLoop hashFn iso1
          (List.range' covs.1 (covs.2 - covs.1)) msg_hash data_index with
      | (.error e, iso2) => (.error e, iso2)
      | (.ok _, iso2) =>
        let current_len := iso2.len
        let peaks := get_peaks current_len WIDTH
        match iso2.peakHashes hashFn peaks with
        | .error e => (.error e, iso2)
        | .ok peak_hashes =>
          let global_root := hashFn peak_hashes.flatten
          let signature := signFn global_root
          match iso2.sig_core.add_message
              (SignatureBlock.to_bytes global_root signature) with
          | (.error e, sc') => (.error (.Core e), { iso2 with sig_core := sc' })
          | (.ok _, sc') => (.ok global_root, { iso2 with sig_core := sc' })

/-- `IsoCore::get_message`: locate the leaf node
(`coverings_for_item(..).leaf()` is the start of the completed range),
require a single leaf child, read the data, recompute and compare the
hash. -/
def IsoCore.get_message (iso : IsoCore) (hashFn : List ℕ → List ℕ)
    (item_id : ℕ) : Except IsoCoreError (List ℕ) :=
  let covs := coverings_for_item item_id WIDTH
  match iso.get_node covs.1 with
  | .error e => .error e
  | .ok leaf_node =>
    match leaf_node.children with
    | [child] =>
      if child.node_type ≠ .leaf then .error .NodeFormat
      else
        let data_id := child.index
        let expected_hash := child.hash
        match iso.data_core.load_message data_id with
        | .error e => .error (.Core e)
        | .ok _ =>
          match iso.data_core.get_contents data_id with
          | .error e => .error (.Core e)
          | .ok data =>
            if hashFn data ≠ expected_hash then .error .IntegrityError
            else .ok data
    | _ => .error .NodeFormat

/-- Fold `add_message` over a message list (every append must succeed). -/
def IsoCore.addAll (hashFn signFn : List ℕ → List ℕ) (signerPub : List ℕ) :
    IsoCore → List (List ℕ) → Except IsoCoreError IsoCore
  | iso, [] => .ok iso
  | iso, m :: ms =>
    match iso.add_message hashFn signFn m signerPub with
    | (.error e, _) => .error e
    | (.ok _, iso') => IsoCore.addAll hashFn signFn signerPub iso' ms

/-! ## NeoDisk (`neodisk.rs`)

The writer/reader pair over one file, compressed in frames.  zstd is an
external crate: the model is parametric in `compress : List ℕ → List ℕ`.
The file is a byte list; the writer only ever appends, except for the
`seek(24)` header patch in `flush`. -/

inductive NdError where
  | Io
  | Compression
  | InvalidMagic
  | InvalidVersion (v : ℕ)
  | MessageNotFound (id : ℕ)
  | FrameNotFound (idx : ℕ)
  | Neopack (e : NpError)
deriving DecidableEq, Repr

/-- `MAGIC: &[u8; 8] = b"NEODISK\0"`. -/
def ndMagic : List ℕ := [78, 69, 79, 68, 73, 83, 75, 0]

structure NdHeader where
  version : ℕ
  frame_size : ℕ
  message_count : ℕ
deriving DecidableEq, Repr

/-- `Header::to_bytes`: magic, version (1), flags, 6 reserved bytes,
`frame_size` and `message_count` as u64 LE. -/
def ndHeaderBytes (frame_size message_count : ℕ) : List ℕ :=
  ndMagic ++ [1, 0] ++ List.replicate 6 0 ++ le64 frame_size ++ le64 message_count

/-- Read `len` bytes at `off` as a little-endian number (missing bytes
read as zero, as in the `try_into().unwrap()` slices on a valid file). -/
def readLE (file : List ℕ) (off len : ℕ) : ℕ :=
  fromLE ((file.drop off).take len)

/-- `Header::from_bytes`. -/
def ndHeaderFromBytes (bytes : List ℕ) : Except NdError NdHeader :=
  if bytes.length < 32 then .error .InvalidMagic
  else if bytes.take 8 ≠ ndMagic then .error .InvalidMagic
  else
    let version := bytes.getD 8 0
    if version ≠ 1 then .error (.InvalidVersion version)
    else .ok ⟨version, readLE bytes 16 8, readLE bytes 24 8⟩

structure NdFrameInfo where
  offset : ℕ
  compressed_size : ℕ
  decompressed_size : ℕ
  message_count : ℕ
  first_message_id : ℕ
deriving DecidableEq, Repr

structure NeoDiskWriter where
  file : List ℕ
  frame_size : ℕ
  buffer : List ℕ
  message_count : ℕ
  frames : List NdFrameInfo
  current_frame_messages : ℕ
deriving DecidableEq, Repr

/-- `NeoDiskWriter::create_with_frame_size`: truncate and write the
header. -/
def ndCreate (frame_size : ℕ) : NeoDiskWriter :=
  ⟨ndHeaderBytes frame_size 0, frame_size, [], 0, [], 0⟩

/-- `flush_frame`: compress the buffer, append it, record a `FrameInfo`. -/
def ndFlushFrame (compress : List ℕ → List ℕ) (w : NeoDiskWriter) : NeoDiskWriter :=
  if w.buffer.isEmpty then w
  else
    let offset := w.file.length
    let decompressed_size := w.buffer.length
    let compressed := compress w.buffer
    { w with
      file := w.file ++ compressed,
      buffer := [],
      frames := w.frames ++
        [⟨offset, compressed.length, decompressed_size, w.current_frame_messages,
          w.message_count - w.current_frame_messages⟩],
      current_frame_messages := 0 }

/-- `NeoDiskWriter::append`. -/
def ndAppend (compress : List ℕ → List ℕ) (w : NeoDiskWriter) (message : List ℕ) :
    ℕ × NeoDiskWriter :=
  let id := w.message_count
  let w1 := { w with
    buffer := w.buffer ++ message,
    message_count := w.message_count + 1,
    current_frame_messages := w.current_frame_messages + 1 }
  if w1.buffer.length ≥ w1.frame_size then (id, ndFlushFrame compress w1)
  else (id, w1)

/-- Overwrite `bytes` into `file` at offset `off` (models `seek` +
`write_all` within the existing file region). -/
def writeAt (file : List ℕ) (off : ℕ) (bytes : List ℕ) : List ℕ :=
  file.take off ++ bytes ++ file.drop (off + bytes.length)

/-- One index entry: five u64 LE fields. -/
def ndFrameEntryBytes (f : NdFrameInfo) : List ℕ :=
  le64 f.offset ++ le64 f.compressed_size ++ le64 f.decompressed_size ++
    le64 f.message_count ++ le64 f.first_message_id

def ndIndexBytes (frames : List NdFrameInfo) : List ℕ :=
  le64 frames.length ++ (frames.map ndFrameEntryBytes).flatten

/-- `NeoDiskWriter::flush`: last partial frame, index, 16-byte footer
(`[u64 index_offset][MAGIC]`), then patch the header's message count at
offset 24. -/
def ndFlush (compress : List ℕ → List ℕ) (w : NeoDiskWriter) : NeoDiskWriter :=
  let w1 := ndFlushFrame compress w
  let index_offset := w1.file.length
  let file2 := w1.file ++ ndIndexBytes w1.frames ++ le64 index_offset ++ ndMagic
  { w1 with file := writeAt file2 24 (le64 w1.message_count) }

def ndAppendAll (compress : List ℕ → List ℕ) :
    NeoDiskWriter → List (List ℕ) → NeoDiskWriter
  | w, [] => w
  | w, m :: ms => ndAppendAll compress (ndAppend compress w m).2 ms

/-- `read_index`: `frame_count`, then 40-byte entries.  (On a malformed
file the Rust slicing panics; on the files produced by the writer all
reads are in bounds.) -/
def ndReadIndex (file : List ℕ) (offset : ℕ) : List NdFrameInfo :=
  let frame_count := readLE file offset 8
  (List.range frame_count).map (fun i =>
    let p := offset + 8 + 40 * i
    ⟨readLE file p 8, readLE file (p + 8) 8, readLE file (p + 16) 8,
      readLE file (p + 24) 8, readLE file (p + 32) 8⟩)

/-- `NeoDiskReader::open`: header check, footer check (16-byte footer with
the 8-byte magic last), then index rebuild. -/
def ndOpen (file : List ℕ) : Except NdError (NdHeader × List NdFrameInfo) :=
  match ndHeaderFromBytes (file.take 32) with
  | .error e => .error e
  | .ok hdr =>
    if file.length < 48 then .error .InvalidMagic
    else
      let footer_pos := file.length - 16
      let index_offset := readLE file footer_pos 8
      if (file.drop (footer_pos + 8)).take 8 ≠ ndMagic then .error .InvalidMagic
      else .ok (hdr, ndReadIndex file index_offset)

/-- `FrameHeader::encode` from `jumpheader.rs` (a NeoPack list of
`frame_number`, `compressed_size`, `decompressed_size` and the nested
`jump_offsets` list) — the per-frame header that the spec's NeoDisk
layout claims precedes each compressed body. -/
def frameHeaderEncode (frame_number compressed_size decompressed_size : ℕ)
    (jump_offsets : List ℕ) : List ℕ :=
  tagToByte .list :: le16 4 ++
    (tagToByte .u64 :: le64 frame_number) ++
    (tagToByte .u64 :: le64 compressed_size) ++
    (tagToByte .u64 :: le64 decompressed_size) ++
    (tagToByte .list :: le16 jump_offsets.length ++
      (jump_offsets.map (fun o => tagToByte .u64 :: le64 o)).flatten)

/-- Well-formedness of a `Core` as the Rust types and flow guarantee it:
`next_id` fits `u16`, every cached id was handed out below `next_id`, and
every cached range lies inside the cache buffer. -/
def CoreWF (c : Core) : Prop :=
  c.next_id ≤ 0xFFFF ∧
  (∀ kv ∈ c.messages, kv.1 < c.next_id) ∧
  (∀ kv ∈ c.messages, kv.2.1 ≤ kv.2.2 ∧ kv.2.2 ≤ c.cache.length)

/-- The per-child line body of `to_bytes` (everything before the
newline). -/
def childLineBody (child : NodeChild) : List ℕ :=
  (match child.node_type with
   | .leaf => leafBytes
   | .branch => branchBytes) ++ [32] ++ toHex child.hash ++ [32] ++
    to_file_name child.index

/-- Fuel-indexed body of `expectedNode`; the fuel dominates the node id,
which strictly decreases to children. -/
def expectedNodeGo (hashFn : List ℕ → List ℕ) (msgs : List (List ℕ)) :
    ℕ → ℕ → VerkleNode
  | 0, _ => ⟨[]⟩
  | fuel + 1, y =>
    if (children_for_covering y WIDTH).isEmpty then
      ⟨[⟨.leaf, hashFn (msgs.getD (covering_range y WIDTH).1 []),
        (covering_range y WIDTH).1⟩]⟩
    else
      ⟨(children_for_covering y WIDTH).map (fun c =>
        ⟨.branch, (expectedNodeGo hashFn msgs fuel c).compute_hash hashFn,
         to_verkle_id c⟩)⟩

/-- The covering node that the loop of `add_message` stores at covering id
`y`: a single leaf child (hash and data index of the covered item) for
height-0 ids, else one branch child per covering child, carrying the child
node's recomputed hash and its `u16` slot. -/
def expectedNode (hashFn : List ℕ → List ℕ) (msgs : List (List ℕ)) (y : ℕ) :
    VerkleNode :=
  expectedNodeGo hashFn msgs (y + 1) y

/-- State invariant of an `IsoCore` holding the messages `msgs`: the data
core holds exactly `msgs`, the verkle core is covering-synced
(`next_id = map_item_to_covering msgs.length WIDTH`) and every covering
node id `y` below that bound — leaf and branch alike — is stored at the
verkle slot `y` (its post-order `NodeId`) with exactly the serialized
covering node for `y`. -/
def IsoInv (hashFn : List ℕ → List ℕ) (signerPub : List ℕ) (msgs : List (List ℕ))
    (iso : IsoCore) : Prop :=
  iso.signer = signerPub ∧
  CoreWF iso.data_core ∧
  iso.data_core.next_id = msgs.length ∧
  (∀ i < msgs.length, iso.data_core.get_contents i = .ok (msgs.getD i [])) ∧
  CoreWF iso.verkle_core ∧
  iso.verkle_core.next_id = map_item_to_covering msgs.length WIDTH ∧
  (∀ y < map_item_to_covering msgs.length WIDTH,
    iso.verkle_core.get_contents y =
      .ok ((expectedNode hashFn msgs y).to_bytes hashFn))

/-! ### Arithmetic facts about the covering index -/

theorem sumDiv_zero {w : ℕ} : sumDiv 0 w = 0 := by
  rw [sumDiv]; simp

theorem sumDiv_eq_zero {n w : ℕ} (hw : 2 ≤ w) (h : n < w) : sumDiv n w = 0 := by
  rw [sumDiv]
  rw [if_pos hw]
  rcases Nat.eq_zero_or_pos n with h0 | h0
  · simp [h0]
  · have hd : n / w = 0 := Nat.div_eq_of_lt h
    rw [if_neg (by omega), hd, sumDiv_zero]

theorem sumDiv_eq {n w : ℕ} (hw : 2 ≤ w) (hn : 0 < n) :
    sumDiv n w = n / w + sumDiv (n / w) w := by
  rw [sumDiv]; rw [if_pos hw, if_neg (by omega)]

/-- The loop started at divisor `d·w` computes the geometric sum of `n / d`.
Fuel-bounded induction: the divisor grows strictly each round. -/
theorem mapLoop_eq_sumDiv_aux {w : ℕ} (hw : 2 ≤ w) (n : ℕ) :
    ∀ m d, 1 ≤ d → n + 1 - d ≤ m → mapLoop n w (d * w) = sumDiv (n / d) w := by
  intro m
  induction m with
  | zero =>
    intro d hd hm
    -- d > n, so the loop guard fails and the sum is empty
    have hdn : n < d := by omega
    have hguard : ¬(2 ≤ w ∧ 1 ≤ d * w ∧ d * w ≤ n) := by
      rintro ⟨-, -, hle⟩
      have : d ≤ d * w := Nat.le_mul_of_pos_right d (by omega)
      omega
    rw [mapLoop, dif_neg hguard]
    have : n / d = 0 := Nat.div_eq_of_lt hdn
    rw [this, sumDiv_zero]
  | succ m ih =>
    intro d hd hm
    by_cases hle : d * w ≤ n
    · have hdw : 1 ≤ d * w := Nat.one_le_iff_ne_zero.mpr (Nat.mul_ne_zero (by omega) (by omega))
      rw [mapLoop, dif_pos ⟨hw, hdw, hle⟩]
      have hdive : n / (d * w) = n / d / w := (Nat.div_div_eq_div_mul n d w).symm
      have hpos : 0 < n / d := by
        have hdn : d ≤ n := le_trans (Nat.le_mul_of_pos_right d (by omega)) hle
        exact Nat.div_pos hdn (by omega)
      by_cases hbrk : n / (d * w) < w
      · rw [if_pos hbrk, sumDiv_eq hw hpos, ← hdive]
        have : sumDiv (n / (d * w)) w = 0 := sumDiv_eq_zero hw hbrk
        omega
      · rw [if_neg hbrk, sumDiv_eq hw hpos, ← hdive]
        have hrec : mapLoop n w (d * w * w) = sumDiv (n / (d * w)) w := by
          apply ih (d * w) hdw
          have : d + 1 ≤ d * w := by
            have : d * 2 ≤ d * w := Nat.mul_le_mul_left d hw
            omega
          omega
        omega
    · -- divisor already exceeds n: loop contributes nothing, sum of n/d is 0
      rw [mapLoop, dif_neg (by rintro ⟨-, -, hc⟩; exact hle hc)]
      have h0 : n / d / w = 0 := by
        rw [Nat.div_div_eq_div_mul]
        exact Nat.div_eq_of_lt (by omega)
      rcases Nat.eq_zero_or_pos (n / d) with h1 | h1
      · rw [h1, sumDiv_zero]
      · rw [sumDiv_eq hw h1, h0, sumDiv_zero]

/-- `map_item_to_covering n w = n + ∑_{k ≥ 1} ⌊n / wᵏ⌋`. -/
theorem map_eq_sumDiv {w : ℕ} (hw : 2 ≤ w) (n : ℕ) :
    map_item_to_covering n w = n + sumDiv n w := by
  unfold map_item_to_covering
  have := mapLoop_eq_sumDiv_aux hw n (n + 1) 1 le_rfl (by omega)
  simpa using this

theorem tz2_odd {m : ℕ} (h : m % 2 = 1) : tz2 m = 0 := by
  rw [tz2]
  rw [if_neg (by omega), if_pos h]

theorem tz2_even {m : ℕ} (hm : 0 < m) (h : m % 2 = 0) : tz2 m = tz2 (m / 2) + 1 := by
  rw [tz2]
  rw [if_neg (by omega), if_neg (by omega)]

theorem tz2_pow2 (b : ℕ) : tz2 (2 ^ b) = b := by
  induction b with
  | zero => simp [tz2]
  | succ b ih =>
    rw [tz2_even (Nat.pos_pow_of_pos _ (by omega)) (by
      simp [Nat.pow_succ, Nat.mul_mod_left])]
    rw [Nat.pow_succ, Nat.mul_div_cancel _ (by omega : 0 < 2)]
    omega

theorem tz2_pow2_mul (b : ℕ) {q : ℕ} (hq : 0 < q) : tz2 (2 ^ b * q) = b + tz2 q := by
  induction b with
  | zero => simp
  | succ b ih =>
    have hpos : 0 < 2 ^ (b + 1) * q := by positivity
    have hdvd : (2 : ℕ) ∣ 2 ^ (b + 1) * q :=
      Dvd.dvd.mul_right (dvd_pow_self 2 (Nat.succ_ne_zero b)) q
    have heven : (2 ^ (b + 1) * q) % 2 = 0 := by
      obtain ⟨c, hc⟩ := hdvd
      rw [hc]
      exact Nat.mul_mod_right 2 c
    have hhalf : 2 ^ (b + 1) * q / 2 = 2 ^ b * q := by
      rw [Nat.pow_succ, Nat.mul_right_comm, Nat.mul_div_cancel _ (by omega : 0 < 2)]
    rw [tz2_even hpos heven, hhalf, ih]
    omega

/-- `2^k` divides a positive `m` exactly when `k` is at most the number of
trailing binary zeros of `m`. -/
theorem tz2_dvd : ∀ {m : ℕ}, 0 < m → ∀ k, (2 ^ k ∣ m ↔ k ≤ tz2 m) := by
  intro m
  induction m using Nat.strong_induction_on with
  | _ m ih =>
    intro hm k
    rcases Nat.even_or_odd m with he | ho
    · have hm2 : m % 2 = 0 := Nat.even_iff.mp he
      have hhalf : 0 < m / 2 := by omega
      have hrec := ih (m / 2) (by omega) hhalf (k - 1)
      rw [tz2_even hm hm2]
      constructor
      · intro hdvd
        rcases Nat.eq_zero_or_pos k with hk | hk
        · omega
        · have : 2 ^ (k - 1) ∣ m / 2 := by
            rcases hdvd with ⟨c, hc⟩
            refine ⟨c, ?_⟩
            have hk1 : k = (k - 1) + 1 := by omega
            rw [hk1] at hc
            rw [hc, Nat.pow_succ]
            rw [Nat.mul_right_comm, Nat.mul_div_cancel _ (by omega : 0 < 2)]
          have := hrec.mp this
          omega
      · intro hk
        rcases Nat.eq_zero_or_pos k with hk0 | hk0
        · simp [hk0]
        · have : 2 ^ (k - 1) ∣ m / 2 := hrec.mpr (by omega)
          rcases this with ⟨c, hc⟩
          refine ⟨c, ?_⟩
          have hm2eq : m = 2 * (m / 2) := by omega
          have hk1 : k = (k - 1) + 1 := by omega
          rw [hk1, Nat.pow_succ, hm2eq, hc]
          ring
    · have hm2 : m % 2 = 1 := Nat.odd_iff.mp ho
      rw [tz2_odd hm2]
      constructor
      · intro hdvd
        rcases Nat.eq_zero_or_pos k with hk | hk
        · omega
        · exfalso
          have h2 : 2 ∣ m := dvd_trans (dvd_pow_self 2 (by omega)) hdvd
          omega
      · intro hk
        simp [Nat.le_zero.mp hk]

/-- Base-`w` trailing-zero count characterizes divisibility by powers of
`w = 2^b`. -/
theorem tzw_dvd {b n : ℕ} (hb : 1 ≤ b) (hn : 0 < n) (k : ℕ) :
    (2 ^ b) ^ k ∣ n ↔ k ≤ count_trailing_zeros_base_w n (2 ^ b) := by
  rw [count_trailing_zeros_base_w, if_neg (by omega), tz2_pow2]
  rw [← Nat.pow_mul]
  rw [tz2_dvd hn (b * k)]
  rw [Nat.le_div_iff_mul_le (by omega : 0 < b)]
  rw [Nat.mul_comm b k]

theorem tzw_zero_of_not_dvd {b n : ℕ} (hb : 1 ≤ b) (hn : 0 < n)
    (h : ¬ (2 ^ b ∣ n)) : count_trailing_zeros_base_w n (2 ^ b) = 0 := by
  by_contra hne
  have h1 : 1 ≤ count_trailing_zeros_base_w n (2 ^ b) := by omega
  have := (tzw_dvd hb hn 1).mpr h1
  simp at this
  exact h this

theorem tzw_succ_of_dvd {b q : ℕ} (hb : 1 ≤ b) (hq : 0 < q) :
    count_trailing_zeros_base_w (2 ^ b * q) (2 ^ b) =
      count_trailing_zeros_base_w q (2 ^ b) + 1 := by
  have hpos : 0 < 2 ^ b * q := by positivity
  rw [count_trailing_zeros_base_w, if_neg (by omega), tz2_pow2, tz2_pow2_mul b hq]
  rw [count_trailing_zeros_base_w, if_neg (by omega), tz2_pow2]
  rw [Nat.add_div_left _ (by omega : 0 < b)]

/-- Central increment identity: appending item `n+1` adds `1 + tz_w(n+1)`
nodes, i.e. the geometric sum increases by the trailing-zero count. -/
theorem sumDiv_succ {b : ℕ} (hb : 1 ≤ b) (n : ℕ) :
    sumDiv (n + 1) (2 ^ b) =
      sumDiv n (2 ^ b) + count_trailing_zeros_base_w (n + 1) (2 ^ b) := by
  induction n using Nat.strong_induction_on with
  | _ n ih =>
    set w := 2 ^ b with hwdef
    have hw : 2 ≤ w := by
      have : 2 ^ 1 ≤ 2 ^ b := Nat.pow_le_pow_right (by omega) hb
      simpa using this
    by_cases hdvd : w ∣ n + 1
    · rcases hdvd with ⟨q, hq⟩
      have hqpos : 0 < q := by
        rcases Nat.eq_zero_or_pos q with h0 | h0
        · subst h0; simp at hq
        · exact h0
      have hnpos : 0 < n := by
        rcases Nat.eq_zero_or_pos n with h0 | h0
        · exfalso
          have h2 : 2 * 1 ≤ w * q := Nat.mul_le_mul hw hqpos
          omega
        · exact h0
      have hdiv1 : (n + 1) / w = q := by rw [hq, Nat.mul_div_cancel_left _ (by omega)]
      have hmulsucc : w * q = w * (q - 1) + w := by
        conv_lhs => rw [show q = (q - 1) + 1 by omega]
        exact Nat.mul_succ w (q - 1)
      have hdivn : n / w = q - 1 := by
        have hn : n = w * (q - 1) + (w - 1) := by omega
        rw [hn, Nat.mul_add_div (by omega), Nat.div_eq_of_lt (by omega)]
        omega
      have hqn : q - 1 < n := by
        have h2q : 2 * q ≤ w * q := Nat.mul_le_mul_right q hw
        omega
      have hihq : sumDiv q w = sumDiv (q - 1) w + count_trailing_zeros_base_w q w := by
        have := ih (q - 1) hqn
        have hsub : q - 1 + 1 = q := by omega
        rwa [hsub] at this
      have htz : count_trailing_zeros_base_w (n + 1) w =
          count_trailing_zeros_base_w q w + 1 := by
        rw [hq]; exact tzw_succ_of_dvd hb hqpos
      rw [sumDiv_eq hw (by omega), sumDiv_eq hw hnpos, hdiv1, hdivn, hihq, htz]
      omega
    · have hdiv : (n + 1) / w = n / w := by
        rw [Nat.succ_div, if_neg hdvd]
        omega
      have htz : count_trailing_zeros_base_w (n + 1) w = 0 :=
        tzw_zero_of_not_dvd hb (by omega) hdvd
      rw [htz, sumDiv_eq hw (by omega), hdiv]
      rcases Nat.eq_zero_or_pos n with h0 | h0
      · subst h0
        simp [sumDiv_zero, Nat.zero_div]
      · rw [sumDiv_eq hw h0]
        omega

/-- `map(n+1) = map(n) + 1 + tz_w(n+1)`: covering ranges of consecutive
items tile the node-id space. -/
theorem map_succ {b : ℕ} (hb : 1 ≤ b) (n : ℕ) :
    map_item_to_covering (n + 1) (2 ^ b) =
      map_item_to_covering n (2 ^ b) + 1 +
        count_trailing_zeros_base_w (n + 1) (2 ^ b) := by
  have hw : 2 ≤ 2 ^ b := by
    have : 2 ^ 1 ≤ 2 ^ b := Nat.pow_le_pow_right (by omega) hb
    simpa using this
  rw [map_eq_sumDiv hw, map_eq_sumDiv hw, sumDiv_succ hb]
  omega

theorem map_zero {w : ℕ} (hw : 2 ≤ w) : map_item_to_covering 0 w = 0 := by
  rw [map_eq_sumDiv hw, sumDiv_zero]

theorem self_le_map (n w : ℕ) : n ≤ map_item_to_covering n w := by
  unfold map_item_to_covering; omega

theorem map_lt_map {b : ℕ} (hb : 1 ≤ b) {n m : ℕ} (h : n < m) :
    map_item_to_covering n (2 ^ b) < map_item_to_covering m (2 ^ b) := by
  induction m with
  | zero => omega
  | succ m ih =>
    rw [map_succ hb m]
    rcases Nat.lt_or_ge n m with h2 | h2
    · have := ih h2; omega
    · have : n = m := by omega
      subst this; omega

theorem map_le_map {b : ℕ} (hb : 1 ≤ b) {n m : ℕ} (h : n ≤ m) :
    map_item_to_covering n (2 ^ b) ≤ map_item_to_covering m (2 ^ b) := by
  rcases Nat.lt_or_ge n m with h2 | h2
  · exact le_of_lt (map_lt_map hb h2)
  · have : n = m := by omega
    subst this; exact le_rfl

/-- Every node id lies in some item's block (the blocks tile ℕ). -/
theorem exists_inIntervalOf {b : ℕ} (hb : 1 ≤ b) (y : ℕ) :
    ∃ n, n ≤ y ∧ inIntervalOf (2 ^ b) y n := by
  have hw : 2 ≤ 2 ^ b := by
    have : 2 ^ 1 ≤ 2 ^ b := Nat.pow_le_pow_right (by omega) hb
    simpa using this
  induction y with
  | zero =>
    refine ⟨0, le_rfl, ?_, ?_⟩ <;> rw [map_zero hw] <;> omega
  | succ y ih =>
    obtain ⟨n, hny, h1, h2⟩ := ih
    rcases Nat.lt_or_ge y (map_item_to_covering n (2 ^ b) +
        count_trailing_zeros_base_w (n + 1) (2 ^ b)) with hcase | hcase
    · exact ⟨n, by omega, by omega, by omega⟩
    · refine ⟨n + 1, by omega, ?_, ?_⟩
      · rw [map_succ hb n]; omega
      · rw [map_succ hb n]; omega

theorem inIntervalOf_below {b : ℕ} (hb : 1 ≤ b) {y n m : ℕ}
    (h : inIntervalOf (2 ^ b) y n) (hm : m < n) :
    map_item_to_covering m (2 ^ b) + count_trailing_zeros_base_w (m + 1) (2 ^ b) < y := by
  have hstep := map_succ hb m
  have hle : map_item_to_covering (m + 1) (2 ^ b) ≤ map_item_to_covering n (2 ^ b) :=
    map_le_map hb (by omega)
  have := h.1
  omega

theorem inIntervalOf_above {b : ℕ} (hb : 1 ≤ b) {y n m : ℕ}
    (h : inIntervalOf (2 ^ b) y n) (hm : n < m) :
    y < map_item_to_covering m (2 ^ b) := by
  have hstep := map_succ hb n
  have hle : map_item_to_covering (n + 1) (2 ^ b) ≤ map_item_to_covering m (2 ^ b) :=
    map_le_map hb (by omega)
  have := h.2
  omega

/-- The search loop converges to the unique covering block, given enough
fuel to cover the distance from the starting estimate. -/
theorem decodeLoop_converges {b : ℕ} (hb : 1 ≤ b) {y n : ℕ}
    (h : inIntervalOf (2 ^ b) y n) :
    ∀ fuel m, n - m < fuel → m - n < fuel →
      decodeLoop y (2 ^ b) m fuel = some (n, y - map_item_to_covering n (2 ^ b)) := by
  intro fuel
  induction fuel with
  | zero => omega
  | succ fuel ih =>
    intro m hd1 hd2
    have hint1 := h.1
    have hint2 := h.2
    rcases Nat.lt_trichotomy m n with hc | hc | hc
    · -- estimate too small: y is above this block, step up
      have hup : map_item_to_covering m (2 ^ b) +
          count_trailing_zeros_base_w (m + 1) (2 ^ b) < y := inIntervalOf_below hb h hc
      have hlow : map_item_to_covering m (2 ^ b) ≤ map_item_to_covering n (2 ^ b) :=
        map_le_map hb (le_of_lt hc)
      rw [decodeLoop]
      split_ifs <;>
        first
          | exact ih (m + 1) (by omega) (by omega)
          | (exfalso; omega)
    · subst hc
      rw [decodeLoop]
      split_ifs <;>
        first
          | rfl
          | (exfalso; omega)
    · -- estimate too large: y is below this block, step down
      have hdown : y < map_item_to_covering m (2 ^ b) := inIntervalOf_above hb h hc
      have hlow : map_item_to_covering n (2 ^ b) ≤ map_item_to_covering m (2 ^ b) :=
        map_le_map hb (by omega)
      rw [decodeLoop]
      split_ifs <;>
        first
          | exact ih (m - 1) (by omega) (by omega)
          | (exfalso; omega)

/-- `decode_covering` is correct on every node id in an item's block. -/
theorem decode_covering_eq {b : ℕ} (hb : 1 ≤ b) {y n : ℕ}
    (h : inIntervalOf (2 ^ b) y n) :
    decode_covering y (2 ^ b) = some (n, y - map_item_to_covering n (2 ^ b)) := by
  have h1 : n ≤ map_item_to_covering n (2 ^ b) := self_le_map n (2 ^ b)
  have hy : n ≤ y := le_trans h1 h.1
  have hle : y * (2 ^ b - 1) / 2 ^ b ≤ y := by
    apply Nat.div_le_of_le_mul
    calc y * (2 ^ b - 1) ≤ y * 2 ^ b := Nat.mul_le_mul_left y (Nat.sub_le (2 ^ b) 1)
    _ = 2 ^ b * y := Nat.mul_comm y (2 ^ b)
  unfold decode_covering
  generalize hgen : y * (2 ^ b - 1) / 2 ^ b = m0 at hle ⊢
  exact decodeLoop_converges hb h (y + 2) m0 (by omega) (by omega)

/-- `decode_covering (map n + j) = (n, j)` for `j` up to the stack height of
item `n`. -/
theorem decode_map_add {b : ℕ} (hb : 1 ≤ b) (n j : ℕ)
    (hj : j ≤ count_trailing_zeros_base_w (n + 1) (2 ^ b)) :
    decode_covering (map_item_to_covering n (2 ^ b) + j) (2 ^ b) = some (n, j) := by
  have h : inIntervalOf (2 ^ b) (map_item_to_covering n (2 ^ b) + j) n := ⟨by omega, by omega⟩
  rw [decode_covering_eq hb h]
  simp

/-- `w ^ maxPow w rem ≤ rem` for `rem ≥ 1`. -/
theorem maxPow_le {w : ℕ} (hw : 2 ≤ w) : ∀ {rem : ℕ}, 1 ≤ rem → w ^ maxPow w rem ≤ rem := by
  intro rem
  induction rem using Nat.strong_induction_on with
  | _ rem ih =>
    intro h1
    rw [maxPow]
    by_cases hc : w ≤ rem
    · rw [dif_pos ⟨hw, hc⟩]
      have hdiv1 : 1 ≤ rem / w := Nat.one_le_div_iff (by omega) |>.mpr hc
      have hlt : rem / w < rem := Nat.div_lt_self (by omega) (by omega)
      have := ih (rem / w) hlt hdiv1
      calc w ^ (maxPow w (rem / w) + 1) = w * w ^ maxPow w (rem / w) := by ring
      _ ≤ w * (rem / w) := Nat.mul_le_mul_left w this
      _ ≤ rem := by rw [Nat.mul_comm]; exact Nat.div_mul_le_self rem w
    · rw [dif_neg (by tauto)]
      simpa using h1

/-- `rem < w ^ (maxPow w rem + 1)`. -/
theorem maxPow_lt {w : ℕ} (hw : 2 ≤ w) : ∀ (rem : ℕ), rem < w ^ (maxPow w rem + 1) := by
  intro rem
  induction rem using Nat.strong_induction_on with
  | _ rem ih =>
    rw [maxPow]
    by_cases hc : w ≤ rem
    · rw [dif_pos ⟨hw, hc⟩]
      have hlt : rem / w < rem := Nat.div_lt_self (by omega) (by omega)
      have hr := ih (rem / w) hlt
      have h2 : rem < w * (rem / w) + w := by
        have h3 := Nat.div_add_mod rem w
        have h4 : rem % w < w := Nat.mod_lt _ (by omega)
        omega
      calc rem < w * (rem / w) + w := h2
      _ = w * (rem / w + 1) := by ring
      _ ≤ w * w ^ (maxPow w (rem / w) + 1) := Nat.mul_le_mul_left w hr
      _ = w ^ (maxPow w (rem / w) + 1 + 1) := by ring
    · rw [dif_neg (by tauto)]
      simpa using (show rem < w by omega)

/-- Every peak id of `peaksGo` is below `map (c + rem)`: peaks are roots of
already-completed subtrees.  The divisibility premise says `c` is aligned
to every power of `w` still fitting in `rem`. -/
theorem peaksGo_bound {b : ℕ} (hb : 1 ≤ b) :
    ∀ rem c, (∀ k, (2 ^ b) ^ k ≤ rem → (2 ^ b) ^ k ∣ c) →
      ∀ y ∈ peaksGo (2 ^ b) c rem, y < map_item_to_covering (c + rem) (2 ^ b) := by
  have hw : 2 ≤ 2 ^ b := by
    have : 2 ^ 1 ≤ 2 ^ b := Nat.pow_le_pow_right (by omega) hb
    simpa using this
  intro rem
  induction rem using Nat.strong_induction_on with
  | _ rem ih =>
    intro c hdvd y hy
    rw [peaksGo] at hy
    by_cases hpos : 0 < rem
    · rw [dif_pos ⟨hw, hpos⟩] at hy
      simp only [List.mem_cons] at hy
      have hple : (2 ^ b) ^ maxPow (2 ^ b) rem ≤ rem := maxPow_le hw hpos
      have hppos : 0 < (2 ^ b) ^ maxPow (2 ^ b) rem := Nat.pos_pow_of_pos _ (by omega)
      rcases hy with hy | hy
      · -- the head peak: root of the subtree over [c, c + w^hh)
        subst hy
        have hdc : (2 ^ b) ^ maxPow (2 ^ b) rem ∣ c := hdvd _ hple
        have hsum : c + (2 ^ b) ^ maxPow (2 ^ b) rem - 1 + 1 =
            c + (2 ^ b) ^ maxPow (2 ^ b) rem := by omega
        have hdn : (2 ^ b) ^ maxPow (2 ^ b) rem ∣
            (c + (2 ^ b) ^ maxPow (2 ^ b) rem - 1 + 1) := by
          rw [hsum]
          exact Dvd.dvd.add hdc dvd_rfl
        have htz : maxPow (2 ^ b) rem ≤
            count_trailing_zeros_base_w
              (c + (2 ^ b) ^ maxPow (2 ^ b) rem - 1 + 1) (2 ^ b) :=
          (tzw_dvd hb (by omega) _).mp hdn
        have hstep := map_succ hb (c + (2 ^ b) ^ maxPow (2 ^ b) rem - 1)
        have hmono : map_item_to_covering (c + (2 ^ b) ^ maxPow (2 ^ b) rem) (2 ^ b) ≤
            map_item_to_covering (c + rem) (2 ^ b) :=
          map_le_map hb (by omega)
        rw [hsum] at hstep htz
        omega
      · -- tail peaks: recurse on the rest of the leaves
        have hless : rem - (2 ^ b) ^ maxPow (2 ^ b) rem < rem := by omega
        have hdvd' : ∀ k, (2 ^ b) ^ k ≤ rem - (2 ^ b) ^ maxPow (2 ^ b) rem →
            (2 ^ b) ^ k ∣ c + (2 ^ b) ^ maxPow (2 ^ b) rem := by
          intro k hk
          have hkle : k ≤ maxPow (2 ^ b) rem := by
            by_contra hgt
            push_neg at hgt
            have h1 : (2 ^ b) ^ (maxPow (2 ^ b) rem + 1) ≤ (2 ^ b) ^ k :=
              Nat.pow_le_pow_right (by omega) (by omega)
            have h2 := maxPow_lt hw rem
            omega
          exact Dvd.dvd.add (hdvd k (by omega))
            (pow_dvd_pow (2 ^ b) hkle)
        have := ih _ hless (c + (2 ^ b) ^ maxPow (2 ^ b) rem) hdvd' y hy
        have heq : c + (2 ^ b) ^ maxPow (2 ^ b) rem +
            (rem - (2 ^ b) ^ maxPow (2 ^ b) rem) = c + rem := by omega
        rwa [heq] at this
    · rw [dif_neg (by tauto)] at hy
      simp at hy

/-- Every peak node id lies below the current inner-log length
`map_item_to_covering len`. -/
theorem get_peaks_bound {b : ℕ} (hb : 1 ≤ b) (len : ℕ) :
    ∀ y ∈ get_peaks len (2 ^ b), y < map_item_to_covering len (2 ^ b) := by
  have := peaksGo_bound hb len 0 (fun k _ => dvd_zero _)
  simpa using this

/-- C4.  For every item `n` and power-of-two width `W > 1`,
`covering_range (map_item_to_covering n)` is the one-leaf range
`(n, n+1)`; and every node id `y` decodes to an item/height pair `(n, h)`
with `covering_range y = (n + 1 - Wʰ, n + 1)` and
`map_item_to_covering ((covering_range y).end - 1) + h = y`. -/
theorem claim_C4 (w : ℕ) (hpow : ∃ b, 1 ≤ b ∧ w = 2 ^ b) :
    (∀ n, decode_covering (map_item_to_covering n w) w = some (n, 0) ∧
      covering_range (map_item_to_covering n w) w = (n, n + 1)) ∧
    (∀ y, ∃ n h, decode_covering y w = some (n, h) ∧
      covering_range y w = (n + 1 - w ^ h, n + 1) ∧
      map_item_to_covering ((covering_range y w).2 - 1) w + h = y) := by
  obtain ⟨b, hb, rfl⟩ := hpow
  constructor
  · intro n
    have hd : decode_covering (map_item_to_covering n (2 ^ b)) (2 ^ b) = some (n, 0) := by
      have := decode_map_add hb n 0 (Nat.zero_le _)
      simpa using this
    refine ⟨hd, ?_⟩
    rw [covering_range, hd]
    simp
  · intro y
    obtain ⟨n, hny, hint⟩ := exists_inIntervalOf hb y
    have hd := decode_covering_eq hb hint
    refine ⟨n, y - map_item_to_covering n (2 ^ b), hd, ?_, ?_⟩
    · rw [covering_range, hd]
    · rw [covering_range, hd]
      simp only [Nat.add_sub_cancel]
      have := hint.1
      omega

/-- Witness for C4 at `W = 8`, `n = 5`, `y = 20`. -/
theorem claim_C4_witness :
    covering_range (map_item_to_covering 5 8) 8 = (5, 6) ∧
      (∃ n h, decode_covering 20 8 = some (n, h) ∧
        covering_range 20 8 = (n + 1 - 8 ^ h, n + 1) ∧
        map_item_to_covering ((covering_range 20 8).2 - 1) 8 + h = 20) := by
  have h := claim_C4 8 ⟨3, by omega, rfl⟩
  exact ⟨(h.1 5).2, h.2 20⟩

/-! ### JumpHeader facts -/

theorem popcount_zero : popcount 0 = 0 := by rw [popcount]; simp

/-- Bit test as the loop's mask condition. -/
theorem and_pow2_ne (m p : ℕ) : (m &&& (1 <<< p) ≠ 0) ↔ m / 2 ^ p % 2 = 1 := by
  rw [Nat.shiftLeft_eq, one_mul, Nat.and_two_pow]
  have hp : (0:ℕ) < 2 ^ p := Nat.pos_pow_of_pos _ (by omega)
  rcases hbit : m.testBit p
  · rw [Nat.testBit_to_div_mod] at hbit
    simp only [decide_eq_false_iff_not] at hbit
    simp [hbit]
  · rw [Nat.testBit_to_div_mod] at hbit
    simp only [decide_eq_true_eq] at hbit
    simp [hbit, hp.ne']

/-- `jumpsAux` only inspects the bits at positions in `ps`. -/
theorem jumpsAux_congr {m m' : ℕ} :
    ∀ (ps : List ℕ) (acc : ℕ),
      (∀ p ∈ ps, m / 2 ^ p % 2 = m' / 2 ^ p % 2) →
      jumpsAux m ps acc = jumpsAux m' ps acc := by
  intro ps
  induction ps with
  | nil => intro acc _; rfl
  | cons p ps ih =>
    intro acc hsame
    have hp := hsame p (by simp)
    rw [jumpsAux, jumpsAux]
    by_cases hc : m &&& (1 <<< p) ≠ 0
    · have hc' : m' &&& (1 <<< p) ≠ 0 := by
        rw [and_pow2_ne] at hc ⊢
        omega
      rw [if_pos hc, if_pos hc']
      rw [ih _ (fun q hq => hsame q (by simp [hq]))]
    · have hc' : ¬ m' &&& (1 <<< p) ≠ 0 := by
        rw [and_pow2_ne] at hc ⊢
        omega
      rw [if_neg hc, if_neg hc']
      exact ih _ (fun q hq => hsame q (by simp [hq]))

theorem popcount_unfold (m : ℕ) : popcount m = m % 2 + popcount (m / 2) := by
  rcases Nat.eq_zero_or_pos m with h0 | h0
  · subst h0
    simp [popcount_zero]
  · rw [popcount]
    rw [if_neg (by omega)]

theorem popcount_pow2_add {k m : ℕ} (hm : m < 2 ^ k) :
    popcount (2 ^ k + m) = popcount m + 1 := by
  induction k generalizing m with
  | zero =>
    have h0 : m = 0 := by omega
    subst h0
    have h1 : (2:ℕ) ^ 0 + 0 = 1 := by norm_num
    rw [h1, popcount_unfold 1]
    simp [popcount_zero]
  | succ k ih =>
    have h2 : (2:ℕ) ^ (k + 1) = 2 * 2 ^ k := by ring
    have hmod : (2 ^ (k + 1) + m) % 2 = m % 2 := by omega
    have hdiv : (2 ^ (k + 1) + m) / 2 = 2 ^ k + m / 2 := by
      rw [h2, Nat.add_comm, Nat.add_mul_div_left _ _ (by omega : (0:ℕ) < 2)]
      omega
    have hm2 : m / 2 < 2 ^ k := by omega
    rw [popcount_unfold (2 ^ (k + 1) + m), hmod, hdiv, ih hm2,
      popcount_unfold m]
    omega

/-- Full characterization of the `compute_jump_indices` loop over the bit
positions `k-1, …, 0`: length is the popcount, the results exceed `acc`
and strictly increase, stay `≤ acc + m`, and the last one is `acc + m`. -/
theorem jumpsAux_spec :
    ∀ k m acc, m < 2 ^ k →
      (jumpsAux m (List.range k).reverse acc).length = popcount m ∧
      List.Chain' (· < ·) (acc :: jumpsAux m (List.range k).reverse acc) ∧
      (∀ x ∈ jumpsAux m (List.range k).reverse acc, x ≤ acc + m) ∧
      (1 ≤ m → (jumpsAux m (List.range k).reverse acc).getLast? = some (acc + m)) := by
  intro k
  induction k with
  | zero =>
    intro m acc hm
    have h0 : m = 0 := by omega
    subst h0
    refine ⟨by simp [jumpsAux, popcount_zero], by simp [jumpsAux], by simp [jumpsAux],
      by omega⟩
  | succ k ih =>
    intro m acc hm
    have hrange : (List.range (k + 1)).reverse = k :: (List.range k).reverse := by
      rw [List.range_succ, List.reverse_append]
      simp
    have hske : (1 <<< k : ℕ) = 2 ^ k := by rw [Nat.shiftLeft_eq, one_mul]
    have hkpos : (0:ℕ) < 2 ^ k := Nat.pos_pow_of_pos _ (by omega)
    rw [hrange, jumpsAux]
    by_cases hc : m &&& (1 <<< k) ≠ 0
    · rw [if_pos hc]
      rw [and_pow2_ne] at hc
      have hdm : m / 2 ^ k = 1 := by
        have h1 : m / 2 ^ k < 2 := by
          apply Nat.div_lt_of_lt_mul
          calc m < 2 ^ (k + 1) := hm
          _ = 2 ^ k * 2 := by ring
        generalize hq : m / 2 ^ k = q at h1 hc
        omega
      have hmodm : m % 2 ^ k = m - 2 ^ k := by
        have := Nat.div_add_mod m (2 ^ k)
        rw [hdm] at this
        omega
      have hmeq : m = 2 ^ k + (m - 2 ^ k) := by
        have := Nat.div_add_mod m (2 ^ k)
        rw [hdm] at this
        omega
      have hm'lt : m - 2 ^ k < 2 ^ k := by
        have := Nat.mod_lt m hkpos
        omega
      have hcongr : jumpsAux m (List.range k).reverse (acc + (1 <<< k)) =
          jumpsAux (m - 2 ^ k) (List.range k).reverse (acc + (1 <<< k)) := by
        apply jumpsAux_congr
        intro p hp
        have hpk : p < k := by
          simpa [List.mem_reverse, List.mem_range] using hp
        have hsplit : (2:ℕ) ^ k = 2 ^ p * 2 ^ (k - p) := by
          rw [← pow_add]
          congr 1
          omega
        have hppos : (0:ℕ) < 2 ^ p := Nat.pos_pow_of_pos _ (by omega)
        have hdq : m / 2 ^ p = 2 ^ (k - p) + (m - 2 ^ k) / 2 ^ p := by
          conv_lhs => rw [hmeq]
          rw [hsplit, Nat.add_comm, Nat.add_mul_div_left _ _ hppos]
          omega
        have heven : (2:ℕ) ^ (k - p) % 2 = 0 := by
          have hk1 : k - p = (k - p - 1) + 1 := by omega
          have h2kp : (2:ℕ) ^ (k - p) = 2 ^ (k - p - 1) * 2 := by
            conv_lhs => rw [hk1]
            rw [pow_succ]
          omega
        omega
      rw [hcongr]
      obtain ⟨ihl, ihc, ihb, ihlast⟩ := ih (m - 2 ^ k) (acc + (1 <<< k)) hm'lt
      refine ⟨?_, ?_, ?_, ?_⟩
      · simp only [List.length_cons, ihl]
        conv_rhs => rw [hmeq]
        rw [popcount_pow2_add hm'lt]
      · exact List.Chain'.cons (by omega) ihc
      · intro x hx
        rcases List.mem_cons.mp hx with h | h
        · subst h
          rw [hske]
          omega
        · have := ihb x h
          rw [hske] at this
          omega
      · intro _
        rcases Nat.eq_zero_or_pos (m - 2 ^ k) with h0 | h0
        · have hnil : jumpsAux (m - 2 ^ k) (List.range k).reverse (acc + (1 <<< k)) = [] :=
            List.eq_nil_of_length_eq_zero (by rw [ihl, h0, popcount_zero])
          rw [hnil]
          simp only [List.getLast?_cons, List.getLast?_nil, Option.getD_none,
            Option.some.injEq]
          rw [hske]
          omega
        · have hl := ihlast h0
          rw [List.getLast?_cons, hl]
          simp only [Option.getD_some, Option.some.injEq]
          rw [hske]
          omega
    · rw [if_neg hc]
      rw [and_pow2_ne] at hc
      have hmlt : m < 2 ^ k := by
        by_contra hge
        push_neg at hge
        have h1 : m / 2 ^ k < 2 := by
          apply Nat.div_lt_of_lt_mul
          calc m < 2 ^ (k + 1) := hm
          _ = 2 ^ k * 2 := by ring
        have h2 : 1 ≤ m / 2 ^ k := (Nat.one_le_div_iff hkpos).mpr hge
        omega
      exact ih m acc hmlt

/-- C7: `compute_jump_indices N` is empty for `N ∈ {0, 1}`, has length
`popcount (N−1)`, is strictly increasing, and (for `N ≥ 2`) its last —
hence greatest — element is `N − 1`. -/
theorem claim_C7 (N : ℕ) (hN : N < 2 ^ 64) :
    ((N = 0 ∨ N = 1) → compute_jump_indices N = []) ∧
    (compute_jump_indices N).length = popcount (N - 1) ∧
    List.Chain' (· < ·) (compute_jump_indices N) ∧
    (∀ x ∈ compute_jump_indices N, x ≤ N - 1) ∧
    (2 ≤ N → (compute_jump_indices N).getLast? = some (N - 1)) := by
  rcases Nat.eq_zero_or_pos N with h0 | h0
  · subst h0
    refine ⟨fun _ => rfl, ?_, ?_, ?_, ?_⟩
    · simp [compute_jump_indices, popcount_zero]
    · simp [compute_jump_indices]
    · simp [compute_jump_indices]
    · omega
  · have hrw : compute_jump_indices N = jumpsAux (N - 1) (List.range 64).reverse 0 := by
      rw [compute_jump_indices, if_neg (by omega)]
    obtain ⟨hlen, hchain, hbound, hlast⟩ :=
      jumpsAux_spec 64 (N - 1) 0 (by omega)
    refine ⟨?_, ?_, ?_, ?_, ?_⟩
    · intro h01
      have h1 : N = 1 := by omega
      subst h1
      rw [hrw]
      exact List.eq_nil_of_length_eq_zero (by rw [hlen]; simp [popcount_zero])
    · rw [hrw, hlen]
    · rw [hrw]
      exact hchain.tail
    · intro x hx
      rw [hrw] at hx
      have := hbound x hx
      omega
    · intro h2
      rw [hrw]
      have := hlast (by omega)
      simpa using this

/-- Witness for C7 at `N = 24` (`compute_jump_indices 24 = [16, 20, 22, 23]`,
the doc-test of `jumpheader.rs`). -/
theorem claim_C7_witness :
    (compute_jump_indices 24).length = popcount 23 ∧
      (2 ≤ 24 → (compute_jump_indices 24).getLast? = some 23) := by
  have h := claim_C7 24 (by norm_num)
  exact ⟨h.2.1, h.2.2.2.2⟩

/-! ### NeoPack reader primitives -/

theorem read_u8_at (pre : List ℕ) (x : ℕ) (rest : List ℕ) :
    Reader.read_u8 ⟨pre ++ x :: rest, pre.length⟩ =
      (.ok x, ⟨pre ++ x :: rest, pre.length + 1⟩) := by
  have hrem : (Reader.mk (pre ++ x :: rest) pre.length).remaining = rest.length + 1 := by
    simp [Reader.remaining]
  rw [Reader.read_u8, Reader.need, hrem, if_neg (by omega)]
  have hget : (pre ++ x :: rest).getD pre.length 0 = x := by
    rw [List.getD_append_right _ _ _ _ le_rfl]
    simp
  rw [hget]

theorem read_u16_at (pre : List ℕ) (a b : ℕ) (rest : List ℕ) :
    Reader.read_u16 ⟨pre ++ a :: b :: rest, pre.length⟩ =
      (.ok (a + 256 * b), ⟨pre ++ a :: b :: rest, pre.length + 2⟩) := by
  have hrem : (Reader.mk (pre ++ a :: b :: rest) pre.length).remaining = rest.length + 2 := by
    simp [Reader.remaining]
  rw [Reader.read_u16, Reader.need, hrem, if_neg (by omega)]
  have hga : (pre ++ a :: b :: rest).getD pre.length 0 = a := by
    rw [List.getD_append_right _ _ _ _ le_rfl]
    simp
  have hgb : (pre ++ a :: b :: rest).getD (pre.length + 1) 0 = b := by
    rw [List.getD_append_right _ _ _ _ (by omega)]
    simp
  rw [hga, hgb]

theorem read_bytes_at (pre xs rest : List ℕ) :
    Reader.read_bytes ⟨pre ++ xs ++ rest, pre.length⟩ xs.length =
      (.ok xs, ⟨pre ++ xs ++ rest, pre.length + xs.length⟩) := by
  have hrem : (Reader.mk (pre ++ xs ++ rest) pre.length).remaining =
      xs.length + rest.length := by
    simp [Reader.remaining]
  rw [Reader.read_bytes, Reader.need, hrem, if_neg (by omega)]
  have hdrop : (pre ++ xs ++ rest).drop pre.length = xs ++ rest := by
    rw [List.append_assoc, List.drop_left]
  rw [hdrop, List.take_left]

theorem tagFromByte_tagToByte (t : Tag) : tagFromByte (tagToByte t) = some t := by
  cases t <;> rfl

theorem read_tag_at (pre : List ℕ) (t : Tag) (rest : List ℕ) :
    Reader.read_tag ⟨pre ++ tagToByte t :: rest, pre.length⟩ =
      (.ok t, ⟨pre ++ tagToByte t :: rest, pre.length + 1⟩) := by
  rw [Reader.read_tag, read_u8_at]
  dsimp only
  rw [tagFromByte_tagToByte]

/-- C8 (amended).  `write_blob` fails with `BlobTooLarge(len)` exactly when
the payload exceeds `u16::MAX = 65535` bytes (and succeeds otherwise), and
`Encoder::array` fails with `InvalidStride(stride)` exactly when the stride
is 0 or exceeds `u16::MAX` (and succeeds otherwise). -/
theorem claim_C8 (e : Encoder) (t it : Tag) (data : List ℕ) (stride : ℕ) :
    (e.write_blob t data = .error (.BlobTooLarge data.length) ↔ u16Max < data.length) ∧
    ((∃ e', e.write_blob t data = .ok e') ↔ data.length ≤ u16Max) ∧
    (e.npArrayStart it stride = .error (.InvalidStride stride) ↔
      (stride = 0 ∨ u16Max < stride)) ∧
    ((∃ e', e.npArrayStart it stride = .ok e') ↔ (stride ≠ 0 ∧ stride ≤ u16Max)) := by
  refine ⟨?_, ?_, ?_, ?_⟩
  · rw [Encoder.write_blob]
    split_ifs with h
    · simp [h]
    · simp
      omega
  · rw [Encoder.write_blob]
    split_ifs with h
    · simp
      omega
    · simp
      omega
  · rw [Encoder.npArrayStart]
    split_ifs with h0 hbig
    · subst h0
      simp
    · simp [hbig]
    · simp
      omega
  · rw [Encoder.npArrayStart]
    split_ifs with h0 hbig
    · simp [h0]
    · simp
      omega
    · simp
      omega

/-- C8 (counterexample to the claim as stated): a blob of 65536 bytes is
far below `u32::MAX`, yet `write_blob` (hence `Encoder::bytes`) rejects it
with `BlobTooLarge`, and a stride of 65536 (also below `u32::MAX`) is
rejected with `InvalidStride`: the encoder's limits are `u16::MAX`, not
`u32::MAX`. -/
theorem claim_C8_counterexample :
    Encoder.npbytes Encoder.new (List.replicate 65536 0) =
        .error (.BlobTooLarge 65536) ∧
      (65536 : ℕ) < 4294967295 ∧
      Encoder.npArrayStart Encoder.new Tag.u8 65536 = .error (.InvalidStride 65536) ∧
      (65536 : ℕ) < 4294967295 := by
  have hlen : (List.replicate 65536 (0:ℕ)).length = 65536 := List.length_replicate _ _
  refine ⟨?_, by norm_num, ?_, by norm_num⟩
  · rw [Encoder.npbytes, Encoder.write_blob, hlen]
    rw [if_pos (by norm_num [u16Max])]
  · rw [Encoder.npArrayStart]
    rw [if_neg (by norm_num), if_pos (by norm_num [u16Max])]

/-- C5 (amended).  Every `need`-guarded primitive read that finds
`remaining < needed` returns `Pending(needed - remaining)` — a positive
shortfall — and leaves the cursor untouched, so that primitive can be
retried; composite accessors such as `Reader::str` propagate the `Pending`
but keep the cursor advance of their already-consumed sub-reads (see the
counterexample). -/
theorem claim_C5 (r : Reader) (len : ℕ) :
    (r.remaining < 1 →
      r.read_u8 = (.error (.Pending (1 - r.remaining)), r) ∧ 0 < 1 - r.remaining) ∧
    (r.remaining < 2 →
      r.read_u16 = (.error (.Pending (2 - r.remaining)), r) ∧ 0 < 2 - r.remaining) ∧
    (r.remaining < len →
      r.read_bytes len = (.error (.Pending (len - r.remaining)), r) ∧
        0 < len - r.remaining) := by
  refine ⟨?_, ?_, ?_⟩
  · intro h
    rw [Reader.read_u8, Reader.need, if_pos h]
    exact ⟨rfl, by omega⟩
  · intro h
    rw [Reader.read_u16, Reader.need, if_pos h]
    exact ⟨rfl, by omega⟩
  · intro h
    rw [Reader.read_bytes, Reader.need, if_pos h]
    exact ⟨rfl, by omega⟩

/-- Witness for C5: a `u16` read against a 1-byte buffer returns
`Pending(1)` and leaves the cursor at 0. -/
theorem claim_C5_witness :
    Reader.read_u16 ⟨[5], 0⟩ = (.error (.Pending 1), ⟨[5], 0⟩) ∧ 0 < 1 := by
  have h := (claim_C5 ⟨[5], 0⟩ 0).2.1 (by simp [Reader.remaining])
  have hrem : (Reader.mk [5] 0).remaining = 1 := by simp [Reader.remaining]
  rw [hrem] at h
  exact h

/-- C5 (counterexample to the claim as stated): `Reader::str` on the
3-byte prefix `[String-tag, 5, 0]` of an encoded 5-byte string returns
`Pending 5`, but the cursor has advanced from 0 to 3 (the tag and length
were consumed), so the identical read cannot be retried from the same
position. -/
theorem claim_C5_counterexample :
    (Reader.npstr ⟨[tagToByte .string, 5, 0], 0⟩).1 = .error (.Pending 5) ∧
      (Reader.npstr ⟨[tagToByte .string, 5, 0], 0⟩).2.pos = 3 ∧ (3 : ℕ) ≠ 0 := by
  refine ⟨rfl, rfl, by omega⟩

/-! ### NeoPack whole-value round-trip -/

theorem le16_round {v : ℕ} (h : v < 2 ^ 16) : v % 256 + 256 * (v / 256 % 256) = v := by
  omega

theorem fromLE_le32 {v : ℕ} (h : v < 2 ^ 32) : fromLE (le32 v) = v := by
  simp only [fromLE, le32, List.foldr]
  omega

theorem fromLE_le64 {v : ℕ} (h : v < 2 ^ 64) : fromLE (le64 v) = v := by
  simp only [fromLE, le64, List.foldr]
  omega

theorem value_sizeOf_pos (v : Value) : 0 < sizeOf v := by
  cases v <;> simp

/-- Reading `count` fixed-stride chunks back. -/
theorem decodeChunks_at (stride : ℕ) :
    ∀ (items : List (List ℕ)) (pre rest : List ℕ),
      (∀ c ∈ items, c.length = stride) →
      decodeChunks stride items.length ⟨pre ++ items.flatten ++ rest, pre.length⟩ =
        (.ok items,
          ⟨pre ++ items.flatten ++ rest, pre.length + items.flatten.length⟩) := by
  intro items
  induction items with
  | nil =>
    intro pre rest _
    simp [decodeChunks]
  | cons c items ih =>
    intro pre rest hlen
    have hc : c.length = stride := hlen c (by simp)
    have hbuf : pre ++ (c :: items).flatten ++ rest =
        pre ++ c ++ (items.flatten ++ rest) := by
      simp
    have hrb := read_bytes_at pre c (items.flatten ++ rest)
    rw [hc] at hrb
    rw [List.length_cons, decodeChunks, hbuf, hrb]
    dsimp only
    have hre : (Reader.mk (pre ++ c ++ (items.flatten ++ rest)) (pre.length + stride)) =
        Reader.mk ((pre ++ c) ++ items.flatten ++ rest) (pre ++ c).length := by
      rw [← hc]
      simp
    rw [hre, ih (pre ++ c) rest (fun x hx => hlen x (by simp [hx]))]
    have hpos : (pre ++ c).length + items.flatten.length =
        pre.length + (c :: items).flatten.length := by
      simp
      omega
    rw [hpos]
    dsimp only
    simp [List.append_assoc]

/-- Reading back one encoded string (`Reader::str`), used for map keys. -/
theorem npstr_at (k : List ℕ) (hlen : k.length ≤ u16Max) (hval : utf8Valid k = true) :
    ∀ pre rest,
      Reader.npstr ⟨pre ++ (tagToByte .string :: (le16 k.length ++ k)) ++ rest, pre.length⟩ =
        (.ok k,
          ⟨pre ++ (tagToByte .string :: (le16 k.length ++ k)) ++ rest,
            pre.length + (3 + k.length)⟩) := by
  intro pre rest
  have hbuf : pre ++ (tagToByte .string :: (le16 k.length ++ k)) ++ rest =
      pre ++ tagToByte .string :: (le16 k.length ++ (k ++ rest)) := by
    simp
  rw [Reader.npstr, hbuf, read_tag_at]
  dsimp only
  rw [if_neg (by simp)]
  have hb2 : pre ++ tagToByte .string :: (le16 k.length ++ (k ++ rest)) =
      (pre ++ [tagToByte .string]) ++ k.length % 256 :: (k.length / 256 % 256) :: (k ++ rest) := by
    simp [le16]
  have hp1 : pre.length + 1 = (pre ++ [tagToByte .string]).length := by simp
  rw [hb2, hp1, read_u16_at]
  dsimp only
  have hkval : k.length % 256 + 256 * (k.length / 256 % 256) = k.length :=
    le16_round (by simp [u16Max] at hlen; omega)
  have hb3 : (pre ++ [tagToByte .string]) ++ k.length % 256 :: (k.length / 256 % 256) :: (k ++ rest) =
      ((pre ++ [tagToByte .string]) ++ [k.length % 256, k.length / 256 % 256]) ++ k ++ rest := by
    simp
  have hp2 : (pre ++ [tagToByte .string]).length + 2 =
      ((pre ++ [tagToByte .string]) ++ [k.length % 256, k.length / 256 % 256]).length := by
    simp
  rw [hkval, hb3, hp2, read_bytes_at]
  dsimp only
  rw [if_pos hval]
  have hbufeq : (pre ++ [tagToByte Tag.string] ++ [k.length % 256, k.length / 256 % 256]) ++ k ++ rest =
      pre ++ (tagToByte .string :: (le16 k.length ++ k)) ++ rest := by
    simp [le16]
  have hposeq : (pre ++ [tagToByte Tag.string] ++ [k.length % 256, k.length / 256 % 256]).length +
      k.length = pre.length + (3 + k.length) := by
    simp
    omega
  rw [hbufeq, hposeq]

theorem read_bytes_at' (pre xs rest : List ℕ) (n : ℕ) (hn : xs.length = n) :
    Reader.read_bytes ⟨pre ++ xs ++ rest, pre.length⟩ n =
      (.ok xs, ⟨pre ++ xs ++ rest, pre.length + n⟩) := by
  subst hn
  exact read_bytes_at pre xs rest

/-- Reading back one encoded byte blob (`Reader::bytes`). -/
theorem npbytes_at (d : List ℕ) (hlen : d.length ≤ u16Max) :
    ∀ pre rest,
      Reader.npbytes ⟨pre ++ (tagToByte .bytes :: (le16 d.length ++ d)) ++ rest, pre.length⟩ =
        (.ok d,
          ⟨pre ++ (tagToByte .bytes :: (le16 d.length ++ d)) ++ rest,
            pre.length + (3 + d.length)⟩) := by
  intro pre rest
  have hbuf : pre ++ (tagToByte .bytes :: (le16 d.length ++ d)) ++ rest =
      pre ++ tagToByte .bytes :: (le16 d.length ++ (d ++ rest)) := by
    simp
  rw [Reader.npbytes, hbuf, read_tag_at]
  dsimp only
  rw [if_neg (by simp)]
  have hb2 : pre ++ tagToByte .bytes :: (le16 d.length ++ (d ++ rest)) =
      (pre ++ [tagToByte .bytes]) ++ d.length % 256 :: (d.length / 256 % 256) :: (d ++ rest) := by
    simp [le16]
  have hp1 : pre.length + 1 = (pre ++ [tagToByte .bytes]).length := by simp
  rw [hb2, hp1, read_u16_at]
  dsimp only
  have hkval : d.length % 256 + 256 * (d.length / 256 % 256) = d.length :=
    le16_round (by simp [u16Max] at hlen; omega)
  have hb3 : (pre ++ [tagToByte .bytes]) ++ d.length % 256 :: (d.length / 256 % 256) :: (d ++ rest) =
      ((pre ++ [tagToByte .bytes]) ++ [d.length % 256, d.length / 256 % 256]) ++ d ++ rest := by
    simp
  have hp2 : (pre ++ [tagToByte .bytes]).length + 2 =
      ((pre ++ [tagToByte .bytes]) ++ [d.length % 256, d.length / 256 % 256]).length := by
    simp
  rw [hkval, hb3, hp2, read_bytes_at]
  have hbufeq : (pre ++ [tagToByte Tag.bytes] ++ [d.length % 256, d.length / 256 % 256]) ++ d ++ rest =
      pre ++ (tagToByte .bytes :: (le16 d.length ++ d)) ++ rest := by
    simp [le16]
  have hposeq : (pre ++ [tagToByte Tag.bytes] ++ [d.length % 256, d.length / 256 % 256]).length +
      d.length = pre.length + (3 + d.length) := by
    simp
    omega
  rw [hbufeq, hposeq]

/-- Draining a `ListIter` over the concatenation of the elementwise
encodings returns the original list, given the single-value round trip as a
hypothesis (it is discharged by induction on fuel in the main theorem). -/
theorem decodeValues_encodeList (fuel : ℕ)
    (ihv : ∀ v, sizeOf v ≤ fuel → ValueWF v → ∀ bs, encodeValue v = .ok bs →
      ∀ pre rest, decodeValue fuel ⟨pre ++ bs ++ rest, pre.length⟩ =
        (.ok v, ⟨pre ++ bs ++ rest, pre.length + bs.length⟩)) :
    ∀ (vs : List Value) (body : List ℕ),
      (∀ v ∈ vs, sizeOf v ≤ fuel ∧ ValueWF v) →
      encodeList vs = .ok body →
      ∀ pre rest,
        decodeValues fuel vs.length ⟨pre ++ body ++ rest, pre.length⟩ =
          (.ok vs, ⟨pre ++ body ++ rest, pre.length + body.length⟩) := by
  intro vs
  induction vs with
  | nil =>
    intro body _ henc pre rest
    simp only [encodeList] at henc
    injection henc with h
    subst h
    simp [decodeValues]
  | cons v vs ih =>
    intro body hwf henc pre rest
    simp only [encodeList] at henc
    rcases hv : encodeValue v with e | bs
    · rw [hv] at henc; cases henc
    · rw [hv] at henc
      rcases hrest : encodeList vs with e | body'
      · rw [hrest] at henc; cases henc
      · rw [hrest] at henc
        injection henc with h
        subst h
        rw [List.length_cons, decodeValues]
        have hbuf : pre ++ (bs ++ body') ++ rest = pre ++ bs ++ (body' ++ rest) := by
          simp
        rw [hbuf,
          ihv v (hwf v (by simp)).1 (hwf v (by simp)).2 bs hv pre (body' ++ rest)]
        dsimp only
        have hre : (Reader.mk (pre ++ bs ++ (body' ++ rest)) (pre.length + bs.length)) =
            Reader.mk ((pre ++ bs) ++ body' ++ rest) (pre ++ bs).length := by
          simp
        rw [hre, ih body' (fun x hx => hwf x (by simp [hx])) hrest (pre ++ bs) rest]
        have hpos : (pre ++ bs).length + body'.length = pre.length + (bs ++ body').length := by
          simp
          omega
        rw [hpos]
        dsimp only
        simp [List.append_assoc]

/-- Draining a `MapIter` over the concatenation of the encoded entries
returns the original entry list, given the single-value round trip. -/
theorem decodeEntries_encodeEntryList (fuel : ℕ)
    (ihv : ∀ v, sizeOf v ≤ fuel → ValueWF v → ∀ bs, encodeValue v = .ok bs →
      ∀ pre rest, decodeValue fuel ⟨pre ++ bs ++ rest, pre.length⟩ =
        (.ok v, ⟨pre ++ bs ++ rest, pre.length + bs.length⟩)) :
    ∀ (es : List (List ℕ × Value)) (body : List ℕ),
      (∀ kv ∈ es, (kv.1.length ≤ u16Max ∧ utf8Valid kv.1 = true) ∧
        sizeOf kv.2 ≤ fuel ∧ ValueWF kv.2) →
      encodeEntryList es = .ok body →
      ∀ pre rest,
        decodeEntries fuel es.length ⟨pre ++ body ++ rest, pre.length⟩ =
          (.ok es, ⟨pre ++ body ++ rest, pre.length + body.length⟩) := by
  intro es
  induction es with
  | nil =>
    intro body _ henc pre rest
    simp only [encodeEntryList] at henc
    injection henc with h
    subst h
    simp [decodeEntries]
  | cons kv es ih =>
    obtain ⟨k, v⟩ := kv
    intro body hwf henc pre rest
    have hk := (hwf (k, v) (by simp)).1
    simp only [encodeEntryList] at henc
    rw [if_neg (by simp only [not_lt]; exact hk.1)] at henc
    rcases hv : encodeValue v with e | bs
    · rw [hv] at henc; cases henc
    · rw [hv] at henc
      rcases hrest : encodeEntryList es with e | body'
      · rw [hrest] at henc; cases henc
      · rw [hrest] at henc
        injection henc with h
        subst h
        rw [List.length_cons, decodeEntries]
        have hbuf : (Reader.mk
              (pre ++ ((tagToByte .string :: le16 k.length) ++ k ++ bs ++ body') ++ rest)
              pre.length) =
            Reader.mk
              (pre ++ (tagToByte .string :: (le16 k.length ++ k)) ++ (bs ++ (body' ++ rest)))
              pre.length := by
          simp
        rw [hbuf, npstr_at k hk.1 hk.2 pre (bs ++ (body' ++ rest))]
        dsimp only
        have hre : (Reader.mk
              (pre ++ (tagToByte .string :: (le16 k.length ++ k)) ++ (bs ++ (body' ++ rest)))
              (pre.length + (3 + k.length))) =
            Reader.mk ((pre ++ (tagToByte .string :: (le16 k.length ++ k))) ++ bs ++
              (body' ++ rest))
              (pre ++ (tagToByte .string :: (le16 k.length ++ k))).length := by
          simp [le16]
          omega
        rw [hre, ihv v (hwf (k, v) (by simp)).2.1 (hwf (k, v) (by simp)).2.2 bs hv
          (pre ++ (tagToByte .string :: (le16 k.length ++ k))) (body' ++ rest)]
        dsimp only
        have hre2 : (Reader.mk
              ((pre ++ (tagToByte .string :: (le16 k.length ++ k))) ++ bs ++ (body' ++ rest))
              ((pre ++ (tagToByte .string :: (le16 k.length ++ k))).length + bs.length)) =
            Reader.mk (((pre ++ (tagToByte .string :: (le16 k.length ++ k))) ++ bs) ++ body' ++
              rest)
              ((pre ++ (tagToByte .string :: (le16 k.length ++ k))) ++ bs).length := by
          simp
          omega
        rw [hre2, ih body' (fun x hx => hwf x (by simp [hx])) hrest
          ((pre ++ (tagToByte .string :: (le16 k.length ++ k))) ++ bs) rest]
        have hpos : ((pre ++ (tagToByte .string :: (le16 k.length ++ k))) ++ bs).length +
              body'.length =
            pre.length + ((tagToByte .string :: le16 k.length) ++ k ++ bs ++ body').length := by
          simp
          omega
        rw [hpos]
        dsimp only
        simp [List.append_assoc]

/-- Single-value round trip: decoding an encoding of a well-formed value
returns the value and consumes exactly its bytes, for any surrounding
buffer contents.  Fuel bounds the nesting depth via `sizeOf`. -/
theorem decode_encodeValue :
    ∀ (fuel : ℕ) (v : Value), sizeOf v ≤ fuel → ValueWF v →
      ∀ bs, encodeValue v = .ok bs →
      ∀ pre rest,
        decodeValue fuel ⟨pre ++ bs ++ rest, pre.length⟩ =
          (.ok v, ⟨pre ++ bs ++ rest, pre.length + bs.length⟩) := by
  intro fuel
  induction fuel with
  | zero =>
    intro v hs
    have := value_sizeOf_pos v
    exact absurd hs (by omega)
  | succ fuel ih =>
    intro v hs hwf bs henc pre rest
    cases v with
    | vbool b =>
      simp only [encodeValue, Except.ok.injEq] at henc
      subst henc
      rw [decodeValue]
      have h1 : Reader.mk (pre ++ [tagToByte Tag.bool, if b then 1 else 0] ++ rest)
            pre.length =
          Reader.mk (pre ++ tagToByte Tag.bool :: ((if b then 1 else 0) :: rest))
            pre.length := by
        simp
      rw [h1, read_tag_at]
      dsimp only
      have h2 : Reader.mk (pre ++ tagToByte Tag.bool :: ((if b then 1 else 0) :: rest))
            (pre.length + 1) =
          Reader.mk ((pre ++ [tagToByte Tag.bool]) ++ (if b then 1 else 0) :: rest)
            (pre ++ [tagToByte Tag.bool]).length := by
        simp
      rw [h2, read_u8_at]
      dsimp only
      cases b <;> simp <;> omega
    | vu8 v =>
      simp only [encodeValue, Except.ok.injEq] at henc
      subst henc
      rw [decodeValue]
      have h1 : Reader.mk (pre ++ [tagToByte Tag.u8, v] ++ rest) pre.length =
          Reader.mk (pre ++ tagToByte Tag.u8 :: (v :: rest)) pre.length := by
        simp
      rw [h1, read_tag_at]
      dsimp only
      have h2 : Reader.mk (pre ++ tagToByte Tag.u8 :: (v :: rest)) (pre.length + 1) =
          Reader.mk ((pre ++ [tagToByte Tag.u8]) ++ v :: rest)
            (pre ++ [tagToByte Tag.u8]).length := by
        simp
      rw [h2, read_u8_at]
      dsimp only
      simp <;> omega
    | vs8 v =>
      simp only [encodeValue, Except.ok.injEq] at henc
      subst henc
      rw [decodeValue]
      have h1 : Reader.mk (pre ++ [tagToByte Tag.s8, v] ++ rest) pre.length =
          Reader.mk (pre ++ tagToByte Tag.s8 :: (v :: rest)) pre.length := by
        simp
      rw [h1, read_tag_at]
      dsimp only
      have h2 : Reader.mk (pre ++ tagToByte Tag.s8 :: (v :: rest)) (pre.length + 1) =
          Reader.mk ((pre ++ [tagToByte Tag.s8]) ++ v :: rest)
            (pre ++ [tagToByte Tag.s8]).length := by
        simp
      rw [h2, read_u8_at]
      dsimp only
      simp <;> omega
    | vu16 v =>
      simp only [encodeValue, Except.ok.injEq] at henc
      subst henc
      simp only [ValueWF] at hwf
      rw [decodeValue]
      have h1 : Reader.mk (pre ++ (tagToByte Tag.u16 :: le16 v) ++ rest) pre.length =
          Reader.mk (pre ++ tagToByte Tag.u16 :: (v % 256 :: (v / 256 % 256 :: rest)))
            pre.length := by
        simp [le16]
      rw [h1, read_tag_at]
      dsimp only
      have h2 : Reader.mk (pre ++ tagToByte Tag.u16 :: (v % 256 :: (v / 256 % 256 :: rest)))
            (pre.length + 1) =
          Reader.mk ((pre ++ [tagToByte Tag.u16]) ++ v % 256 :: (v / 256 % 256 :: rest))
            (pre ++ [tagToByte Tag.u16]).length := by
        simp
      rw [h2, read_u16_at]
      dsimp only
      rw [le16_round hwf]
      simp [le16] <;> omega
    | vs16 v =>
      simp only [encodeValue, Except.ok.injEq] at henc
      subst henc
      simp only [ValueWF] at hwf
      rw [decodeValue]
      have h1 : Reader.mk (pre ++ (tagToByte Tag.s16 :: le16 v) ++ rest) pre.length =
          Reader.mk (pre ++ tagToByte Tag.s16 :: (v % 256 :: (v / 256 % 256 :: rest)))
            pre.length := by
        simp [le16]
      rw [h1, read_tag_at]
      dsimp only
      have h2 : Reader.mk (pre ++ tagToByte Tag.s16 :: (v % 256 :: (v / 256 % 256 :: rest)))
            (pre.length + 1) =
          Reader.mk ((pre ++ [tagToByte Tag.s16]) ++ v % 256 :: (v / 256 % 256 :: rest))
            (pre ++ [tagToByte Tag.s16]).length := by
        simp
      rw [h2, read_u16_at]
      dsimp only
      rw [le16_round hwf]
      simp [le16] <;> omega
    | vu32 v =>
      simp only [encodeValue, Except.ok.injEq] at henc
      subst henc
      simp only [ValueWF] at hwf
      rw [decodeValue]
      have h1 : Reader.mk (pre ++ (tagToByte Tag.u32 :: le32 v) ++ rest) pre.length =
          Reader.mk (pre ++ tagToByte Tag.u32 :: (le32 v ++ rest)) pre.length := by
        simp
      rw [h1, read_tag_at]
      dsimp only
      have h2 : Reader.mk (pre ++ tagToByte Tag.u32 :: (le32 v ++ rest)) (pre.length + 1) =
          Reader.mk ((pre ++ [tagToByte Tag.u32]) ++ le32 v ++ rest)
            (pre ++ [tagToByte Tag.u32]).length := by
        simp
      rw [h2, read_bytes_at' (pre ++ [tagToByte Tag.u32]) (le32 v) rest 4 rfl]
      dsimp only
      rw [fromLE_le32 hwf]
      simp [le32] <;> omega
    | vs32 v =>
      simp only [encodeValue, Except.ok.injEq] at henc
      subst henc
      simp only [ValueWF] at hwf
      rw [decodeValue]
      have h1 : Reader.mk (pre ++ (tagToByte Tag.s32 :: le32 v) ++ rest) pre.length =
          Reader.mk (pre ++ tagToByte Tag.s32 :: (le32 v ++ rest)) pre.length := by
        simp
      rw [h1, read_tag_at]
      dsimp only
      have h2 : Reader.mk (pre ++ tagToByte Tag.s32 :: (le32 v ++ rest)) (pre.length + 1) =
          Reader.mk ((pre ++ [tagToByte Tag.s32]) ++ le32 v ++ rest)
            (pre ++ [tagToByte Tag.s32]).length := by
        simp
      rw [h2, read_bytes_at' (pre ++ [tagToByte Tag.s32]) (le32 v) rest 4 rfl]
      dsimp only
      rw [fromLE_le32 hwf]
      simp [le32] <;> omega
    | vu64 v =>
      simp only [encodeValue, Except.ok.injEq] at henc
      subst henc
      simp only [ValueWF] at hwf
      rw [decodeValue]
      have h1 : Reader.mk (pre ++ (tagToByte Tag.u64 :: le64 v) ++ rest) pre.length =
          Reader.mk (pre ++ tagToByte Tag.u64 :: (le64 v ++ rest)) pre.length := by
        simp
      rw [h1, read_tag_at]
      dsimp only
      have h2 : Reader.mk (pre ++ tagToByte Tag.u64 :: (le64 v ++ rest)) (pre.length + 1) =
          Reader.mk ((pre ++ [tagToByte Tag.u64]) ++ le64 v ++ rest)
            (pre ++ [tagToByte Tag.u64]).length := by
        simp
      rw [h2, read_bytes_at' (pre ++ [tagToByte Tag.u64]) (le64 v) rest 8 rfl]
      dsimp only
      rw [fromLE_le64 hwf]
      simp [le64] <;> omega
    | vs64 v =>
      simp only [encodeValue, Except.ok.injEq] at henc
      subst henc
      simp only [ValueWF] at hwf
      rw [decodeValue]
      have h1 : Reader.mk (pre ++ (tagToByte Tag.s64 :: le64 v) ++ rest) pre.length =
          Reader.mk (pre ++ tagToByte Tag.s64 :: (le64 v ++ rest)) pre.length := by
        simp
      rw [h1, read_tag_at]
      dsimp only
      have h2 : Reader.mk (pre ++ tagToByte Tag.s64 :: (le64 v ++ rest)) (pre.length + 1) =
          Reader.mk ((pre ++ [tagToByte Tag.s64]) ++ le64 v ++ rest)
            (pre ++ [tagToByte Tag.s64]).length := by
        simp
      rw [h2, read_bytes_at' (pre ++ [tagToByte Tag.s64]) (le64 v) rest 8 rfl]
      dsimp only
      rw [fromLE_le64 hwf]
      simp [le64] <;> omega
    | vf32 v =>
      simp only [encodeValue, Except.ok.injEq] at henc
      subst henc
      simp only [ValueWF] at hwf
      rw [decodeValue]
      have h1 : Reader.mk (pre ++ (tagToByte Tag.f32 :: le32 v) ++ rest) pre.length =
          Reader.mk (pre ++ tagToByte Tag.f32 :: (le32 v ++ rest)) pre.length := by
        simp
      rw [h1, read_tag_at]
      dsimp only
      have h2 : Reader.mk (pre ++ tagToByte Tag.f32 :: (le32 v ++ rest)) (pre.length + 1) =
          Reader.mk ((pre ++ [tagToByte Tag.f32]) ++ le32 v ++ rest)
            (pre ++ [tagToByte Tag.f32]).length := by
        simp
      rw [h2, read_bytes_at' (pre ++ [tagToByte Tag.f32]) (le32 v) rest 4 rfl]
      dsimp only
      rw [fromLE_le32 hwf]
      simp [le32] <;> omega
    | vf64 v =>
      simp only [encodeValue, Except.ok.injEq] at henc
      subst henc
      simp only [ValueWF] at hwf
      rw [decodeValue]
      have h1 : Reader.mk (pre ++ (tagToByte Tag.f64 :: le64 v) ++ rest) pre.length =
          Reader.mk (pre ++ tagToByte Tag.f64 :: (le64 v ++ rest)) pre.length := by
        simp
      rw [h1, read_tag_at]
      dsimp only
      have h2 : Reader.mk (pre ++ tagToByte Tag.f64 :: (le64 v ++ rest)) (pre.length + 1) =
          Reader.mk ((pre ++ [tagToByte Tag.f64]) ++ le64 v ++ rest)
            (pre ++ [tagToByte Tag.f64]).length := by
        simp
      rw [h2, read_bytes_at' (pre ++ [tagToByte Tag.f64]) (le64 v) rest 8 rfl]
      dsimp only
      rw [fromLE_le64 hwf]
      simp [le64] <;> omega
    | vstr s =>
      simp only [ValueWF] at hwf
      simp only [encodeValue] at henc
      rw [if_neg (not_lt.mpr hwf.1)] at henc
      injection henc with h
      subst h
      have hsval : s.length % 256 + 256 * (s.length / 256 % 256) = s.length :=
        le16_round (lt_of_le_of_lt hwf.1 (by norm_num [u16Max]))
      rw [decodeValue]
      have h1 : Reader.mk (pre ++ ((tagToByte Tag.string :: le16 s.length) ++ s) ++ rest)
            pre.length =
          Reader.mk (pre ++ tagToByte Tag.string ::
            (s.length % 256 :: (s.length / 256 % 256 :: (s ++ rest)))) pre.length := by
        simp [le16]
      rw [h1, read_tag_at]
      dsimp only
      have h2 : Reader.mk (pre ++ tagToByte Tag.string ::
            (s.length % 256 :: (s.length / 256 % 256 :: (s ++ rest)))) (pre.length + 1) =
          Reader.mk ((pre ++ [tagToByte Tag.string]) ++
            s.length % 256 :: (s.length / 256 % 256 :: (s ++ rest)))
            (pre ++ [tagToByte Tag.string]).length := by
        simp
      rw [h2, read_u16_at]
      dsimp only
      rw [hsval]
      have h3 : Reader.mk ((pre ++ [tagToByte Tag.string]) ++
            s.length % 256 :: (s.length / 256 % 256 :: (s ++ rest)))
            ((pre ++ [tagToByte Tag.string]).length + 2) =
          Reader.mk (((pre ++ [tagToByte Tag.string]) ++
            [s.length % 256, s.length / 256 % 256]) ++ s ++ rest)
            ((pre ++ [tagToByte Tag.string]) ++
              [s.length % 256, s.length / 256 % 256]).length := by
        simp
      rw [h3, read_bytes_at]
      dsimp only
      rw [if_pos hwf.2.1]
      simp [le16] <;> omega
    | vbytes d =>
      simp only [ValueWF] at hwf
      simp only [encodeValue] at henc
      rw [if_neg (not_lt.mpr hwf.1)] at henc
      injection henc with h
      subst h
      have hdval : d.length % 256 + 256 * (d.length / 256 % 256) = d.length :=
        le16_round (lt_of_le_of_lt hwf.1 (by norm_num [u16Max]))
      rw [decodeValue]
      have h1 : Reader.mk (pre ++ ((tagToByte Tag.bytes :: le16 d.length) ++ d) ++ rest)
            pre.length =
          Reader.mk (pre ++ tagToByte Tag.bytes ::
            (d.length % 256 :: (d.length / 256 % 256 :: (d ++ rest)))) pre.length := by
        simp [le16]
      rw [h1, read_tag_at]
      dsimp only
      have h2 : Reader.mk (pre ++ tagToByte Tag.bytes ::
            (d.length % 256 :: (d.length / 256 % 256 :: (d ++ rest)))) (pre.length + 1) =
          Reader.mk ((pre ++ [tagToByte Tag.bytes]) ++
            d.length % 256 :: (d.length / 256 % 256 :: (d ++ rest)))
            (pre ++ [tagToByte Tag.bytes]).length := by
        simp
      rw [h2, read_u16_at]
      dsimp only
      rw [hdval]
      have h3 : Reader.mk ((pre ++ [tagToByte Tag.bytes]) ++
            d.length % 256 :: (d.length / 256 % 256 :: (d ++ rest)))
            ((pre ++ [tagToByte Tag.bytes]).length + 2) =
          Reader.mk (((pre ++ [tagToByte Tag.bytes]) ++
            [d.length % 256, d.length / 256 % 256]) ++ d ++ rest)
            ((pre ++ [tagToByte Tag.bytes]) ++
              [d.length % 256, d.length / 256 % 256]).length := by
        simp
      rw [h3, read_bytes_at]
      dsimp only
      simp [le16] <;> omega
    | vstruct d =>
      simp only [ValueWF] at hwf
      simp only [encodeValue] at henc
      rw [if_neg (not_lt.mpr hwf.1)] at henc
      injection henc with h
      subst h
      have hdval : d.length % 256 + 256 * (d.length / 256 % 256) = d.length :=
        le16_round (lt_of_le_of_lt hwf.1 (by norm_num [u16Max]))
      rw [decodeValue]
      have h1 : Reader.mk (pre ++ ((tagToByte Tag.strukt :: le16 d.length) ++ d) ++ rest)
            pre.length =
          Reader.mk (pre ++ tagToByte Tag.strukt ::
            (d.length % 256 :: (d.length / 256 % 256 :: (d ++ rest)))) pre.length := by
        simp [le16]
      rw [h1, read_tag_at]
      dsimp only
      have h2 : Reader.mk (pre ++ tagToByte Tag.strukt ::
            (d.length % 256 :: (d.length / 256 % 256 :: (d ++ rest)))) (pre.length + 1) =
          Reader.mk ((pre ++ [tagToByte Tag.strukt]) ++
            d.length % 256 :: (d.length / 256 % 256 :: (d ++ rest)))
            (pre ++ [tagToByte Tag.strukt]).length := by
        simp
      rw [h2, read_u16_at]
      dsimp only
      rw [hdval]
      have h3 : Reader.mk ((pre ++ [tagToByte Tag.strukt]) ++
            d.length % 256 :: (d.length / 256 % 256 :: (d ++ rest)))
            ((pre ++ [tagToByte Tag.strukt]).length + 2) =
          Reader.mk (((pre ++ [tagToByte Tag.strukt]) ++
            [d.length % 256, d.length / 256 % 256]) ++ d ++ rest)
            ((pre ++ [tagToByte Tag.strukt]) ++
              [d.length % 256, d.length / 256 % 256]).length := by
        simp
      rw [h3, read_bytes_at]
      dsimp only
      simp [le16] <;> omega
    | vlist vs =>
      simp only [ValueWF] at hwf
      simp only [encodeValue] at henc
      rw [if_neg (not_lt.mpr hwf.1)] at henc
      rcases hbody : encodeList vs with e | body
      · rw [hbody] at henc; cases henc
      · rw [hbody] at henc
        injection henc with h
        subst h
        have hsz : sizeOf vs ≤ fuel := by
          simp at hs
          omega
        have hcnt : vs.length % 256 + 256 * (vs.length / 256 % 256) = vs.length :=
          le16_round (lt_of_le_of_lt hwf.1 (by norm_num [u16Max]))
        rw [decodeValue]
        have h1 : Reader.mk (pre ++ ((tagToByte Tag.list :: le16 vs.length) ++ body) ++ rest)
              pre.length =
            Reader.mk (pre ++ tagToByte Tag.list ::
              (vs.length % 256 :: (vs.length / 256 % 256 :: (body ++ rest))))
              pre.length := by
          simp [le16]
        rw [h1, read_tag_at]
        dsimp only
        have h2 : Reader.mk (pre ++ tagToByte Tag.list ::
              (vs.length % 256 :: (vs.length / 256 % 256 :: (body ++ rest))))
              (pre.length + 1) =
            Reader.mk ((pre ++ [tagToByte Tag.list]) ++
              vs.length % 256 :: (vs.length / 256 % 256 :: (body ++ rest)))
              (pre ++ [tagToByte Tag.list]).length := by
          simp
        rw [h2, read_u16_at]
        dsimp only
        rw [hcnt]
        have h3 : Reader.mk ((pre ++ [tagToByte Tag.list]) ++
              vs.length % 256 :: (vs.length / 256 % 256 :: (body ++ rest)))
              ((pre ++ [tagToByte Tag.list]).length + 2) =
            Reader.mk (((pre ++ [tagToByte Tag.list]) ++
              [vs.length % 256, vs.length / 256 % 256]) ++ body ++ rest)
              ((pre ++ [tagToByte Tag.list]) ++
                [vs.length % 256, vs.length / 256 % 256]).length := by
          simp
        rw [h3, decodeValues_encodeList fuel ih vs body
          (fun x hx => ⟨le_of_lt (lt_of_lt_of_le (List.sizeOf_lt_of_mem hx) hsz),
            hwf.2 x hx⟩) hbody _ rest]
        dsimp only
        simp [le16] <;> omega
    | vmap es =>
      simp only [ValueWF] at hwf
      simp only [encodeValue] at henc
      rw [if_neg (not_lt.mpr hwf.1)] at henc
      rcases hbody : encodeEntryList es with e | body
      · rw [hbody] at henc; cases henc
      · rw [hbody] at henc
        injection henc with h
        subst h
        have hsz : sizeOf es ≤ fuel := by
          simp at hs
          omega
        have hcnt : es.length % 256 + 256 * (es.length / 256 % 256) = es.length :=
          le16_round (lt_of_le_of_lt hwf.1 (by norm_num [u16Max]))
        rw [decodeValue]
        have h1 : Reader.mk (pre ++ ((tagToByte Tag.map :: le16 es.length) ++ body) ++ rest)
              pre.length =
            Reader.mk (pre ++ tagToByte Tag.map ::
              (es.length % 256 :: (es.length / 256 % 256 :: (body ++ rest))))
              pre.length := by
          simp [le16]
        rw [h1, read_tag_at]
        dsimp only
        have h2 : Reader.mk (pre ++ tagToByte Tag.map ::
              (es.length % 256 :: (es.length / 256 % 256 :: (body ++ rest))))
              (pre.length + 1) =
            Reader.mk ((pre ++ [tagToByte Tag.map]) ++
              es.length % 256 :: (es.length / 256 % 256 :: (body ++ rest)))
              (pre ++ [tagToByte Tag.map]).length := by
          simp
        rw [h2, read_u16_at]
        dsimp only
        rw [hcnt]
        have h3 : Reader.mk ((pre ++ [tagToByte Tag.map]) ++
              es.length % 256 :: (es.length / 256 % 256 :: (body ++ rest)))
              ((pre ++ [tagToByte Tag.map]).length + 2) =
            Reader.mk (((pre ++ [tagToByte Tag.map]) ++
              [es.length % 256, es.length / 256 % 256]) ++ body ++ rest)
              ((pre ++ [tagToByte Tag.map]) ++
                [es.length % 256, es.length / 256 % 256]).length := by
          simp
        rw [h3, decodeEntries_encodeEntryList fuel ih es body
          (fun kv hkv => ⟨⟨(hwf.2 kv hkv).1.1, (hwf.2 kv hkv).1.2.1⟩, by
            have h1 := List.sizeOf_lt_of_mem hkv
            have h2 : sizeOf kv.2 < sizeOf kv := by
              obtain ⟨a, b⟩ := kv
              simp
            omega, (hwf.2 kv hkv).2⟩) hbody _ rest]
        dsimp only
        simp [le16] <;> omega
    | varray itemTag stride items =>
      simp only [ValueWF] at hwf
      simp only [encodeValue] at henc
      rw [if_neg hwf.1, if_neg (not_lt.mpr hwf.2.1), if_neg (not_lt.mpr hwf.2.2.1)] at henc
      have hany : ¬(items.any (fun c => c.length != stride) = true) := by
        simp only [List.any_eq_true, bne_iff_ne]
        push_neg
        exact hwf.2.2.2.2
      rw [if_neg hany] at henc
      injection henc with h
      subst h
      have hstr : stride % 256 + 256 * (stride / 256 % 256) = stride :=
        le16_round (lt_of_le_of_lt hwf.2.1 (by norm_num [u16Max]))
      have hcnt : items.length % 256 + 256 * (items.length / 256 % 256) = items.length :=
        le16_round (lt_of_le_of_lt hwf.2.2.1 (by norm_num [u16Max]))
      rw [decodeValue]
      have h1 : Reader.mk (pre ++
            ((tagToByte Tag.array :: tagToByte itemTag :: le16 stride) ++
              le16 items.length ++ items.flatten) ++ rest) pre.length =
          Reader.mk (pre ++ tagToByte Tag.array :: (tagToByte itemTag ::
            (stride % 256 :: (stride / 256 % 256 ::
              (items.length % 256 :: (items.length / 256 % 256 ::
                (items.flatten ++ rest))))))) pre.length := by
        simp [le16]
      rw [h1, read_tag_at]
      dsimp only
      have h2 : Reader.mk (pre ++ tagToByte Tag.array :: (tagToByte itemTag ::
            (stride % 256 :: (stride / 256 % 256 ::
              (items.length % 256 :: (items.length / 256 % 256 ::
                (items.flatten ++ rest))))))) (pre.length + 1) =
          Reader.mk ((pre ++ [tagToByte Tag.array]) ++ tagToByte itemTag ::
            (stride % 256 :: (stride / 256 % 256 ::
              (items.length % 256 :: (items.length / 256 % 256 ::
                (items.flatten ++ rest))))))
            (pre ++ [tagToByte Tag.array]).length := by
        simp
      rw [h2, read_u8_at]
      dsimp only
      rw [tagFromByte_tagToByte]
      dsimp only
      have h3 : Reader.mk ((pre ++ [tagToByte Tag.array]) ++ tagToByte itemTag ::
            (stride % 256 :: (stride / 256 % 256 ::
              (items.length % 256 :: (items.length / 256 % 256 ::
                (items.flatten ++ rest))))))
            ((pre ++ [tagToByte Tag.array]).length + 1) =
          Reader.mk ((pre ++ [tagToByte Tag.array, tagToByte itemTag]) ++
            stride % 256 :: (stride / 256 % 256 ::
              (items.length % 256 :: (items.length / 256 % 256 ::
                (items.flatten ++ rest)))))
            (pre ++ [tagToByte Tag.array, tagToByte itemTag]).length := by
        simp
      rw [h3, read_u16_at]
      dsimp only
      rw [hstr]
      have h4 : Reader.mk ((pre ++ [tagToByte Tag.array, tagToByte itemTag]) ++
            stride % 256 :: (stride / 256 % 256 ::
              (items.length % 256 :: (items.length / 256 % 256 ::
                (items.flatten ++ rest)))))
            ((pre ++ [tagToByte Tag.array, tagToByte itemTag]).length + 2) =
          Reader.mk ((pre ++ [tagToByte Tag.array, tagToByte itemTag,
              stride % 256, stride / 256 % 256]) ++
            items.length % 256 :: (items.length / 256 % 256 ::
              (items.flatten ++ rest)))
            (pre ++ [tagToByte Tag.array, tagToByte itemTag,
              stride % 256, stride / 256 % 256]).length := by
        simp
      rw [h4, read_u16_at]
      dsimp only
      rw [hcnt]
      rw [if_neg (not_lt.mpr hwf.2.2.2.1)]
      have h5 : Reader.mk ((pre ++ [tagToByte Tag.array, tagToByte itemTag,
              stride % 256, stride / 256 % 256]) ++
            items.length % 256 :: (items.length / 256 % 256 ::
              (items.flatten ++ rest)))
            ((pre ++ [tagToByte Tag.array, tagToByte itemTag,
              stride % 256, stride / 256 % 256]).length + 2) =
          Reader.mk ((pre ++ [tagToByte Tag.array, tagToByte itemTag,
              stride % 256, stride / 256 % 256,
              items.length % 256, items.length / 256 % 256]) ++
            items.flatten ++ rest)
            (pre ++ [tagToByte Tag.array, tagToByte itemTag,
              stride % 256, stride / 256 % 256,
              items.length % 256, items.length / 256 % 256]).length := by
        simp
      rw [h5, decodeChunks_at stride items _ rest hwf.2.2.2.2]
      dsimp only
      simp [le16] <;> omega

/-- Well-formed values always encode successfully. -/
theorem encodeValue_ok :
    ∀ (n : ℕ) (v : Value), sizeOf v ≤ n → ValueWF v →
      ∃ bs, encodeValue v = .ok bs := by
  intro n
  induction n with
  | zero =>
    intro v hs
    have := value_sizeOf_pos v
    exact absurd hs (by omega)
  | succ n ih =>
    intro v hs hwf
    cases v with
    | vbool b => exact ⟨_, by simp only [encodeValue]; rfl⟩
    | vu8 v => exact ⟨_, by simp only [encodeValue]; rfl⟩
    | vs8 v => exact ⟨_, by simp only [encodeValue]; rfl⟩
    | vu16 v => exact ⟨_, by simp only [encodeValue]; rfl⟩
    | vs16 v => exact ⟨_, by simp only [encodeValue]; rfl⟩
    | vu32 v => exact ⟨_, by simp only [encodeValue]; rfl⟩
    | vs32 v => exact ⟨_, by simp only [encodeValue]; rfl⟩
    | vu64 v => exact ⟨_, by simp only [encodeValue]; rfl⟩
    | vs64 v => exact ⟨_, by simp only [encodeValue]; rfl⟩
    | vf32 v => exact ⟨_, by simp only [encodeValue]; rfl⟩
    | vf64 v => exact ⟨_, by simp only [encodeValue]; rfl⟩
    | vstr s =>
      simp only [ValueWF] at hwf
      exact ⟨_, by simp only [encodeValue]; rw [if_neg (not_lt.mpr hwf.1)]⟩
    | vbytes d =>
      simp only [ValueWF] at hwf
      exact ⟨_, by simp only [encodeValue]; rw [if_neg (not_lt.mpr hwf.1)]⟩
    | vstruct d =>
      simp only [ValueWF] at hwf
      exact ⟨_, by simp only [encodeValue]; rw [if_neg (not_lt.mpr hwf.1)]⟩
    | vlist vs =>
      simp only [ValueWF] at hwf
      have hsz : sizeOf vs ≤ n := by
        simp at hs
        omega
      have hlist : ∀ (l : List Value), (∀ x ∈ l, x ∈ vs) →
          ∃ body, encodeList l = .ok body := by
        intro l
        induction l with
        | nil => exact fun _ => ⟨[], by simp only [encodeList]⟩
        | cons x xs ihl =>
          intro hmem
          obtain ⟨bx, hbx⟩ := ih x
            (le_of_lt (lt_of_lt_of_le (List.sizeOf_lt_of_mem (hmem x (by simp))) hsz))
            (hwf.2 x (hmem x (by simp)))
          obtain ⟨bxs, hbxs⟩ := ihl (fun y hy => hmem y (by simp [hy]))
          exact ⟨bx ++ bxs, by simp only [encodeList]; rw [hbx, hbxs]⟩
      obtain ⟨body, hbody⟩ := hlist vs (fun x hx => hx)
      exact ⟨_, by simp only [encodeValue]; rw [if_neg (not_lt.mpr hwf.1), hbody]⟩
    | vmap es =>
      simp only [ValueWF] at hwf
      have hsz : sizeOf es ≤ n := by
        simp at hs
        omega
      have hlist : ∀ (l : List (List ℕ × Value)), (∀ x ∈ l, x ∈ es) →
          ∃ body, encodeEntryList l = .ok body := by
        intro l
        induction l with
        | nil => exact fun _ => ⟨[], by simp only [encodeEntryList]⟩
        | cons x xs ihl =>
          obtain ⟨k, v⟩ := x
          intro hmem
          have hx := hwf.2 (k, v) (hmem (k, v) (by simp))
          have hvsz : sizeOf v ≤ n := by
            have h1 := List.sizeOf_lt_of_mem (hmem (k, v) (by simp))
            have h2 : sizeOf ((k, v).2) < sizeOf (k, v) := by simp
            simp only at h2
            omega
          obtain ⟨bv, hbv⟩ := ih v hvsz hx.2
          obtain ⟨bxs, hbxs⟩ := ihl (fun y hy => hmem y (by simp [hy]))
          exact ⟨_, by
            simp only [encodeEntryList]
            rw [if_neg (not_lt.mpr hx.1.1), hbv, hbxs]⟩
      obtain ⟨body, hbody⟩ := hlist es (fun x hx => hx)
      exact ⟨_, by simp only [encodeValue]; rw [if_neg (not_lt.mpr hwf.1), hbody]⟩
    | varray itemTag stride items =>
      simp only [ValueWF] at hwf
      have hany : ¬(items.any (fun c => c.length != stride) = true) := by
        simp only [List.any_eq_true, bne_iff_ne]
        push_neg
        exact hwf.2.2.2.2
      exact ⟨_, by
        simp only [encodeValue]
        rw [if_neg hwf.1, if_neg (not_lt.mpr hwf.2.1), if_neg (not_lt.mpr hwf.2.2.1),
          if_neg hany]⟩

/-- C3 (corrected, amended).  For every well-formed value — in particular
every byte vector of at most `u16::MAX` bytes, and values of every tag —
encoding succeeds and decoding the result returns the value unchanged,
consuming exactly the encoded bytes.  The unqualified claim is false: see
the counterexample (a 65536-byte vector fails to encode at all). -/
theorem claim_C3 (v : Value) (hwf : ValueWF v) :
    ∃ bs, encodeValue v = .ok bs ∧
      decodeValue (sizeOf v) (Reader.new bs) = (.ok v, ⟨bs, bs.length⟩) := by
  obtain ⟨bs, hbs⟩ := encodeValue_ok (sizeOf v) v le_rfl hwf
  refine ⟨bs, hbs, ?_⟩
  have h := decode_encodeValue (sizeOf v) v le_rfl hwf bs hbs [] []
  simpa [Reader.new] using h

/-- Witness: the byte vector `[1, 2, 3]` (and thereby a concrete tag)
round-trips. -/
theorem claim_C3_witness :
    ∃ bs, encodeValue (.vbytes [1, 2, 3]) = .ok bs ∧
      decodeValue (sizeOf (Value.vbytes [1, 2, 3])) (Reader.new bs) =
        (.ok (.vbytes [1, 2, 3]), ⟨bs, bs.length⟩) :=
  claim_C3 (.vbytes [1, 2, 3]) (by
    simp only [ValueWF]
    refine ⟨by norm_num [u16Max], ?_⟩
    intro c hc
    fin_cases hc <;> norm_num)

/-- Counterexample to the unqualified C3: a byte vector of 65536 bytes
cannot be encoded at all — `write_blob` rejects it with `BlobTooLarge`
(the length field is `u16`), so no round trip exists for it. -/
theorem claim_C3_counterexample :
    encodeValue (.vbytes (List.replicate 65536 0)) = .error (.BlobTooLarge 65536) := by
  have hlen := List.length_replicate 65536 (0 : ℕ)
  simp only [encodeValue]
  rw [hlen, if_pos (by norm_num [u16Max])]

/-- Looking up a key strictly above every stored key finds nothing. -/
theorem lookup_none_of_lt (l : List (ℕ × (ℕ × ℕ))) (n : ℕ)
    (hl : ∀ kv ∈ l, kv.1 < n) : l.lookup n = none := by
  induction l with
  | nil => rfl
  | cons kv l ih =>
    obtain ⟨k, v⟩ := kv
    have hk : k < n := by
      have := hl (k, v) (by simp)
      simpa using this
    have hne : (n == k) = false := by
      simp only [beq_eq_false_iff_ne, ne_eq]
      omega
    simp only [List.lookup, hne]
    exact ih (fun kv hkv => hl kv (by simp [hkv]))

/-- A successful lookup key is a stored entry. -/
theorem mem_of_lookup_eq_some :
    ∀ {l : List (ℕ × (ℕ × ℕ))} {k : ℕ} {v : ℕ × ℕ},
      l.lookup k = some v → (k, v) ∈ l := by
  intro l
  induction l with
  | nil => intro k v h; cases h
  | cons kv l ih =>
    intro k v h
    obtain ⟨k', v'⟩ := kv
    cases hbe : (k == k') with
    | false =>
      simp only [List.lookup, hbe] at h
      exact List.mem_cons_of_mem _ (ih h)
    | true =>
      simp only [List.lookup, hbe] at h
      have hk : k = k' := by simpa using hbe
      subst hk
      injection h with h
      subst h
      exact List.mem_cons_self _ _

/-- The exact effect of a non-full `Core::add_message`. -/
theorem add_message_run (c : Core) (contents : List ℕ)
    (hdom : ∀ kv ∈ c.messages, kv.1 < c.next_id)
    (hle : c.next_id ≤ 0xFFFF) (h : c.next_id ≠ 0xFFFF) :
    c.add_message contents =
      (.ok c.next_id,
        { begin_flush := c.begin_flush,
          cache := c.cache ++ contents,
          messages := (c.next_id, ((c.cache ++ contents).length - contents.length,
            (c.cache ++ contents).length)) :: c.messages,
          next_id := c.next_id + 1 }) := by
  have hlookup : c.messages.lookup c.next_id = none :=
    lookup_none_of_lt c.messages c.next_id hdom
  have hmin : min (c.next_id + 1) 0xFFFF = c.next_id + 1 := by omega
  rw [Core.add_message, if_neg h]
  dsimp only
  rw [Core.cache_message, Core.check_future_message]
  dsimp only
  rw [if_neg (show ¬(c.next_id ≥ min (c.next_id + 1) 0xFFFF) from by omega)]
  dsimp only
  rw [hlookup]
  rw [if_neg (by simp)]
  dsimp only
  rw [hmin]

/-- A full `Core` rejects; contrapositive extraction for the success path. -/
theorem next_id_ne_full_of_add_ok {c : Core} {m : List ℕ} {r : ℕ} {c' : Core}
    (h : c.add_message m = (.ok r, c')) : c.next_id ≠ 0xFFFF := by
  intro hful
  rw [Core.add_message, if_pos hful] at h
  cases h

/-- A non-full well-formed `Core` accepts an append: the id handed out is
the old `next_id`, well-formedness is preserved, `next_id` goes up by one,
old contents are untouched and the new id reads back the message. -/
theorem core_add_ok (c : Core) (m : List ℕ) (hwf : CoreWF c)
    (hfull : c.next_id ≠ 0xFFFF) :
    (c.add_message m).1 = .ok c.next_id ∧
    CoreWF (c.add_message m).2 ∧
    (c.add_message m).2.next_id = c.next_id + 1 ∧
    (∀ id, id < c.next_id → (c.add_message m).2.get_contents id = c.get_contents id) ∧
    (c.add_message m).2.get_contents c.next_id = .ok m := by
  obtain ⟨hle, hdom, hrange⟩ := hwf
  have hrun := add_message_run c m hdom hle hfull
  rw [hrun]
  refine ⟨rfl, ⟨?_, ?_, ?_⟩, rfl, ?_, ?_⟩
  · dsimp only
    omega
  · intro kv hkv
    dsimp only at hkv ⊢
    rcases List.mem_cons.mp hkv with rfl | htl
    · simp
    · have := hdom kv htl
      omega
  · intro kv hkv
    dsimp only at hkv ⊢
    rcases List.mem_cons.mp hkv with rfl | htl
    · simp
    · have := hrange kv htl
      simp only [List.length_append]
      omega
  · intro id hid
    rw [Core.get_contents, Core.get_contents, Core.check_future_message,
      Core.check_future_message]
    dsimp only
    rw [if_neg (by omega), if_neg (by omega)]
    dsimp only
    have hne : (id == c.next_id) = false := by
      simp only [beq_eq_false_iff_ne, ne_eq]
      omega
    simp only [List.lookup, hne]
    rcases hl : c.messages.lookup id with _ | ⟨s, e⟩
    · rfl
    · dsimp only
      have hmem := mem_of_lookup_eq_some hl
      have hb := hrange (id, (s, e)) hmem
      dsimp only at hb
      have h1 : s - c.cache.length = 0 := by omega
      have h2 : e - s - (c.cache.drop s).length = 0 := by
        rw [List.length_drop]
        omega
      rw [List.drop_append_eq_append_drop, h1, List.drop_zero,
        List.take_append_eq_append_take, h2, List.take_zero, List.append_nil]
  · rw [Core.get_contents, Core.check_future_message]
    dsimp only
    rw [if_neg (by omega)]
    dsimp only
    have heq : (c.next_id == c.next_id) = true := by simp
    simp only [List.lookup, heq]
    have h1 : (c.cache ++ m).length - m.length = c.cache.length := by simp
    rw [h1, List.drop_left]
    have h2 : (c.cache ++ m).length - c.cache.length = m.length := by simp
    rw [h2, List.take_length]

/-- In-memory `load_message` is a bounds-checked no-op. -/
theorem load_message_ok (c : Core) (id : ℕ) (h : id < c.next_id) :
    c.load_message id = .ok c := by
  rw [Core.load_message, Core.check_future_message]
  rw [if_neg (by omega)]
  dsimp only
  split_ifs <;> rfl

/-- Readable contents are below `next_id`. -/
theorem lt_of_get_contents_ok {c : Core} {id : ℕ} {d : List ℕ}
    (h : c.get_contents id = .ok d) : id < c.next_id := by
  by_contra hlt
  rw [Core.get_contents, Core.check_future_message] at h
  rw [if_pos (by omega)] at h
  simp at h

/-- C9 (corrected, amended).  `Core::add_message` assigns ids densely from
0 upward in call order (`create_mem` starts at 0, each success returns the
current `next_id` and bumps it by one) and fails with `CoreFull` exactly
when the next id would overflow the **16-bit** id range (`MessageId` is
`u16`, `FULL = 0xFFFF`), not a 64-bit one; after a successful append,
`len()` is one past the returned id.  Hypotheses: every cached id is below
`next_id` and `next_id` fits `u16` — both invariants of the Rust state
(`next_id: u16` and ids are only handed out below `next_id`). -/
theorem claim_C9 (c : Core) (contents : List ℕ)
    (hdom : ∀ kv ∈ c.messages, kv.1 < c.next_id) (hle : c.next_id ≤ 0xFFFF) :
    Core.create_mem.next_id = 0 ∧
    ((c.add_message contents).1 = .error CoreError.CoreFull ↔ c.next_id = 0xFFFF) ∧
    (c.next_id ≠ 0xFFFF →
      (c.add_message contents).1 = .ok c.next_id ∧
      (c.add_message contents).2.next_id = c.next_id + 1 ∧
      (c.add_message contents).2.len = c.next_id + 1) := by
  have hlookup : c.messages.lookup c.next_id = none :=
    lookup_none_of_lt c.messages c.next_id hdom
  refine ⟨rfl, ?_⟩
  by_cases h : c.next_id = 0xFFFF
  · refine ⟨?_, fun h' => absurd h h'⟩
    rw [Core.add_message, if_pos h]
    simp [h]
  · have hrun := add_message_run c contents hdom hle h
    refine ⟨?_, fun _ => ⟨?_, ?_, ?_⟩⟩
    · rw [hrun]
      simp [h]
    · rw [hrun]
    · rw [hrun]
    · rw [hrun]
      rfl

/-- Witness: the fresh in-memory core accepts a first message with id 0
and then holds one message. -/
theorem claim_C9_witness :
    (∀ kv ∈ Core.create_mem.messages, kv.1 < Core.create_mem.next_id) ∧
    Core.create_mem.next_id ≤ 0xFFFF ∧
    (Core.create_mem.next_id = 0 ∧
     ((Core.create_mem.add_message [7]).1 = .error CoreError.CoreFull ↔
        Core.create_mem.next_id = 0xFFFF) ∧
     (Core.create_mem.next_id ≠ 0xFFFF →
       (Core.create_mem.add_message [7]).1 = .ok Core.create_mem.next_id ∧
       (Core.create_mem.add_message [7]).2.next_id = Core.create_mem.next_id + 1 ∧
       (Core.create_mem.add_message [7]).2.len = Core.create_mem.next_id + 1)) :=
  ⟨by simp [Core.create_mem], by norm_num [Core.create_mem],
    claim_C9 Core.create_mem [7] (by simp [Core.create_mem])
      (by norm_num [Core.create_mem])⟩

/-- Counterexample to the "64-bit" part of C9: the id space saturates at
the 16-bit boundary — a core whose `next_id` is `0xFFFF` (far below
`2^64 - 1`) already rejects appends with `CoreFull`. -/
theorem claim_C9_counterexample :
    (Core.add_message ⟨0, [], [], 0xFFFF⟩ [42]).1 = .error CoreError.CoreFull ∧
    (0xFFFF : ℕ) < 2 ^ 64 - 1 := by
  constructor
  · rfl
  · norm_num

/-! ### Verkle node serialization round trip (leaf nodes) -/

theorem hexDigit_props : ∀ n, n < 16 → 47 < hexDigit n ∧ hexDigit n < 103 ∧
    hexDigit n ≠ 10 ∧ isWsByte (hexDigit n) = false ∧ hexDigit n ≠ 46 := by
  decide

theorem hexVal_hexDigit : ∀ n, n < 16 → hexVal (hexDigit n) = some n := by
  decide

/-- Every character of a hex rendering is a printable non-whitespace
character other than `\n` and `.`. -/
theorem mem_toHex {bs : List ℕ} {c : ℕ} (h : c ∈ toHex bs) :
    47 < c ∧ c < 103 ∧ c ≠ 10 ∧ isWsByte c = false ∧ c ≠ 46 := by
  rw [toHex, List.mem_flatten] at h
  obtain ⟨l, hl, hcl⟩ := h
  rw [List.mem_map] at hl
  obtain ⟨b, _, rfl⟩ := hl
  simp only [List.mem_cons, List.not_mem_nil, or_false] at hcl
  rcases hcl with rfl | rfl
  · exact hexDigit_props _ (Nat.mod_lt _ (by omega))
  · exact hexDigit_props _ (Nat.mod_lt _ (by omega))

/-- Pure-ASCII byte lists are valid UTF-8. -/
theorem utf8ValidGo_ascii : ∀ (fuel : ℕ) (l : List ℕ), (∀ c ∈ l, c < 128) →
    l.length ≤ fuel → utf8ValidGo fuel l = true := by
  intro fuel
  induction fuel with
  | zero =>
    intro l h hle
    cases l with
    | nil => rfl
    | cons b rest => simp at hle
  | succ fuel ih =>
    intro l h hle
    cases l with
    | nil => rfl
    | cons b rest =>
      have hstep : utf8Step b rest = some rest := by
        delta utf8Step
        rw [if_pos (h b (by simp))]
      rw [utf8ValidGo, hstep]
      exact ih rest (fun c hc => h c (by simp [hc])) (by simp at hle; omega)

theorem utf8Valid_of_ascii (l : List ℕ) (h : ∀ c ∈ l, c < 128) : utf8Valid l = true :=
  utf8ValidGo_ascii l.length l h le_rfl

/-- Hex decoding inverts hex encoding on byte lists. -/
theorem fromHexPairs_toHex : ∀ (bs : List ℕ), (∀ c ∈ bs, c < 256) →
    fromHexPairs (toHex bs) = bs := by
  intro bs
  induction bs with
  | nil => intro _; rfl
  | cons b rest ih =>
    intro h
    have hb : b < 256 := h b (by simp)
    have hexp : toHex (b :: rest) =
        hexDigit (b / 16 % 16) :: hexDigit (b % 16) :: toHex rest := by
      simp [toHex]
    rw [hexp, fromHexPairs]
    rw [hexVal_hexDigit _ (Nat.mod_lt _ (by omega)),
      hexVal_hexDigit _ (Nat.mod_lt _ (by omega))]
    rw [ih (fun c hc => h c (by simp [hc]))]
    simp only [Option.getD_some]
    congr 1
    omega

theorem toHex_ne_nil {bs : List ℕ} (h : bs ≠ []) : toHex bs ≠ [] := by
  cases bs with
  | nil => exact absurd rfl h
  | cons b t => simp [toHex]

/-- `"{:04x}.bin"` parses back to the id it renders, for `u16` ids. -/
theorem file_name_parse (idx : ℕ) (hidx : idx < 65536) :
    u16_from_str_radix_hex (trimEndBin (to_file_name idx)) = some idx := by
  have ha : idx / 4096 % 16 < 16 := Nat.mod_lt _ (by omega)
  have hb : idx / 256 % 16 < 16 := Nat.mod_lt _ (by omega)
  have hc : idx / 16 % 16 < 16 := Nat.mod_lt _ (by omega)
  have hd : idx % 16 < 16 := Nat.mod_lt _ (by omega)
  have htrim : trimEndBin (to_file_name idx) =
      [hexDigit (idx / 4096 % 16), hexDigit (idx / 256 % 16),
       hexDigit (idx / 16 % 16), hexDigit (idx % 16)] := by
    rw [to_file_name, trimEndBin]
    rw [dif_pos (by constructor <;> simp)]
    rw [trimEndBin]
    rw [dif_neg ?_]
    · simp
    · rintro ⟨-, habs⟩
      simp only [List.length_cons, List.length_append] at habs
      have h46 := (hexDigit_props _ ha).2.2.2.2
      have : hexDigit (idx / 4096 % 16) = 46 := by
        have := congrArg (fun l => l.getD 0 0) habs
        simpa using this
      exact h46 this
  rw [htrim, u16_from_str_radix_hex]
  rw [if_neg (by simp)]
  rw [parseHexLoop, hexVal_hexDigit _ ha]
  dsimp only
  rw [if_neg (by omega)]
  rw [parseHexLoop, hexVal_hexDigit _ hb]
  dsimp only
  rw [if_neg (by omega)]
  rw [parseHexLoop, hexVal_hexDigit _ hc]
  dsimp only
  rw [if_neg (by omega)]
  rw [parseHexLoop, hexVal_hexDigit _ hd]
  dsimp only
  rw [if_neg (by omega)]
  rw [parseHexLoop]
  congr 1
  omega

/-- Bytes of a `"{:04x}.bin"` file name: printable ASCII, no whitespace. -/
theorem fname_byte {idx x : ℕ} (hx : x ∈ to_file_name idx) :
    x < 128 ∧ x ≠ 10 ∧ isWsByte x = false := by
  rw [to_file_name] at hx
  rcases List.mem_append.mp hx with h | h
  · simp only [List.mem_cons, List.not_mem_nil, or_false] at h
    rcases h with rfl | rfl | rfl | rfl <;>
      exact ⟨lt_of_lt_of_le (hexDigit_props _ (Nat.mod_lt _ (by omega))).2.1
          (by norm_num),
        (hexDigit_props _ (Nat.mod_lt _ (by omega))).2.2.1,
        (hexDigit_props _ (Nat.mod_lt _ (by omega))).2.2.2.1⟩
  · simp only [List.mem_cons, List.not_mem_nil, or_false] at h
    rcases h with rfl | rfl | rfl | rfl <;> exact ⟨by norm_num, by norm_num, by decide⟩

/-- Bytes of a serialized leaf child line: ASCII and newline-free. -/
theorem childline_byte {hsh : List ℕ} {idx x : ℕ}
    (hx : x ∈ leafBytes ++ [32] ++ toHex hsh ++ [32] ++ to_file_name idx) :
    x < 128 ∧ x ≠ 10 := by
  have hleaf : ∀ y ∈ leafBytes, y < 128 ∧ y ≠ 10 := by decide
  rcases List.mem_append.mp hx with h | h
  · rcases List.mem_append.mp h with h | h
    · rcases List.mem_append.mp h with h | h
      · rcases List.mem_append.mp h with h | h
        · exact hleaf x h
        · simp only [List.mem_cons, List.not_mem_nil, or_false] at h
          subst h
          exact ⟨by norm_num, by norm_num⟩
      · exact ⟨lt_of_lt_of_le (mem_toHex h).2.1 (by norm_num), (mem_toHex h).2.2.1⟩
    · simp only [List.mem_cons, List.not_mem_nil, or_false] at h
      subst h
      exact ⟨by norm_num, by norm_num⟩
  · exact ⟨(fname_byte h).1, (fname_byte h).2.1⟩

/-- A serialized leaf child line parses back to the child. -/
theorem parse_child_line_leaf (hsh : List ℕ) (idx : ℕ)
    (hlen : hsh.length = 32) (hbytes : ∀ c ∈ hsh, c < 256) (hidx : idx < 65536) :
    parse_child_line (leafBytes ++ [32] ++ toHex hsh ++ [32] ++ to_file_name idx) =
      .ok ⟨.leaf, hsh, idx⟩ := by
  have hsplit : (leafBytes ++ [32] ++ toHex hsh ++ [32] ++ to_file_name idx).splitOnP
      isWsByte = [leafBytes, toHex hsh, to_file_name idx] := by
    have e1 : leafBytes ++ [32] ++ toHex hsh ++ [32] ++ to_file_name idx =
        leafBytes ++ 32 :: (toHex hsh ++ 32 :: to_file_name idx) := by
      simp
    rw [e1]
    rw [List.splitOnP_first _ _ (by decide) 32 (by decide) _]
    rw [List.splitOnP_first _ _ (fun x hx => by simp [(mem_toHex hx).2.2.2.1]) 32
      (by decide) _]
    rw [List.splitOnP_eq_single _ _ (fun x hx => by simp [(fname_byte hx).2.2])]
  rw [parse_child_line]
  dsimp only
  rw [hsplit]
  have hfilter : ([leafBytes, toHex hsh, to_file_name idx].filter
      (fun t => !t.isEmpty)) = [leafBytes, toHex hsh, to_file_name idx] := by
    have hne : (toHex hsh).isEmpty = false := by
      rcases hhe : toHex hsh with _ | ⟨x, xs⟩
      · exact absurd hhe (toHex_ne_nil (by intro hnil; rw [hnil] at hlen; simp at hlen))
      · rfl
    simp [List.filter, hne, leafBytes, to_file_name]
  rw [hfilter]
  dsimp only
  rw [if_pos rfl]
  dsimp only
  rw [fromHexPairs_toHex hsh hbytes, file_name_parse idx hidx]

/-- `from_bytes` inverts `to_bytes` on single-leaf nodes (32-byte hashes,
`u16` indices). -/
theorem from_bytes_leaf (hashFn : List ℕ → List ℕ) (hsh : List ℕ) (idx : ℕ)
    (hlen : hsh.length = 32) (hbytes : ∀ c ∈ hsh, c < 256) (hidx : idx < 65536) :
    VerkleNode.from_bytes ((VerkleNode.mk [⟨.leaf, hsh, idx⟩]).to_bytes hashFn) =
      .ok ⟨[⟨.leaf, hsh, idx⟩]⟩ := by
  have hto : (VerkleNode.mk [⟨.leaf, hsh, idx⟩]).to_bytes hashFn =
      toHex ((VerkleNode.mk [⟨.leaf, hsh, idx⟩]).compute_hash hashFn) ++ 10 ::
        ((leafBytes ++ [32] ++ toHex hsh ++ [32] ++ to_file_name idx) ++ [10]) := by
    rw [VerkleNode.to_bytes]
    simp
  have hascii : ∀ c ∈ (VerkleNode.mk [⟨.leaf, hsh, idx⟩]).to_bytes hashFn, c < 128 := by
    rw [hto]
    intro c hcx
    rcases List.mem_append.mp hcx with h | h
    · exact lt_of_lt_of_le (mem_toHex h).2.1 (by norm_num)
    · rcases List.mem_cons.mp h with rfl | h
      · norm_num
      · rcases List.mem_append.mp h with h | h
        · exact (childline_byte h).1
        · simp only [List.mem_cons, List.not_mem_nil, or_false] at h
          subst h
          norm_num
  rw [VerkleNode.from_bytes]
  rw [if_neg (by rw [utf8Valid_of_ascii _ hascii]; simp)]
  have hsplit : ((VerkleNode.mk [⟨.leaf, hsh, idx⟩]).to_bytes hashFn).splitOn 10 =
      [toHex ((VerkleNode.mk [⟨.leaf, hsh, idx⟩]).compute_hash hashFn),
       leafBytes ++ [32] ++ toHex hsh ++ [32] ++ to_file_name idx, []] := by
    rw [hto]
    rw [List.splitOn]
    rw [List.splitOnP_first _ _ (fun x hx => by simp [(mem_toHex hx).2.2.1]) 10
      (by simp) _]
    have e2 : (leafBytes ++ [32] ++ toHex hsh ++ [32] ++ to_file_name idx) ++ [10] =
        (leafBytes ++ [32] ++ toHex hsh ++ [32] ++ to_file_name idx) ++ 10 :: [] := by
      simp
    rw [e2]
    rw [List.splitOnP_first _ _ (fun x hx => by simp [(childline_byte hx).2]) 10
      (by simp) _]
    rfl
  rw [hsplit]
  dsimp only [List.drop]
  have hleafall : leafBytes.all isWsByte = false := by decide
  have hfilter : ([leafBytes ++ [32] ++ toHex hsh ++ [32] ++ to_file_name idx,
      ([] : List ℕ)].filter (fun l => !(l.all isWsByte))) =
      [leafBytes ++ [32] ++ toHex hsh ++ [32] ++ to_file_name idx] := by
    simp [List.filter, hleafall]
  rw [hfilter]
  rw [parseChildren, parse_child_line_leaf hsh idx hlen hbytes hidx]
  dsimp only
  rw [parseChildren]

/-! ### Serialization round trip for general nodes -/

/-- `to_bytes` is the hash line followed by newline-terminated child line
bodies. -/
theorem to_bytes_lines (hashFn : List ℕ → List ℕ) (node : VerkleNode) :
    node.to_bytes hashFn =
      toHex (node.compute_hash hashFn) ++ [10] ++
        (node.children.map (fun ch => childLineBody ch ++ [10])).flatten := rfl

/-- Bytes of a serialized child line body: ASCII and newline-free. -/
theorem childLineBody_byte {ch : NodeChild} {x : ℕ} (hx : x ∈ childLineBody ch) :
    x < 128 ∧ x ≠ 10 := by
  rw [childLineBody] at hx
  have hkind : ∀ y ∈ (match ch.node_type with
      | NodeType.leaf => leafBytes
      | NodeType.branch => branchBytes), y < 128 ∧ y ≠ 10 := by
    cases ch.node_type <;> decide
  rcases List.mem_append.mp hx with h | h
  · rcases List.mem_append.mp h with h | h
    · rcases List.mem_append.mp h with h | h
      · rcases List.mem_append.mp h with h | h
        · exact hkind x h
        · simp only [List.mem_cons, List.not_mem_nil, or_false] at h
          subst h
          exact ⟨by norm_num, by norm_num⟩
      · exact ⟨lt_of_lt_of_le (mem_toHex h).2.1 (by norm_num), (mem_toHex h).2.2.1⟩
    · simp only [List.mem_cons, List.not_mem_nil, or_false] at h
      subst h
      exact ⟨by norm_num, by norm_num⟩
  · exact ⟨(fname_byte h).1, (fname_byte h).2.1⟩

/-- A child line body is never all-whitespace (its kind word is not). -/
theorem childLineBody_not_ws (ch : NodeChild) :
    (childLineBody ch).all isWsByte = false := by
  rw [List.all_eq_false]
  rcases hnt : ch.node_type with _ | _
  · exact ⟨108, by simp [childLineBody, hnt, leafBytes], by decide⟩
  · exact ⟨98, by simp [childLineBody, hnt, branchBytes], by decide⟩

/-- A serialized branch child line parses back to the child. -/
theorem parse_child_line_branch (hsh : List ℕ) (idx : ℕ)
    (hlen : hsh.length = 32) (hbytes : ∀ c ∈ hsh, c < 256) (hidx : idx < 65536) :
    parse_child_line (branchBytes ++ [32] ++ toHex hsh ++ [32] ++ to_file_name idx) =
      .ok ⟨.branch, hsh, idx⟩ := by
  have hsplit : (branchBytes ++ [32] ++ toHex hsh ++ [32] ++ to_file_name idx).splitOnP
      isWsByte = [branchBytes, toHex hsh, to_file_name idx] := by
    have e1 : branchBytes ++ [32] ++ toHex hsh ++ [32] ++ to_file_name idx =
        branchBytes ++ 32 :: (toHex hsh ++ 32 :: to_file_name idx) := by
      simp
    rw [e1]
    rw [List.splitOnP_first _ _ (by decide) 32 (by decide) _]
    rw [List.splitOnP_first _ _ (fun x hx => by simp [(mem_toHex hx).2.2.2.1]) 32
      (by decide) _]
    rw [List.splitOnP_eq_single _ _ (fun x hx => by simp [(fname_byte hx).2.2])]
  rw [parse_child_line]
  dsimp only
  rw [hsplit]
  have hfilter : ([branchBytes, toHex hsh, to_file_name idx].filter
      (fun t => !t.isEmpty)) = [branchBytes, toHex hsh, to_file_name idx] := by
    have hne : (toHex hsh).isEmpty = false := by
      rcases hhe : toHex hsh with _ | ⟨x, xs⟩
      · exact absurd hhe (toHex_ne_nil (by intro hnil; rw [hnil] at hlen; simp at hlen))
      · rfl
    simp [List.filter, hne, branchBytes, to_file_name]
  rw [hfilter]
  dsimp only
  rw [if_neg (by decide), if_pos rfl]
  dsimp only
  rw [fromHexPairs_toHex hsh hbytes, file_name_parse idx hidx]

/-- A serialized child line parses back to the child (either kind). -/
theorem parse_child_line_child (ch : NodeChild)
    (hlen : ch.hash.length = 32) (hbytes : ∀ c ∈ ch.hash, c < 256)
    (hidx : ch.index < 65536) :
    parse_child_line (childLineBody ch) = .ok ch := by
  obtain ⟨nt, hsh, idx⟩ := ch
  cases nt
  · exact parse_child_line_leaf hsh idx hlen hbytes hidx
  · exact parse_child_line_branch hsh idx hlen hbytes hidx

/-- `splitOnP` undoes newline-joining of newline-free bodies. -/
theorem splitOnP_joined :
    ∀ (bodies : List (List ℕ)), (∀ b ∈ bodies, ∀ x ∈ b, x ≠ 10) →
      List.splitOnP (fun x => x == 10) (bodies.map (fun b => b ++ [10])).flatten =
        bodies ++ [[]] := by
  intro bodies
  induction bodies with
  | nil =>
    intro _
    rfl
  | cons b bs ih =>
    intro h
    simp only [List.map_cons, List.flatten_cons]
    have e : (b ++ [10]) ++ (bs.map (fun b => b ++ [10])).flatten =
        b ++ 10 :: (bs.map (fun b => b ++ [10])).flatten := by
      simp
    rw [e]
    rw [List.splitOnP_first _ _ (fun x hx => by simp [h b (by simp) x hx]) 10
      (by simp) _]
    rw [ih (fun b' hb' x hx => h b' (by simp [hb']) x hx)]
    rfl

/-- Parsing the serialized child lines returns the children. -/
theorem parseChildren_bodies :
    ∀ (cs : List NodeChild),
      (∀ ch ∈ cs, ch.hash.length = 32 ∧ (∀ c ∈ ch.hash, c < 256) ∧
        ch.index < 65536) →
      parseChildren (cs.map childLineBody) = .ok cs := by
  intro cs
  induction cs with
  | nil =>
    intro _
    rfl
  | cons ch cs ih =>
    intro h
    simp only [List.map_cons]
    rw [parseChildren, parse_child_line_child ch (h ch (by simp)).1
      (h ch (by simp)).2.1 (h ch (by simp)).2.2]
    dsimp only
    rw [ih (fun c hc => h c (by simp [hc]))]

/-- `from_bytes` inverts `to_bytes` on every node whose children carry
32-byte hashes of bytes and `u16` indices. -/
theorem from_bytes_node (hashFn : List ℕ → List ℕ) (node : VerkleNode)
    (hwf : ∀ ch ∈ node.children, ch.hash.length = 32 ∧ (∀ c ∈ ch.hash, c < 256) ∧
      ch.index < 65536) :
    VerkleNode.from_bytes (node.to_bytes hashFn) = .ok node := by
  have hascii : ∀ c ∈ node.to_bytes hashFn, c < 128 := by
    rw [to_bytes_lines]
    intro c hcx
    rcases List.mem_append.mp hcx with h | h
    · rcases List.mem_append.mp h with h | h
      · exact lt_of_lt_of_le (mem_toHex h).2.1 (by norm_num)
      · simp only [List.mem_cons, List.not_mem_nil, or_false] at h
        subst h
        norm_num
    · obtain ⟨l, hl, hcl⟩ := List.mem_flatten.mp h
      obtain ⟨ch, hch, rfl⟩ := List.mem_map.mp hl
      rcases List.mem_append.mp hcl with h2 | h2
      · exact (childLineBody_byte h2).1
      · simp only [List.mem_cons, List.not_mem_nil, or_false] at h2
        subst h2
        norm_num
  rw [VerkleNode.from_bytes]
  rw [if_neg (by rw [utf8Valid_of_ascii _ hascii]; simp)]
  have hbody : ∀ b ∈ node.children.map childLineBody, ∀ x ∈ b, x ≠ 10 := by
    intro b hb x hx
    obtain ⟨ch, hch, rfl⟩ := List.mem_map.mp hb
    exact (childLineBody_byte hx).2
  have hsplit : ((node.to_bytes hashFn).splitOn 10) =
      toHex (node.compute_hash hashFn) :: (node.children.map childLineBody ++ [[]]) := by
    rw [to_bytes_lines, List.splitOn]
    have e1 : toHex (node.compute_hash hashFn) ++ [10] ++
        (node.children.map (fun ch => childLineBody ch ++ [10])).flatten =
        toHex (node.compute_hash hashFn) ++ 10 ::
          (node.children.map (fun ch => childLineBody ch ++ [10])).flatten := by
      simp
    rw [e1]
    rw [List.splitOnP_first _ _ (fun x hx => by simp [(mem_toHex hx).2.2.1]) 10
      (by simp) _]
    have e2 : node.children.map (fun ch => childLineBody ch ++ [10]) =
        (node.children.map childLineBody).map (fun b => b ++ [10]) := by
      rw [List.map_map]
      rfl
    rw [e2, splitOnP_joined _ hbody]
  rw [hsplit]
  dsimp only [List.drop]
  have hfilter : ((node.children.map childLineBody ++ [[]]).filter
      (fun l => !(l.all isWsByte))) = node.children.map childLineBody := by
    rw [List.filter_append]
    have h1 : (node.children.map childLineBody).filter (fun l => !(l.all isWsByte)) =
        node.children.map childLineBody := by
      rw [List.filter_eq_self]
      intro b hb
      obtain ⟨ch, hch, rfl⟩ := List.mem_map.mp hb
      simp [childLineBody_not_ws]
    have h2 : (([[]] : List (List ℕ)).filter (fun l => !(l.all isWsByte))) = [] := rfl
    rw [h1, h2, List.append_nil]
  rw [hfilter, parseChildren_bodies node.children hwf]

/-! ### The `add_message` invariant -/

/-- The leaf covering id decodes at height zero, so `build_node` makes a
leaf node there. -/
theorem children_for_covering_map_nil (k : ℕ) :
    children_for_covering (map_item_to_covering k WIDTH) WIDTH = [] := by
  have h8 : (WIDTH : ℕ) = 2 ^ 3 := by norm_num [WIDTH]
  rw [h8]
  have hd := decode_map_add (b := 3) (by norm_num) k 0 (Nat.zero_le _)
  rw [Nat.add_zero] at hd
  rw [children_for_covering, hd]

/-- The covering range of a leaf id is its single item. -/
theorem covering_range_map (k : ℕ) :
    covering_range (map_item_to_covering k WIDTH) WIDTH = (k, k + 1) := by
  have h8 : (WIDTH : ℕ) = 2 ^ 3 := by norm_num [WIDTH]
  rw [h8]
  have hd := decode_map_add (b := 3) (by norm_num) k 0 (Nat.zero_le _)
  rw [Nat.add_zero] at hd
  rw [covering_range, hd]
  show (k + 1 - (2 ^ 3) ^ 0, k + 1) = (k, k + 1)
  simp

/-- Every covering id decodes: `y = map n + h` with `h` at most the stack
height of item `n`. -/
theorem decode_shape (y : ℕ) :
    ∃ n h, decode_covering y WIDTH = some (n, h) ∧
      y = map_item_to_covering n WIDTH + h ∧
      h ≤ count_trailing_zeros_base_w (n + 1) WIDTH := by
  have h8 : (WIDTH : ℕ) = 2 ^ 3 := by norm_num [WIDTH]
  rw [h8]
  obtain ⟨n, hny, h1, h2⟩ := exists_inIntervalOf (b := 3) (by norm_num) y
  exact ⟨n, y - map_item_to_covering n (2 ^ 3),
    decode_covering_eq (by norm_num) ⟨h1, h2⟩, by omega, by omega⟩

/-- Children of a covering node are strictly smaller ids. -/
theorem children_lt (y c : ℕ) (hc : c ∈ children_for_covering y WIDTH) : c < y := by
  obtain ⟨n, h, hdec, hy, hle⟩ := decode_shape y
  rw [children_for_covering, hdec] at hc
  rcases h with _ | h'
  · simp at hc
  · dsimp only at hc
    obtain ⟨k, hk, hceq⟩ := List.mem_map.mp hc
    have hceq' : map_item_to_covering (n - k * WIDTH ^ (h' + 1 - 1)) WIDTH +
        (h' + 1 - 1) = c := hceq
    have hmaple : map_item_to_covering (n - k * WIDTH ^ (h' + 1 - 1)) WIDTH ≤
        map_item_to_covering n WIDTH := by
      have h8 : (WIDTH : ℕ) = 2 ^ 3 := by norm_num [WIDTH]
      rw [h8]
      exact map_le_map (by norm_num) (Nat.sub_le _ _)
    omega

/-- A childless covering id is a leaf: `y = map k`, covering exactly item
`k`. -/
theorem children_empty {y : ℕ} (h : children_for_covering y WIDTH = []) :
    ∃ k, y = map_item_to_covering k WIDTH ∧
      covering_range y WIDTH = (k, k + 1) := by
  obtain ⟨n, hh, hdec, hy, hle⟩ := decode_shape y
  rcases hh with _ | h'
  · refine ⟨n, by omega, ?_⟩
    rw [covering_range, hdec]
    show (n + 1 - WIDTH ^ 0, n + 1) = (n, n + 1)
    simp
  · exfalso
    rw [children_for_covering, hdec] at h
    have hlen : (((List.range WIDTH).reverse).map
        (fun k => map_item_to_covering (n - k * WIDTH ^ (h' + 1 - 1)) WIDTH +
          (h' + 1 - 1))).length = ([] : List ℕ).length := congrArg List.length h
    simp [WIDTH] at hlen

/-- The fuel of `expectedNodeGo` is irrelevant above the node id. -/
theorem expectedNodeGo_congr (hashFn : List ℕ → List ℕ) (msgs : List (List ℕ)) :
    ∀ (y fuel fuel' : ℕ), y < fuel → y < fuel' →
      expectedNodeGo hashFn msgs fuel y = expectedNodeGo hashFn msgs fuel' y := by
  intro y
  induction y using Nat.strong_induction_on with
  | _ y ih =>
    intro fuel fuel' hf hf'
    rcases fuel with _ | f
    · omega
    rcases fuel' with _ | f'
    · omega
    rw [expectedNodeGo]
    rw [expectedNodeGo]
    split_ifs with hc
    · rfl
    · congr 1
      refine List.map_congr_left (fun c hcm => ?_)
      have hcy : c < y := children_lt y c hcm
      show (⟨.branch, (expectedNodeGo hashFn msgs f c).compute_hash hashFn,
        to_verkle_id c⟩ : NodeChild) =
        ⟨.branch, (expectedNodeGo hashFn msgs f' c).compute_hash hashFn,
          to_verkle_id c⟩
      rw [ih c hcy f f' (by omega) (by omega)]

/-- One-step unfolding of `expectedNode`. -/
theorem expectedNode_eq (hashFn : List ℕ → List ℕ) (msgs : List (List ℕ)) (y : ℕ) :
    expectedNode hashFn msgs y =
      if (children_for_covering y WIDTH).isEmpty then
        ⟨[⟨.leaf, hashFn (msgs.getD (covering_range y WIDTH).1 []),
          (covering_range y WIDTH).1⟩]⟩
      else
        ⟨(children_for_covering y WIDTH).map (fun c =>
          ⟨.branch, (expectedNode hashFn msgs c).compute_hash hashFn,
           to_verkle_id c⟩)⟩ := by
  rw [expectedNode]
  rw [expectedNodeGo]
  split_ifs with hc
  · rfl
  · congr 1
    refine List.map_congr_left (fun c hcm => ?_)
    have hcy : c < y := children_lt y c hcm
    show (⟨.branch, (expectedNodeGo hashFn msgs y c).compute_hash hashFn,
      to_verkle_id c⟩ : NodeChild) =
      ⟨.branch, (expectedNode hashFn msgs c).compute_hash hashFn, to_verkle_id c⟩
    rw [expectedNode,
      expectedNodeGo_congr hashFn msgs c y (c + 1) hcy (Nat.lt_succ_self c)]

/-- Nodes below the current frontier do not change when a message is
appended. -/
theorem expectedNode_extend (hashFn : List ℕ → List ℕ) (msgs : List (List ℕ))
    (m : List ℕ) :
    ∀ y, y < map_item_to_covering msgs.length WIDTH →
      expectedNode hashFn (msgs ++ [m]) y = expectedNode hashFn msgs y := by
  have h3 : (1 : ℕ) ≤ 3 := by norm_num
  have h8 : (WIDTH : ℕ) = 2 ^ 3 := by norm_num [WIDTH]
  intro y
  induction y using Nat.strong_induction_on with
  | _ y ih =>
    intro hy
    rw [expectedNode_eq, expectedNode_eq]
    split_ifs with hc
    · obtain ⟨k, hk, hcr⟩ := children_empty (List.isEmpty_iff.mp hc)
      have hkL : k < msgs.length := by
        by_contra hkL
        have hle : map_item_to_covering msgs.length WIDTH ≤
            map_item_to_covering k WIDTH := by
          rw [h8]
          exact map_le_map h3 (by omega)
        omega
      rw [hcr]
      show (⟨[⟨.leaf, hashFn ((msgs ++ [m]).getD k []), k⟩]⟩ : VerkleNode) =
        ⟨[⟨.leaf, hashFn (msgs.getD k []), k⟩]⟩
      rw [List.getD_append _ _ _ _ hkL]
    · congr 1
      refine List.map_congr_left (fun c hcm => ?_)
      have hcy : c < y := children_lt y c hcm
      show (⟨.branch, (expectedNode hashFn (msgs ++ [m]) c).compute_hash hashFn,
        to_verkle_id c⟩ : NodeChild) =
        ⟨.branch, (expectedNode hashFn msgs c).compute_hash hashFn,
          to_verkle_id c⟩
      rw [ih c hcy (by omega)]

/-- At a leaf id, the expected node is the single-leaf node of the covered
item. -/
theorem expectedNode_at_map (hashFn : List ℕ → List ℕ) (msgs : List (List ℕ))
    (j : ℕ) :
    expectedNode hashFn msgs (map_item_to_covering j WIDTH) =
      ⟨[⟨.leaf, hashFn (msgs.getD j []), j⟩]⟩ := by
  rw [expectedNode_eq]
  rw [if_pos (by rw [children_for_covering_map_nil]; rfl)]
  rw [covering_range_map]

/-- Children of an expected node carry 32-byte hashes and `u16` indices. -/
theorem expectedNode_children_wf (hashFn : List ℕ → List ℕ) (msgs : List (List ℕ))
    (hhash : ∀ bs, (hashFn bs).length = 32 ∧ ∀ c ∈ hashFn bs, c < 256)
    (y : ℕ) (hy : y < 65536) :
    ∀ ch ∈ (expectedNode hashFn msgs y).children,
      ch.hash.length = 32 ∧ (∀ c ∈ ch.hash, c < 256) ∧ ch.index < 65536 := by
  intro ch hch
  rw [expectedNode_eq] at hch
  split_ifs at hch with hc
  · dsimp only at hch
    simp only [List.mem_cons, List.not_mem_nil, or_false] at hch
    subst hch
    obtain ⟨k, hk, hcr⟩ := children_empty (List.isEmpty_iff.mp hc)
    refine ⟨(hhash _).1, (hhash _).2, ?_⟩
    show (covering_range y WIDTH).1 < 65536
    rw [hcr]
    show k < 65536
    have hkm := self_le_map k WIDTH
    omega
  · dsimp only at hch
    obtain ⟨c, hcm, rfl⟩ := List.mem_map.mp hch
    refine ⟨?_, ?_, ?_⟩
    · show ((expectedNode hashFn msgs c).compute_hash hashFn).length = 32
      rw [VerkleNode.compute_hash]
      exact (hhash _).1
    · show ∀ x ∈ (expectedNode hashFn msgs c).compute_hash hashFn, x < 256
      rw [VerkleNode.compute_hash]
      exact (hhash _).2
    · show to_verkle_id c < 65536
      rw [to_verkle_id]
      exact Nat.mod_lt _ (by norm_num)

/-- Under the stored-node invariant, `get_node` returns the expected
node. -/
theorem get_node_expected (hashFn : List ℕ → List ℕ) (M : List (List ℕ))
    (iso : IsoCore) (N : ℕ)
    (hhash : ∀ bs, (hashFn bs).length = 32 ∧ ∀ c ∈ hashFn bs, c < 256)
    (hwf : CoreWF iso.verkle_core)
    (hnid : iso.verkle_core.next_id = N)
    (hslots : ∀ z < N, iso.verkle_core.get_contents z =
      .ok ((expectedNode hashFn M z).to_bytes hashFn))
    (y : ℕ) (hy : y < N) :
    iso.get_node y = .ok (expectedNode hashFn M y) := by
  have hy16 : y < 65536 := by
    have h1 := hwf.1
    omega
  rw [IsoCore.get_node]
  have hmod : to_verkle_id y = y := by
    rw [to_verkle_id]
    exact Nat.mod_eq_of_lt hy16
  rw [hmod]
  rw [load_message_ok _ _ (by omega)]
  dsimp only
  rw [hslots y hy]
  dsimp only
  exact from_bytes_node hashFn _ (expectedNode_children_wf hashFn M hhash y hy16)

/-- Under the stored-node invariant, `build_node`'s child loop rebuilds
exactly the expected branch children. -/
theorem buildChildren_expected (hashFn : List ℕ → List ℕ) (M : List (List ℕ))
    (iso : IsoCore) (N : ℕ)
    (hhash : ∀ bs, (hashFn bs).length = 32 ∧ ∀ c ∈ hashFn bs, c < 256)
    (hwf : CoreWF iso.verkle_core)
    (hnid : iso.verkle_core.next_id = N)
    (hslots : ∀ z < N, iso.verkle_core.get_contents z =
      .ok ((expectedNode hashFn M z).to_bytes hashFn)) :
    ∀ ys : List ℕ, (∀ c ∈ ys, c < N) →
      iso.buildChildren hashFn ys = .ok (ys.map (fun c =>
        (⟨.branch, (expectedNode hashFn M c).compute_hash hashFn,
          to_verkle_id c⟩ : NodeChild))) := by
  intro ys
  induction ys with
  | nil =>
    intro _
    rfl
  | cons c cs ih =>
    intro h
    rw [IsoCore.buildChildren,
      get_node_expected hashFn M iso N hhash hwf hnid hslots c (h c (by simp))]
    dsimp only
    rw [ih (fun x hx => h x (by simp [hx]))]
    dsimp only
    simp [List.map_cons]

/-- Under the stored-node invariant, `build_node` builds exactly the
expected node (the leaf hash and index must be those of the covered item
when the id is a leaf). -/
theorem build_node_expected (hashFn : List ℕ → List ℕ) (M : List (List ℕ))
    (iso : IsoCore) (N : ℕ) (mh : List ℕ) (di : ℕ)
    (hhash : ∀ bs, (hashFn bs).length = 32 ∧ ∀ c ∈ hashFn bs, c < 256)
    (hwf : CoreWF iso.verkle_core)
    (hnid : iso.verkle_core.next_id = N)
    (hslots : ∀ z < N, iso.verkle_core.get_contents z =
      .ok ((expectedNode hashFn M z).to_bytes hashFn))
    (y : ℕ)
    (hch : ∀ c ∈ children_for_covering y WIDTH, c < N)
    (hleaf : children_for_covering y WIDTH = [] →
      mh = hashFn (M.getD (covering_range y WIDTH).1 []) ∧
      di = (covering_range y WIDTH).1) :
    iso.build_node hashFn y mh di = .ok (expectedNode hashFn M y) := by
  rw [IsoCore.build_node]
  split_ifs with hc
  · obtain ⟨hmh, hdi⟩ := hleaf (List.isEmpty_iff.mp hc)
    rw [expectedNode_eq, if_pos hc, hmh, hdi]
  · rw [buildChildren_expected hashFn M iso N hhash hwf hnid hslots _ hch]
    dsimp only
    rw [expectedNode_eq, if_neg hc]

/-- Success path of the covering-node loop: `next_id` advances by the
number of ids, the other cores and ids below the start are untouched, and
well-formedness is preserved. -/
theorem addNodesLoop_ok (hashFn : List ℕ → List ℕ) :
    ∀ (ys : List ℕ) (iso iso2 : IsoCore) (mh : List ℕ) (di : ℕ),
      IsoCore.addNodesLoop hashFn iso ys mh di = (.ok (), iso2) →
      CoreWF iso.verkle_core →
      CoreWF iso2.verkle_core ∧
      iso2.verkle_core.next_id = iso.verkle_core.next_id + ys.length ∧
      iso2.data_core = iso.data_core ∧
      iso2.sig_core = iso.sig_core ∧
      iso2.signer = iso.signer ∧
      (∀ id, id < iso.verkle_core.next_id →
        iso2.verkle_core.get_contents id = iso.verkle_core.get_contents id) := by
  intro ys
  induction ys with
  | nil =>
    intro iso iso2 mh di hrun hwf
    rw [IsoCore.addNodesLoop] at hrun
    have h2 := congrArg Prod.snd hrun
    dsimp at h2
    subst h2
    exact ⟨hwf, by simp, rfl, rfl, rfl, fun id _ => rfl⟩
  | cons y ys ih =>
    intro iso iso2 mh di hrun hwf
    rw [IsoCore.addNodesLoop] at hrun
    rcases hbn : iso.build_node hashFn y mh di with e | node
    · rw [hbn] at hrun
      dsimp only at hrun
      injection hrun with h1 _
      cases h1
    · rw [hbn] at hrun
      dsimp only at hrun
      rcases hadd : iso.verkle_core.add_message (node.to_bytes hashFn) with ⟨er | r, vc'⟩
      · rw [hadd] at hrun
        dsimp only at hrun
        injection hrun with h1 _
        cases h1
      · rw [hadd] at hrun
        dsimp only at hrun
        have hnf : iso.verkle_core.next_id ≠ 0xFFFF := next_id_ne_full_of_add_ok hadd
        have hca := core_add_ok iso.verkle_core (node.to_bytes hashFn) hwf hnf
        rw [hadd] at hca
        dsimp only at hca
        obtain ⟨hres, hwf', hnid, hpres, hnew⟩ := hca
        have hrec := ih { iso with verkle_core := vc' } iso2 mh di hrun hwf'
        dsimp only at hrec
        obtain ⟨hwf2, hnid2, hdata2, hsig2, hsigner2, hpres2⟩ := hrec
        refine ⟨hwf2, ?_, hdata2, hsig2, hsigner2, ?_⟩
        · rw [List.length_cons, hnid2, hnid]
          omega
        · intro id hid
          rw [hpres2 id (by omega), hpres id hid]

/-- The covering loop stores the expected node at each id it completes. -/
theorem addNodesLoop_stores (hashFn : List ℕ → List ℕ) (M : List (List ℕ))
    (hhash : ∀ bs, (hashFn bs).length = 32 ∧ ∀ c ∈ hashFn bs, c < 256)
    (mh : List ℕ) (di : ℕ) :
    ∀ (cnt s : ℕ) (iso iso2 : IsoCore),
      IsoCore.addNodesLoop hashFn iso (List.range' s cnt) mh di = (.ok (), iso2) →
      CoreWF iso.verkle_core →
      iso.verkle_core.next_id = s →
      (∀ z < s, iso.verkle_core.get_contents z =
        .ok ((expectedNode hashFn M z).to_bytes hashFn)) →
      (∀ y, s ≤ y → y < s + cnt → children_for_covering y WIDTH = [] →
        mh = hashFn (M.getD (covering_range y WIDTH).1 []) ∧
        di = (covering_range y WIDTH).1) →
      CoreWF iso2.verkle_core ∧
      iso2.verkle_core.next_id = s + cnt ∧
      iso2.data_core = iso.data_core ∧
      iso2.sig_core = iso.sig_core ∧
      iso2.signer = iso.signer ∧
      (∀ z < s + cnt, iso2.verkle_core.get_contents z =
        .ok ((expectedNode hashFn M z).to_bytes hashFn)) := by
  intro cnt
  induction cnt with
  | zero =>
    intro s iso iso2 hrun hwf hnid hst hlf
    rw [show List.range' s 0 = [] from rfl] at hrun
    rw [IsoCore.addNodesLoop] at hrun
    have h2 := congrArg Prod.snd hrun
    dsimp at h2
    subst h2
    exact ⟨hwf, by omega, rfl, rfl, rfl, fun z hz => hst z (by omega)⟩
  | succ n ih =>
    intro s iso iso2 hrun hwf hnid hst hlf
    rw [List.range'_succ] at hrun
    rw [IsoCore.addNodesLoop] at hrun
    have hbn : iso.build_node hashFn s mh di = .ok (expectedNode hashFn M s) :=
      build_node_expected hashFn M iso s mh di hhash hwf hnid hst s
        (fun c hc => children_lt s c hc)
        (hlf s (le_refl s) (by omega))
    rw [hbn] at hrun
    dsimp only at hrun
    rcases hadd : iso.verkle_core.add_message
        ((expectedNode hashFn M s).to_bytes hashFn) with ⟨er | r, vc'⟩
    · rw [hadd] at hrun
      dsimp only at hrun
      injection hrun with h1 _
      cases h1
    · rw [hadd] at hrun
      dsimp only at hrun
      have hnf : iso.verkle_core.next_id ≠ 0xFFFF := next_id_ne_full_of_add_ok hadd
      have hca := core_add_ok iso.verkle_core
        ((expectedNode hashFn M s).to_bytes hashFn) hwf hnf
      rw [hadd] at hca
      dsimp only at hca
      obtain ⟨hres, hwf', hnid', hpres, hnew⟩ := hca
      have hslots' : ∀ z < s + 1,
          ({ iso with verkle_core := vc' } : IsoCore).verkle_core.get_contents z =
            .ok ((expectedNode hashFn M z).to_bytes hashFn) := by
        intro z hz
        dsimp only
        rcases Nat.lt_or_ge z s with hzs | hzs
        · rw [hpres z (by omega), hst z hzs]
        · have hzeq : z = s := by omega
          subst hzeq
          rw [hnid] at hnew
          exact hnew
      have hnid2 : ({ iso with verkle_core := vc' } : IsoCore).verkle_core.next_id =
          s + 1 := by
        dsimp only
        omega
      have hlf' : ∀ y, s + 1 ≤ y → y < s + 1 + n →
          children_for_covering y WIDTH = [] →
          mh = hashFn (M.getD (covering_range y WIDTH).1 []) ∧
          di = (covering_range y WIDTH).1 :=
        fun y h1 h2 h3 => hlf y (by omega) (by omega) h3
      have hrec := ih (s + 1) { iso with verkle_core := vc' } iso2 hrun hwf' hnid2
        hslots' hlf'
      dsimp only at hrec
      obtain ⟨hwf2, hnid3, hdata2, hsig2, hsigner2, hst2⟩ := hrec
      exact ⟨hwf2, by omega, hdata2, hsig2, hsigner2, fun z hz => hst2 z (by omega)⟩

/-- The success path of one `IsoCore::add_message` preserves the state
invariant, extending the held messages by the appended one. -/
theorem add_message_step (hashFn signFn : List ℕ → List ℕ) (signerPub : List ℕ)
    (msgs : List (List ℕ)) (iso : IsoCore) (m res : List ℕ) (iso' : IsoCore)
    (hhash : ∀ bs, (hashFn bs).length = 32 ∧ ∀ c ∈ hashFn bs, c < 256)
    (hinv : IsoInv hashFn signerPub msgs iso)
    (hrun : iso.add_message hashFn signFn m signerPub = (.ok res, iso')) :
    IsoInv hashFn signerPub (msgs ++ [m]) iso' := by
  obtain ⟨hsig, hdwf, hdlen, hdget, hvwf, hvlen, hvslots⟩ := hinv
  have h3 : (1 : ℕ) ≤ 3 := by norm_num
  have h8 : (WIDTH : ℕ) = 2 ^ 3 := by norm_num [WIDTH]
  rw [IsoCore.add_message] at hrun
  rw [if_neg (by simp [hsig])] at hrun
  rcases hda : iso.data_core.add_message m with ⟨er | di, dc'⟩
  · rw [hda] at hrun
    dsimp only at hrun
    injection hrun with h1 _
    cases h1
  · rw [hda] at hrun
    dsimp only at hrun
    have hdnf : iso.data_core.next_id ≠ 0xFFFF := next_id_ne_full_of_add_ok hda
    have hdca := core_add_ok iso.data_core m hdwf hdnf
    rw [hda] at hdca
    dsimp only at hdca
    obtain ⟨hdres, hdwf', hdnid, hdpres, hdnew⟩ := hdca
    have hdi : di = msgs.length := by
      injection hdres with h
      rw [h, hdlen]
    have hitem : ({ iso with data_core := dc' } : IsoCore).len - 1 = msgs.length := by
      simp only [IsoCore.len, Core.len]
      omega
    rw [hitem] at hrun
    have hcovs : coverings_for_item msgs.length WIDTH =
        (map_item_to_covering msgs.length WIDTH,
         map_item_to_covering msgs.length WIDTH + 1 +
           count_trailing_zeros_base_w (msgs.length + 1) WIDTH) := by
      rw [coverings_for_item]
    rw [hcovs] at hrun
    dsimp only at hrun
    have hdiffs : map_item_to_covering msgs.length WIDTH + 1 +
        count_trailing_zeros_base_w (msgs.length + 1) WIDTH -
        map_item_to_covering msgs.length WIDTH =
        count_trailing_zeros_base_w (msgs.length + 1) WIDTH + 1 := by
      omega
    rw [hdiffs] at hrun
    rcases hloop : IsoCore.addNodesLoop hashFn { iso with data_core := dc' }
        (List.range' (map_item_to_covering msgs.length WIDTH)
          (count_trailing_zeros_base_w (msgs.length + 1) WIDTH + 1)) (hashFn m) di
      with ⟨e3 | u3, iso2⟩
    · rw [hloop] at hrun
      dsimp only at hrun
      injection hrun with h1 _
      cases h1
    · rw [hloop] at hrun
      dsimp only at hrun
      have hst0 : ∀ z < map_item_to_covering msgs.length WIDTH,
          ({ iso with data_core := dc' } : IsoCore).verkle_core.get_contents z =
            .ok ((expectedNode hashFn (msgs ++ [m]) z).to_bytes hashFn) := by
        intro z hz
        dsimp only
        rw [expectedNode_extend hashFn msgs m z hz]
        exact hvslots z hz
      have hlf0 : ∀ y, map_item_to_covering msgs.length WIDTH ≤ y →
          y < map_item_to_covering msgs.length WIDTH +
            (count_trailing_zeros_base_w (msgs.length + 1) WIDTH + 1) →
          children_for_covering y WIDTH = [] →
          hashFn m = hashFn ((msgs ++ [m]).getD (covering_range y WIDTH).1 []) ∧
          di = (covering_range y WIDTH).1 := by
        intro y h1 h2 hcempty
        obtain ⟨k, hk, hcr⟩ := children_empty hcempty
        have hkL : k = msgs.length := by
          rcases Nat.lt_trichotomy k msgs.length with hlt | heq | hgt
          · exfalso
            have hkm : map_item_to_covering k WIDTH <
                map_item_to_covering msgs.length WIDTH := by
              rw [h8]
              exact map_lt_map h3 hlt
            omega
          · exact heq
          · exfalso
            have hms : map_item_to_covering (msgs.length + 1) WIDTH ≤
                map_item_to_covering k WIDTH := by
              rw [h8]
              exact map_le_map h3 (by omega)
            have hsucc : map_item_to_covering (msgs.length + 1) WIDTH =
                map_item_to_covering msgs.length WIDTH + 1 +
                  count_trailing_zeros_base_w (msgs.length + 1) WIDTH := by
              rw [h8]
              exact map_succ h3 msgs.length
            omega
        subst hkL
        rw [hcr]
        constructor
        · show hashFn m = hashFn ((msgs ++ [m]).getD msgs.length [])
          rw [List.getD_append_right _ _ _ _ (le_refl _)]
          simp
        · show di = msgs.length
          exact hdi
      have hlo := addNodesLoop_stores hashFn (msgs ++ [m]) hhash (hashFn m) di
        (count_trailing_zeros_base_w (msgs.length + 1) WIDTH + 1)
        (map_item_to_covering msgs.length WIDTH)
        { iso with data_core := dc' } iso2 hloop hvwf hvlen hst0 hlf0
      dsimp only at hlo
      obtain ⟨hwf2, hnid2, hdata2, hsig2, hsigner2, hst2⟩ := hlo
      rcases hpk : iso2.peakHashes hashFn (get_peaks iso2.len WIDTH) with e4 | phashes
      · rw [hpk] at hrun
        dsimp only at hrun
        injection hrun with h1 _
        cases h1
      · rw [hpk] at hrun
        dsimp only at hrun
        rcases hsa : iso2.sig_core.add_message
            (SignatureBlock.to_bytes (hashFn phashes.flatten)
              (signFn (hashFn phashes.flatten))) with ⟨er5 | r5, sc'⟩
        · rw [hsa] at hrun
          dsimp only at hrun
          injection hrun with h1 _
          cases h1
        · rw [hsa] at hrun
          dsimp only at hrun
          have hiso' : iso' = { iso2 with sig_core := sc' } := by
            have h2 := congrArg Prod.snd hrun
            dsimp at h2
            exact h2.symm
          subst hiso'
          refine ⟨?_, ?_, ?_, ?_, ?_, ?_, ?_⟩
          · dsimp only
            rw [hsigner2]
            exact hsig
          · dsimp only
            rw [hdata2]
            exact hdwf'
          · dsimp only
            rw [hdata2, hdnid, hdlen]
            simp
          · intro i hi
            dsimp only
            rw [hdata2]
            simp only [List.length_append, List.length_cons, List.length_nil] at hi
            rcases Nat.lt_or_ge i msgs.length with hi' | hi'
            · rw [hdpres i (by omega), hdget i hi']
              congr 1
              rw [List.getD_append _ _ _ _ hi']
            · have hieq : i = msgs.length := by omega
              subst hieq
              rw [hdlen] at hdnew
              rw [hdnew]
              congr 1
              rw [List.getD_append_right _ _ _ _ (le_refl _)]
              simp
          · dsimp only
            exact hwf2
          · dsimp only
            rw [hnid2]
            simp only [List.length_append, List.length_cons, List.length_nil]
            rw [h8, map_succ h3]
            omega
          · intro y hy
            dsimp only
            simp only [List.length_append, List.length_cons, List.length_nil] at hy
            rw [h8, map_succ h3] at hy
            refine hst2 y ?_
            rw [h8]
            omega

/-- Folding `add_message` over a message list preserves the invariant. -/
theorem addAll_inv (hashFn signFn : List ℕ → List ℕ) (signerPub : List ℕ)
    (hhash : ∀ bs, (hashFn bs).length = 32 ∧ ∀ c ∈ hashFn bs, c < 256) :
    ∀ (ms msgs : List (List ℕ)) (iso iso' : IsoCore),
      IsoInv hashFn signerPub msgs iso →
      IsoCore.addAll hashFn signFn signerPub iso ms = .ok iso' →
      IsoInv hashFn signerPub (msgs ++ ms) iso' := by
  intro ms
  induction ms with
  | nil =>
    intro msgs iso iso' hinv hrun
    rw [IsoCore.addAll] at hrun
    injection hrun with h
    subst h
    simpa using hinv
  | cons m ms ih =>
    intro msgs iso iso' hinv hrun
    rw [IsoCore.addAll] at hrun
    rcases hadd : iso.add_message hashFn signFn m signerPub with ⟨er | r, iso1⟩
    · rw [hadd] at hrun
      dsimp only at hrun
      cases hrun
    · rw [hadd] at hrun
      dsimp only at hrun
      have hstep := add_message_step hashFn signFn signerPub msgs iso m r iso1
        hhash hinv hadd
      have hres := ih (msgs ++ [m]) iso1 iso' hstep hrun
      simpa [List.append_assoc] using hres

/-- The fresh in-memory store satisfies the invariant for no messages. -/
theorem isoInv_init (hashFn : List ℕ → List ℕ) (signerPub : List ℕ) :
    IsoInv hashFn signerPub [] (IsoCore.create_mem signerPub) := by
  refine ⟨rfl, ⟨by norm_num [IsoCore.create_mem, Core.create_mem], ?_, ?_⟩, rfl, ?_,
    ⟨by norm_num [IsoCore.create_mem, Core.create_mem], ?_, ?_⟩, ?_, ?_⟩
  · intro kv hkv
    simp [IsoCore.create_mem, Core.create_mem] at hkv
  · intro kv hkv
    simp [IsoCore.create_mem, Core.create_mem] at hkv
  · intro i hi
    simp at hi
  · intro kv hkv
    simp [IsoCore.create_mem, Core.create_mem] at hkv
  · intro kv hkv
    simp [IsoCore.create_mem, Core.create_mem] at hkv
  · exact (map_zero (by norm_num [WIDTH])).symm
  · intro y hy
    have h0 : map_item_to_covering ([] : List (List ℕ)).length WIDTH = 0 :=
      map_zero (by norm_num [WIDTH])
    rw [h0] at hy
    exact absurd hy (Nat.not_lt_zero y)

/-- C1 (confirmed; blake3/hex/`get_peaks` modelled from the spec: the
crypto crates and parts of `covering.rs` are outside the sources).  For a
store built by appending `L` messages to a fresh `IsoCore` with a
32-byte-digest hash adapter, reading item `i < L` via `get_message`
returns exactly the bytes originally appended; and whenever the located
single leaf child's recorded hash differs from the hash of the stored
data, `get_message` fails with `IntegrityError`. -/
theorem claim_C1 (hashFn signFn : List ℕ → List ℕ) (signerPub : List ℕ)
    (msgs : List (List ℕ)) (iso' : IsoCore)
    (hhash : ∀ bs, (hashFn bs).length = 32 ∧ ∀ c ∈ hashFn bs, c < 256)
    (hrun : IsoCore.addAll hashFn signFn signerPub (IsoCore.create_mem signerPub)
      msgs = .ok iso') :
    (∀ i < msgs.length, iso'.get_message hashFn i = .ok (msgs.getD i [])) ∧
    (∀ (iso : IsoCore) (i : ℕ) (child : NodeChild) (d : List ℕ),
      iso.get_node (coverings_for_item i WIDTH).1 = .ok ⟨[child]⟩ →
      child.node_type = .leaf →
      iso.data_core.get_contents child.index = .ok d →
      hashFn d ≠ child.hash →
      iso.get_message hashFn i = .error .IntegrityError) := by
  have hinv : IsoInv hashFn signerPub msgs iso' := by
    have h := addAll_inv hashFn signFn signerPub hhash msgs []
      (IsoCore.create_mem signerPub) iso' (isoInv_init hashFn signerPub) hrun
    simpa using h
  obtain ⟨hsig, hdwf, hdlen, hdget, hvwf, hvlen, hvslots⟩ := hinv
  have h3 : (1 : ℕ) ≤ 3 := by norm_num
  have h8 : (WIDTH : ℕ) = 2 ^ 3 := by norm_num [WIDTH]
  constructor
  · intro i hi
    have hmaplt : map_item_to_covering i WIDTH <
        map_item_to_covering msgs.length WIDTH := by
      rw [h8]
      exact map_lt_map h3 hi
    have hgn : iso'.get_node (map_item_to_covering i WIDTH) =
        .ok ⟨[⟨.leaf, hashFn (msgs.getD i []), i⟩]⟩ := by
      have h := get_node_expected hashFn msgs iso'
        (map_item_to_covering msgs.length WIDTH) hhash hvwf hvlen hvslots
        (map_item_to_covering i WIDTH) hmaplt
      rw [expectedNode_at_map] at h
      exact h
    rw [IsoCore.get_message]
    dsimp only
    rw [coverings_for_item]
    dsimp only
    rw [hgn]
    dsimp only
    rw [if_neg (by simp)]
    rw [load_message_ok _ _ (by rw [hdlen]; exact hi)]
    dsimp only
    rw [hdget i hi]
    dsimp only
    rw [if_neg (by simp)]
  · intro iso i child d hnode htype hdata hne
    rw [IsoCore.get_message]
    dsimp only
    rw [hnode]
    dsimp only
    rw [if_neg (by rw [htype]; simp)]
    rw [load_message_ok _ _ (lt_of_get_contents_ok hdata)]
    dsimp only
    rw [hdata]
    dsimp only
    rw [if_pos hne]

/-- Witness: the empty run satisfies C1's hypotheses (a fixed 32-byte
digest adapter and a successful — trivial — `addAll`); the read part is
vacuous and the integrity clause is the universally quantified
conclusion. -/
theorem claim_C1_witness :
    (∀ bs : List ℕ, ((fun _ : List ℕ => List.replicate 32 0) bs).length = 32 ∧
      ∀ c ∈ (fun _ : List ℕ => List.replicate 32 0) bs, c < 256) ∧
    IsoCore.addAll (fun _ : List ℕ => List.replicate 32 0)
      (fun _ : List ℕ => List.replicate 64 0) [1]
      (IsoCore.create_mem [1]) [] = .ok (IsoCore.create_mem [1]) ∧
    ((∀ i < ([] : List (List ℕ)).length,
      (IsoCore.create_mem [1]).get_message (fun _ : List ℕ => List.replicate 32 0) i =
        .ok (([] : List (List ℕ)).getD i [])) ∧
     (∀ (iso : IsoCore) (i : ℕ) (child : NodeChild) (d : List ℕ),
      iso.get_node (coverings_for_item i WIDTH).1 = .ok ⟨[child]⟩ →
      child.node_type = .leaf →
      iso.data_core.get_contents child.index = .ok d →
      (fun _ : List ℕ => List.replicate 32 0) d ≠ child.hash →
      iso.get_message (fun _ : List ℕ => List.replicate 32 0) i =
        .error .IntegrityError)) :=
  ⟨fun bs => ⟨by simp, fun c hc => by
      have := List.eq_of_mem_replicate hc
      omega⟩,
   rfl,
   claim_C1 (fun _ : List ℕ => List.replicate 32 0)
     (fun _ : List ℕ => List.replicate 64 0) [1] [] (IsoCore.create_mem [1])
     (fun bs => ⟨by simp, fun c hc => by
       have := List.eq_of_mem_replicate hc
       omega⟩) rfl⟩

/-- C2 (confirmed; `get_peaks` and `to_verkle_id` modelled from the spec).
For every successful run appending `L` messages to a fresh `IsoCore` with a
32-byte-digest hash adapter, the inner (verkle) log's length equals
`map_item_to_covering L` at width `W = 8` — every node required by covering
indexing has been appended — and for every covering node id `y` below that
bound, leaf and branch alike, the verkle slot `to_verkle_id y` (the
post-order `NodeId` as a `u16` `MessageId`) stores exactly the serialized
covering node for `y`: a single leaf child (the covered item's hash and
data index) for height-0 ids, else one branch child per covering child,
carrying the child node's recomputed hash and slot.  In particular each
node's storage slot in the inner log equals its post-order `NodeId`. -/
theorem claim_C2 (hashFn signFn : List ℕ → List ℕ) (signerPub : List ℕ)
    (msgs : List (List ℕ)) (iso' : IsoCore)
    (hhash : ∀ bs, (hashFn bs).length = 32 ∧ ∀ c ∈ hashFn bs, c < 256)
    (hrun : IsoCore.addAll hashFn signFn signerPub (IsoCore.create_mem signerPub)
      msgs = .ok iso') :
    iso'.verkle_core.len = map_item_to_covering msgs.length WIDTH ∧
    (∀ y < map_item_to_covering msgs.length WIDTH,
      iso'.verkle_core.get_contents (to_verkle_id y) =
        .ok ((expectedNode hashFn msgs y).to_bytes hashFn)) := by
  have hinv : IsoInv hashFn signerPub msgs iso' := by
    have h := addAll_inv hashFn signFn signerPub hhash msgs []
      (IsoCore.create_mem signerPub) iso' (isoInv_init hashFn signerPub) hrun
    simpa using h
  obtain ⟨hsig, hdwf, hdlen, hdget, hvwf, hvlen, hvslots⟩ := hinv
  refine ⟨by rw [Core.len, hvlen], ?_⟩
  intro y hy
  have hmod : to_verkle_id y = y := by
    rw [to_verkle_id]
    have h1 := hvwf.1
    exact Nat.mod_eq_of_lt (by omega)
  rw [hmod]
  exact hvslots y hy

/-- Witness: the empty run instantiates C2's hypotheses (a fixed 32-byte
digest adapter and a successful — trivial — `addAll`); the verkle log of
the fresh store has length `map_item_to_covering 0 = 0` and the per-node
clause is vacuous there. -/
theorem claim_C2_witness :
    (∀ bs : List ℕ, ((fun _ : List ℕ => List.replicate 32 0) bs).length = 32 ∧
      ∀ c ∈ (fun _ : List ℕ => List.replicate 32 0) bs, c < 256) ∧
    IsoCore.addAll (fun _ : List ℕ => List.replicate 32 0)
      (fun _ : List ℕ => List.replicate 64 0) [1]
      (IsoCore.create_mem [1]) [] = .ok (IsoCore.create_mem [1]) ∧
    ((IsoCore.create_mem [1]).verkle_core.len =
      map_item_to_covering ([] : List (List ℕ)).length WIDTH ∧
     (∀ y < map_item_to_covering ([] : List (List ℕ)).length WIDTH,
      (IsoCore.create_mem [1]).verkle_core.get_contents (to_verkle_id y) =
        .ok ((expectedNode (fun _ : List ℕ => List.replicate 32 0) [] y).to_bytes
          (fun _ : List ℕ => List.replicate 32 0)))) :=
  ⟨fun bs => ⟨by simp, fun c hc => by
      have := List.eq_of_mem_replicate hc
      omega⟩,
   rfl,
   claim_C2 (fun _ : List ℕ => List.replicate 32 0)
     (fun _ : List ℕ => List.replicate 64 0) [1] [] (IsoCore.create_mem [1])
     (fun bs => ⟨by simp, fun c hc => by
       have := List.eq_of_mem_replicate hc
       omega⟩) rfl⟩

/-- C10 (confirmed; crypto adapter spec-modelled).  `add_message` with a
public key different from the store's recorded signer returns
`SignerMismatch` and the returned state is the unchanged store, so nothing
is appended to the data, verkle or signature core and all three lengths
are unmodified. -/
theorem claim_C10 (iso : IsoCore) (hashFn signFn : List ℕ → List ℕ)
    (message signerPub : List ℕ) (h : signerPub ≠ iso.signer) :
    iso.add_message hashFn signFn message signerPub =
      (.error .SignerMismatch, iso) ∧
    (iso.add_message hashFn signFn message signerPub).2.data_core.len =
      iso.data_core.len ∧
    (iso.add_message hashFn signFn message signerPub).2.verkle_core.len =
      iso.verkle_core.len ∧
    (iso.add_message hashFn signFn message signerPub).2.sig_core.len =
      iso.sig_core.len := by
  have hrun : iso.add_message hashFn signFn message signerPub =
      (.error .SignerMismatch, iso) := by
    rw [IsoCore.add_message, if_pos h]
  exact ⟨hrun, by rw [hrun], by rw [hrun], by rw [hrun]⟩

/-- Witness: a concrete mismatching key is rejected with the store
returned unchanged. -/
theorem claim_C10_witness :
    (([2] : List ℕ) ≠ (IsoCore.create_mem [1]).signer) ∧
    ((IsoCore.create_mem [1]).add_message (fun _ : List ℕ => List.replicate 32 0)
        (fun _ : List ℕ => List.replicate 64 0) [9] [2] =
      (.error .SignerMismatch, IsoCore.create_mem [1]) ∧
     ((IsoCore.create_mem [1]).add_message (fun _ : List ℕ => List.replicate 32 0)
        (fun _ : List ℕ => List.replicate 64 0) [9] [2]).2.data_core.len =
      (IsoCore.create_mem [1]).data_core.len ∧
     ((IsoCore.create_mem [1]).add_message (fun _ : List ℕ => List.replicate 32 0)
        (fun _ : List ℕ => List.replicate 64 0) [9] [2]).2.verkle_core.len =
      (IsoCore.create_mem [1]).verkle_core.len ∧
     ((IsoCore.create_mem [1]).add_message (fun _ : List ℕ => List.replicate 32 0)
        (fun _ : List ℕ => List.replicate 64 0) [9] [2]).2.sig_core.len =
      (IsoCore.create_mem [1]).sig_core.len) :=
  ⟨by decide, claim_C10 (IsoCore.create_mem [1])
    (fun _ : List ℕ => List.replicate 32 0)
    (fun _ : List ℕ => List.replicate 64 0) [9] [2] (by decide)⟩

/-! ### NeoDisk file layout -/

theorem ndHeaderBytes_length (fs c : ℕ) : (ndHeaderBytes fs c).length = 32 := by
  simp [ndHeaderBytes, ndMagic, le64]

/-- Patching the message count at offset 24 rewrites only the header's
last field. -/
theorem writeAt_header (fs c : ℕ) (rest : List ℕ) :
    writeAt (ndHeaderBytes fs 0 ++ rest) 24 (le64 c) = ndHeaderBytes fs c ++ rest := by
  have hA : ndHeaderBytes fs 0 =
      (ndMagic ++ [1, 0] ++ List.replicate 6 0 ++ le64 fs) ++ le64 0 := by
    simp [ndHeaderBytes, List.append_assoc]
  have h24 : (ndMagic ++ [1, 0] ++ List.replicate 6 0 ++ le64 fs).length = 24 := by
    simp [ndMagic, le64]
  have h32 : (ndHeaderBytes fs 0).length = 32 := ndHeaderBytes_length fs 0
  rw [writeAt]
  have ht : ((ndHeaderBytes fs 0 ++ rest).take 24) =
      ndMagic ++ [1, 0] ++ List.replicate 6 0 ++ le64 fs := by
    rw [hA, List.append_assoc, ← h24, List.take_left]
  have hlc : (le64 c).length = 8 := by simp [le64]
  have hd : (ndHeaderBytes fs 0 ++ rest).drop (24 + (le64 c).length) = rest := by
    have h1 : 24 + (le64 c).length = (ndHeaderBytes fs 0).length := by
      rw [hlc, h32]
    rw [h1, List.drop_left]
  rw [ht, hd]
  simp [ndHeaderBytes, List.append_assoc]

/-- `flush_frame` appends exactly one compressed body (or nothing) and
empties the buffer.  The grouping of whole records is tracked: the pending
records become the new frame's body. -/
theorem ndFlushFrame_groups (compress : List ℕ → List ℕ) (fs : ℕ)
    (w : NeoDiskWriter) (groups : List (List (List ℕ))) (pending : List (List ℕ))
    (hf : w.file = ndHeaderBytes fs 0 ++
      ((groups.map (fun g => compress g.flatten)).flatten))
    (hb : w.buffer = pending.flatten)
    (hpne : ∀ r ∈ pending, r ≠ []) :
    ∃ groups' : List (List (List ℕ)),
      (ndFlushFrame compress w).file =
        ndHeaderBytes fs 0 ++ ((groups'.map (fun g => compress g.flatten)).flatten) ∧
      groups'.flatten = groups.flatten ++ pending ∧
      (ndFlushFrame compress w).buffer = [] ∧
      (ndFlushFrame compress w).message_count = w.message_count := by
  rw [ndFlushFrame]
  split_ifs with h
  · have hpemp : pending = [] := by
      cases pending with
      | nil => rfl
      | cons r rs =>
        have hflat : r ++ rs.flatten = [] := by
          have h1 := List.isEmpty_iff.mp h
          rw [hb] at h1
          simpa using h1
        exact absurd (List.append_eq_nil.mp hflat).1 (hpne r (by simp))
    subst hpemp
    exact ⟨groups, hf, by simp, by rw [hb]; rfl, rfl⟩
  · refine ⟨groups ++ [pending], ?_, by simp, rfl, rfl⟩
    dsimp only
    rw [hf, hb]
    simp [List.append_assoc]

/-- Folding `append`: the file stays header plus concatenated compressed
frame bodies, each body the flattening of a group of whole records, with
the remaining whole records pending in the buffer. -/
theorem ndAppendAll_groups (compress : List ℕ → List ℕ) (fs : ℕ) :
    ∀ (msgs : List (List ℕ)) (w : NeoDiskWriter)
      (groups : List (List (List ℕ))) (pending : List (List ℕ)),
      w.file = ndHeaderBytes fs 0 ++
        ((groups.map (fun g => compress g.flatten)).flatten) →
      w.buffer = pending.flatten →
      (∀ r ∈ pending, r ≠ []) →
      (∀ m ∈ msgs, m ≠ []) →
      ∃ (groups' : List (List (List ℕ))) (pending' : List (List ℕ)),
        (ndAppendAll compress w msgs).file =
          ndHeaderBytes fs 0 ++ ((groups'.map (fun g => compress g.flatten)).flatten) ∧
        (ndAppendAll compress w msgs).buffer = pending'.flatten ∧
        (∀ r ∈ pending', r ≠ []) ∧
        groups'.flatten ++ pending' = groups.flatten ++ pending ++ msgs ∧
        (ndAppendAll compress w msgs).message_count =
          w.message_count + msgs.length := by
  intro msgs
  induction msgs with
  | nil =>
    intro w groups pending hf hb hpne _
    rw [ndAppendAll]
    exact ⟨groups, pending, hf, hb, hpne, by simp, by simp⟩
  | cons m ms ih =>
    intro w groups pending hf hb hpne hmsgs
    rw [ndAppendAll, ndAppend]
    dsimp only
    have hw1f : ({ w with
        buffer := w.buffer ++ m,
        message_count := w.message_count + 1,
        current_frame_messages := w.current_frame_messages + 1 } : NeoDiskWriter).file =
        ndHeaderBytes fs 0 ++ ((groups.map (fun g => compress g.flatten)).flatten) := hf
    have hw1b : ({ w with
        buffer := w.buffer ++ m,
        message_count := w.message_count + 1,
        current_frame_messages := w.current_frame_messages + 1 } : NeoDiskWriter).buffer =
        (pending ++ [m]).flatten := by
      dsimp only
      rw [hb]
      simp
    have hpne' : ∀ r ∈ pending ++ [m], r ≠ [] := by
      intro r hr
      rcases List.mem_append.mp hr with h1 | h1
      · exact hpne r h1
      · simp only [List.mem_cons, List.not_mem_nil, or_false] at h1
        subst h1
        exact hmsgs r (by simp)
    split_ifs with hcond
    · dsimp only
      obtain ⟨g1, hf1, hflat1, hbuf1, hcnt1⟩ :=
        ndFlushFrame_groups compress fs _ groups (pending ++ [m]) hw1f hw1b hpne'
      obtain ⟨groups', pending', hf', hb', hpne'', hflat', hcnt'⟩ :=
        ih _ g1 [] hf1 (by rw [hbuf1]; rfl) (by intro r hr; simp at hr)
          (fun x hx => hmsgs x (by simp [hx]))
      refine ⟨groups', pending', hf', hb', hpne'', ?_, ?_⟩
      · rw [hflat', hflat1]
        simp [List.append_assoc]
      · rw [hcnt', hcnt1]
        have hproj : ({ w with
              buffer := w.buffer ++ m,
              message_count := w.message_count + 1,
              current_frame_messages := w.current_frame_messages + 1 } :
            NeoDiskWriter).message_count = w.message_count + 1 := rfl
        rw [hproj]
        simp only [List.length_cons]
        omega
    · dsimp only
      obtain ⟨groups', pending', hf', hb', hpne'', hflat', hcnt'⟩ :=
        ih _ groups (pending ++ [m]) hw1f hw1b hpne'
          (fun x hx => hmsgs x (by simp [hx]))
      refine ⟨groups', pending', hf', hb', hpne'', ?_, ?_⟩
      · rw [hflat']
        simp [List.append_assoc]
      · rw [hcnt']
        have hproj : ({ w with
              buffer := w.buffer ++ m,
              message_count := w.message_count + 1,
              current_frame_messages := w.current_frame_messages + 1 } :
            NeoDiskWriter).message_count = w.message_count + 1 := rfl
        rw [hproj]
        simp only [List.length_cons]
        omega

/-- C6 (corrected, amended).  A NeoDisk file produced by the writer has
layout `[32-byte header][compressed frame bodies, concatenated with no
per-frame headers][index][16-byte footer le64(index_offset) ++ MAGIC]`:
the appended records partition in order into groups, one per frame, and
each frame body is the zstd compression of the raw concatenation of its
group's whole records (the records appended since the last frame
boundary); a well-closed file ends with the footer whose last 8 bytes
equal `"NEODISK\x00"`.  Opening a file whose header parses but whose last
8 bytes are not the magic fails with `InvalidMagic`.  (The spec's claim
that each frame begins with a NeoPack list-encoded `FrameHeader` is
false: see the counterexample.)  NeoPack records are never empty (every
encoding starts with a tag byte), which the grouping statement uses. -/
theorem claim_C6 (compress : List ℕ → List ℕ) (fs : ℕ) (msgs : List (List ℕ))
    (hne : ∀ m ∈ msgs, m ≠ []) :
    (∃ (groups : List (List (List ℕ))) (index : List ℕ),
      (ndFlush compress (ndAppendAll compress (ndCreate fs) msgs)).file =
        ndHeaderBytes fs msgs.length ++
          (((groups.map (fun g => compress g.flatten)).flatten) ++ (index ++
            (le64 (32 + ((groups.map (fun g => compress g.flatten)).flatten).length) ++
              ndMagic))) ∧
      groups.flatten = msgs) ∧
    (∀ (file : List ℕ) (hdr : NdHeader),
      ndHeaderFromBytes (file.take 32) = .ok hdr →
      48 ≤ file.length →
      (file.drop (file.length - 8)).take 8 ≠ ndMagic →
      ndOpen file = .error .InvalidMagic) := by
  constructor
  · obtain ⟨groups, pending, hfile, hbuf, hpne, hflat, hcount⟩ :=
      ndAppendAll_groups compress fs msgs (ndCreate fs) [] []
        (by simp [ndCreate]) rfl (by intro r hr; simp at hr) hne
    obtain ⟨groups1, hfile1, hflat1, hbuf1, hcnt1⟩ := ndFlushFrame_groups compress fs
      (ndAppendAll compress (ndCreate fs) msgs) groups pending hfile hbuf hpne
    have hflatm : groups1.flatten = msgs := by
      rw [hflat1]
      simpa using hflat
    refine ⟨groups1, ndIndexBytes (ndFlushFrame compress
      (ndAppendAll compress (ndCreate fs) msgs)).frames, ?_, hflatm⟩
    rw [ndFlush]
    have hoff : (ndFlushFrame compress (ndAppendAll compress (ndCreate fs) msgs)).file.length =
        32 + ((groups1.map (fun g => compress g.flatten)).flatten).length := by
      rw [hfile1]
      simp [ndHeaderBytes_length]
    have hcnt2 : (ndFlushFrame compress (ndAppendAll compress (ndCreate fs) msgs)).message_count =
        msgs.length := by
      rw [hcnt1, hcount]
      simp [ndCreate]
    rw [hoff, hcnt2, hfile1]
    have hshape : (ndHeaderBytes fs 0 ++ ((groups1.map (fun g => compress g.flatten)).flatten)) ++
        ndIndexBytes (ndFlushFrame compress (ndAppendAll compress (ndCreate fs) msgs)).frames ++
        le64 (32 + ((groups1.map (fun g => compress g.flatten)).flatten).length) ++ ndMagic =
        ndHeaderBytes fs 0 ++ (((groups1.map (fun g => compress g.flatten)).flatten) ++
          (ndIndexBytes (ndFlushFrame compress (ndAppendAll compress (ndCreate fs) msgs)).frames ++
            (le64 (32 + ((groups1.map (fun g => compress g.flatten)).flatten).length) ++
              ndMagic))) := by
      simp [List.append_assoc]
    rw [hshape, writeAt_header]
  · intro file hdr hhdr hlen hmagic
    rw [ndOpen, hhdr]
    dsimp only
    rw [if_neg (by omega)]
    have he : file.length - 16 + 8 = file.length - 8 := by omega
    rw [he, if_pos hmagic]

/-- Witness: the empty run (no records, so the nonemptiness hypothesis is
vacuous) produces a well-formed layout, and a 48-byte file with a valid
header but zeroed footer is rejected with `InvalidMagic`. -/
theorem claim_C6_witness :
    (∀ m ∈ ([] : List (List ℕ)), m ≠ []) ∧
    ((∃ (groups : List (List (List ℕ))) (index : List ℕ),
      (ndFlush (fun x => x) (ndAppendAll (fun x => x) (ndCreate 1) [])).file =
        ndHeaderBytes 1 ([] : List (List ℕ)).length ++
          (((groups.map (fun g => (fun x : List ℕ => x) g.flatten)).flatten) ++ (index ++
            (le64 (32 + ((groups.map (fun g => (fun x : List ℕ => x) g.flatten)).flatten).length) ++
              ndMagic))) ∧
      groups.flatten = ([] : List (List ℕ)))) ∧
    ndHeaderFromBytes ((ndHeaderBytes 1 0 ++ List.replicate 16 0).take 32) =
      .ok ⟨1, 1, 0⟩ ∧
    ndOpen (ndHeaderBytes 1 0 ++ List.replicate 16 0) = .error .InvalidMagic :=
  ⟨by simp,
   (claim_C6 (fun x => x) 1 [] (by simp)).1,
   rfl,
   (claim_C6 (fun x => x) 1 [] (by simp)).2 (ndHeaderBytes 1 0 ++ List.replicate 16 0)
     ⟨1, 1, 0⟩ rfl (by decide) (by decide)⟩

/-- Counterexample to the per-frame-header part of C6: with identity
compression and frame size 1, the single appended record `[65]` begins at
file offset 32 as the raw byte 65, while every NeoPack-encoded
`FrameHeader` begins with the `list` tag byte — so no frame starts with a
`FrameHeader`. -/
theorem claim_C6_counterexample :
    (ndFlush (fun x => x) (ndAppendAll (fun x => x) (ndCreate 1) [[65]])).file.getD 32 0 =
      65 ∧
    (∀ (fn cs ds : ℕ) (js : List ℕ),
      (frameHeaderEncode fn cs ds js).getD 0 0 = tagToByte .list) ∧
    (65 : ℕ) ≠ tagToByte .list := by
  refine ⟨by decide, fun fn cs ds js => rfl, by decide⟩

end Home
